import Mathlib

/-!
# den: a shallow embedding of the indexing and reconciliation engine

The definitions below transcribe the Go sources of `den` (packages `den`,
`database`, `internal/mimecat`, `internal/mediainfo`) into executable Lean
functions.  Go maps are association lists whose list order stands for the
(unspecified) iteration order; Go `error` values are `Option String`
(`none` is `nil`); functions returning `(T, error)` return `Except String T`;
the SQLite file, the directory tree and the wall clock are explicit values.
The few standard-library functions the program relies on (`time`,
`path/filepath`, `strings`, the SQL `LIKE` operator) are transcribed from
their documented behaviour next to the code that calls them.
-/

namespace Den

deriving instance DecidableEq for Except

/-! ## Go integers and `time` -/

/-- Two-complement wrap-around of an integer into the range of `int64`. -/
def wrap64 (x : Int) : Int :=
  (x + 9223372036854775808) % 18446744073709551616 - 9223372036854775808

/-- The range of `int64`. -/
def isInt64 (x : Int) : Prop := -9223372036854775808 ≤ x ∧ x ≤ 9223372036854775807

instance (x : Int) : Decidable (isInt64 x) := by unfold isInt64; infer_instance

/-- Go `time.Location` pointers that occur: `nil` (UTC) and `time.Local`. -/
inductive Location where
  | UTC
  | Local
  deriving DecidableEq, Repr

/-- Go `time.Time` without a monotonic clock reading (no value handled by
the program carries one): `wall` is the nanosecond field, `ext` the seconds
since January 1 of year 1, `loc` the location pointer.  The Go operators
`==` and `!=` on `time.Time` compare the three fields, which is the derived
equality here. -/
structure Time where
  wall : Nat
  ext : Int
  loc : Location
  deriving DecidableEq, Repr

/-- Go `time.Duration`: a count of nanoseconds. -/
abbrev Duration := Int

namespace time

/-- Constant `time.Second`. -/
def Second : Duration := 1000000000

/-- Seconds from January 1 of year 1 to January 1 of 1970
(`unixToInternal` in package `time`). -/
def unixToInternal : Int := 62135596800

/-- Constant `internalToUnix` of package `time`. -/
def internalToUnix : Int := -unixToInternal

/-- Go `unixTime(sec, nsec)`: `Time{uint64(nsec), sec + unixToInternal, Local}`. -/
def unixTime (sec nsec : Int) : Time :=
  { wall := nsec.toNat, ext := wrap64 (sec + unixToInternal), loc := Location.Local }

/-- Go `time.Unix(sec, nsec)`; a `nsec` outside `[0, 1e9)` is carried into
the seconds with Go truncated division. -/
def Unix (sec nsec : Int) : Time :=
  if nsec < 0 ∨ nsec ≥ 1000000000 then
    let n := Int.tdiv nsec 1000000000
    let sec1 := wrap64 (sec + n)
    let nsec1 := nsec - n * 1000000000
    if nsec1 < 0 then unixTime (wrap64 (sec1 - 1)) (nsec1 + 1000000000)
    else unixTime sec1 nsec1
  else unixTime sec nsec

end time

namespace Time

/-- Go `t.nsec()`: `int32(t.wall & nsecMask)` with `nsecMask = 1<<30 - 1`. -/
def nsec (t : Time) : Int := (t.wall % 1073741824 : Nat)

/-- Go `t.sec()` for a time without monotonic reading: the `ext` field. -/
def sec (t : Time) : Int := t.ext

/-- Go `t.Unix()`: seconds since the Unix epoch, `t.sec() + internalToUnix`. -/
def Unix (t : Time) : Int := wrap64 (t.sec + time.internalToUnix)

/-- Go `t.Before(u)` for times without monotonic reading. -/
def Before (t u : Time) : Bool :=
  decide (t.sec < u.sec) || (decide (t.sec = u.sec) && decide (t.nsec < u.nsec))

/-- Go `t.addSec(d)`: saturating addition on the seconds. -/
def addSec (t : Time) (d : Int) : Time :=
  let sum := wrap64 (t.ext + d)
  if decide (sum > t.ext) = decide (d > 0) then { t with ext := sum }
  else if d > 0 then { t with ext := 9223372036854775807 }
  else { t with ext := -9223372036854775807 }

/-- Go `t.Add(d)` for a time without monotonic reading. -/
def Add (t : Time) (d : Duration) : Time :=
  let dsec := Int.tdiv d 1000000000
  let nsec := t.nsec + Int.tmod d 1000000000
  if nsec ≥ 1000000000 then
    addSec { t with wall := (nsec - 1000000000).toNat } (dsec + 1)
  else if nsec < 0 then
    addSec { t with wall := (nsec + 1000000000).toNat } (dsec - 1)
  else
    addSec { t with wall := nsec.toNat } dsec

/-- The remainder computed by Go `div(t, d)` (package `time`) for `d > 0`:
the time since the zero time modulo `d`, taken on the absolute value and
mirrored for times before year 1.  The general case of the source, a
128-bit long division, is given by its result. -/
def divRem (t : Time) (d : Duration) : Duration :=
  let neg := decide (t.sec < 0)
  let sn : Int × Int :=
    if t.sec < 0 then
      let s := wrap64 (-t.sec)
      let n := -t.nsec
      if n < 0 then (wrap64 (s - 1), n + 1000000000) else (s, n)
    else (t.sec, t.nsec)
  let r : Int :=
    if d < time.Second ∧ Int.tmod time.Second (d + d) = 0 then
      Int.tmod sn.2 d
    else if Int.tmod d time.Second = 0 then
      Int.tmod sn.1 (Int.tdiv d time.Second) * time.Second + sn.2
    else
      (sn.1 % 18446744073709551616 * 1000000000 + sn.2) % d
  if neg ∧ r ≠ 0 then d - r else r

/-- Go `t.Truncate(d)`: round `t` down to a multiple of `d` since the zero
time; `d <= 0` returns `t` unchanged. -/
def Truncate (t : Time) (d : Duration) : Time :=
  if d ≤ 0 then t else t.Add (-(t.divRem d))

end Time

/-! ## Go maps -/

/-- A Go `map[string]V`: an association list with pairwise distinct keys;
the order of the list is the order in which a `range` loop visits it. -/
abbrev GoMap (V : Type) := List (String × V)

namespace GoMap

/-- The map index expression `v, ok := m[k]`. -/
def get {V : Type} : GoMap V → String → Option V
  | [], _ => none
  | (k1, v) :: r, k => if k1 = k then some v else get r k

/-- The assignment `m[k] = v`. -/
def set {V : Type} : GoMap V → String → V → GoMap V
  | [], k, v => [(k, v)]
  | (k1, v1) :: r, k, v => if k1 = k then (k, v) :: r else (k1, v1) :: set r k v

/-- The keys of the map, in iteration order. -/
def keys {V : Type} (m : GoMap V) : List String := m.map Prod.fst

/-- Go `maps.Copy(dst, src)`: every pair of `src` is assigned into `dst`. -/
def Copy {V : Type} (dst src : GoMap V) : GoMap V :=
  src.foldl (fun acc kv => acc.set kv.1 kv.2) dst

end GoMap

/-! ## Files, directory entries and the directory tree -/

/-- The type bits of a Go `fs.FileMode` as returned by `d.Type()`. -/
inductive FileMode where
  | Regular
  | Dir
  | Symlink
  | NamedPipe
  | Socket
  | Device
  | CharDevice
  | Irregular
  deriving DecidableEq, Repr

/-- Go `m.IsRegular()`: no type bit is set. -/
def FileMode.IsRegular (m : FileMode) : Bool := m = FileMode.Regular

/-- What `d.Info()` and, on it, `times.Get` report about a file: size,
modification time and the optional birth and change times. -/
structure FileInfo where
  Size : Int
  ModTime : Time
  BirthTime : Option Time
  ChangeTime : Option Time
  deriving DecidableEq, Repr

/-- Go `fs.DirEntry`: name, type bits and the result of `Info()`. -/
structure DirEntry where
  Name : String
  Typ : FileMode
  Info : Except String FileInfo
  deriving DecidableEq

/-- Go `d.IsDir()`. -/
def DirEntry.IsDir (d : DirEntry) : Bool := d.Typ = FileMode.Dir

/-- A directory tree as `filepath.WalkDir` sees it: the entry itself, the
error of `os.ReadDir` on it (if any) and the entries `os.ReadDir` returned,
in the order returned. -/
inductive FSNode where
  | node (d : DirEntry) (readErr : Option String) (children : List FSNode)

/-- The directory entry of a node. -/
def FSNode.entry : FSNode → DirEntry
  | .node d _ _ => d

namespace filepath

/-- Go `filepath.Join(dir, name)` for a cleaned directory path that does not
end with a separator and a plain name, the only way the program calls it: a
tracked root has passed `filepath.Abs`, and `TrackPath` rejects `/`. -/
def Join (dir name : String) : String := dir ++ "/" ++ name

/-- The loop of Go `filepath.Ext` on the reversed path: the characters from
the last dot of the last path element on, collected in `acc`. -/
def extRev : List Char → List Char → List Char
  | [], _ => []
  | c :: r, acc =>
    if c = '/' then [] else if c = '.' then c :: acc else extRev r (c :: acc)

/-- Go `filepath.Ext(path)`: the suffix beginning at the final dot in the
final element of `path`; empty if there is no dot. -/
def Ext (path : String) : String := String.mk (extRev path.data.reverse [])

/-- The values returned by a `fs.WalkDirFunc`: `fs.SkipDir`, `fs.SkipAll`
or another error. -/
inductive WalkErr where
  | SkipDir
  | SkipAll
  | err (msg : String)
  deriving DecidableEq, Repr

/-- Go `walkDir(path, d, fn)` of package `path/filepath`, with the state
the callback closes over passed explicitly. -/
def walkDir {σ : Type} (fn : String → Option DirEntry → Option String → σ → Option WalkErr × σ) :
    String → FSNode → σ → Option WalkErr × σ
  | path, .node d readErr children, s =>
    match fn path (some d) none s with
    | (some e, s1) =>
      if e = WalkErr.SkipDir ∧ d.IsDir then (none, s1) else (some e, s1)
    | (none, s1) =>
      if !d.IsDir then (none, s1)
      else
        match readErr with
        | some e =>
          match fn path (some d) (some e) s1 with
          | (some e2, s2) =>
            if e2 = WalkErr.SkipDir ∧ d.IsDir then (none, s2) else (some e2, s2)
          | (none, s2) => walkDirs path children s2
        | none => walkDirs path children s1
where
  /-- The loop over the entries of a directory in `walkDir`. -/
  walkDirs : String → List FSNode → σ → Option WalkErr × σ
  | _, [], s => (none, s)
  | path, c :: cs, s =>
    match walkDir fn (Join path c.entry.Name) c s with
    | (some WalkErr.SkipDir, s1) => (none, s1)
    | (some e, s1) => (some e, s1)
    | (none, s1) => walkDirs path cs s1

/-- Go `filepath.WalkDir(root, fn)`; `lstat` is the result of
`os.Lstat(root)`, the tree standing at `root`. -/
def WalkDir {σ : Type} (lstat : Except String FSNode) (root : String)
    (fn : String → Option DirEntry → Option String → σ → Option WalkErr × σ) (s : σ) :
    Option String × σ :=
  let r := match lstat with
    | .error e => fn root none (some e) s
    | .ok n => walkDir fn root n s
  match r with
  | (some (WalkErr.err e), s1) => (some e, s1)
  | (_, s1) => (none, s1)

end filepath

/-- Function `isHiddenFile` of `hidden_unix.go`:
`len(name) > 1 && name[0] == '.'`, never an error. -/
def isHiddenFile (name : String) : Bool × Option String :=
  (decide (name.utf8ByteSize > 1) && name.data.head? == some '.', none)

/-! ## Package `internal/mimecat` -/

namespace mimecat

/-- Type `Category` of package `mimecat` with its five constants. -/
inductive Category where
  | Other
  | Picture
  | Video
  | Audio
  | Document
  deriving DecidableEq, Repr

/-- The MIME strings of the second `case` of the first `switch` in
`MIMEToCategory`, as written in the source. -/
def documentMIMEs : List String :=
  [ "application/json",
    "application/msword",
    "application/pdf",
    "application/rtf",
    "application/vnd.oasis.opendocument.presentation ",
    "application/vnd.oasis.opendocument.spreadsheet",
    "application/vnd.oasis.opendocument.text",
    "application/vnd.openxmlformats-officedocument.presentationml.presentation",
    "application/vnd.openxmlformats-officedocument.spreadsheetml.sheet",
    "application/vnd.openxmlformats-officedocument.wordprocessingml.document",
    "application/x-openscad",
    "application/x-perl",
    "application/x-php",
    "application/x-powershell",
    "application/x-ruby",
    "application/x-troff-man",
    "application/xml",
    "application/yaml" ]

/-- The first result of Go `strings.Cut(s, "/")`: the text before the first
slash, the whole string if there is none. -/
def firstSegment (s : String) : String := String.mk (s.data.takeWhile (fun c => c != '/'))

/-- Function `MIMEToCategory` of package `mimecat`. -/
def MIMEToCategory (mime : String) : Category :=
  if mime = "application/ogg" then Category.Audio
  else if mime ∈ documentMIMEs then Category.Document
  else
    let seg := firstSegment mime
    if seg = "image" then Category.Picture
    else if seg = "video" then Category.Video
    else if seg = "audio" then Category.Audio
    else if seg = "message" ∨ seg = "text" then Category.Document
    else Category.Other

end mimecat

/-! ## Package `internal/mediainfo` -/

namespace mediainfo

/-- Type `Type` of package `mediainfo` with its four constants. -/
inductive InfoType where
  | TypeOther
  | TypeVideo
  | TypeAudio
  | TypePicture
  deriving DecidableEq, Repr

/-- Struct `Info` of package `mediainfo`; the defaults are the Go zero
value `Info{}`. -/
structure Info where
  Typ : InfoType := InfoType.TypeOther
  Duration : Option Duration := none
  Year : Option Int := none
  Author : String := ""
  Camera : String := ""
  deriving DecidableEq, Repr

/-- Function `MediaInfo` of package `mediainfo`.  `opened` is the outcome of
`mi.Open(path)` of the external library: its error, or the record the
stream analysis of the opened file fills in.  On an error the function
returns the untouched `Info{}` together with the error. -/
def MediaInfo (opened : Except String Info) : Info × Option String :=
  match opened with
  | .error e => ({}, some e)
  | .ok i => (i, none)

end mediainfo

/-! ## The environment of a run -/

/-- Everything outside the program that a run reads: the filesystem, the
standard-library lookups, the metadata library and the wall clock. -/
structure World where
  /-- Go `filepath.Abs`. -/
  Abs : String → Except String String
  /-- The error of `os.Stat(path)`, `none` when the path exists. -/
  Stat : String → Option String
  /-- Result of `os.Lstat(root)` with the tree standing below `root`. -/
  Lstat : String → Except String FSNode
  /-- Result of `os.Open(path)` followed by one `Read` of up to 512 bytes:
  the error of `Open`, or the bytes read (`buf[:n]`). -/
  Open : String → Except String (List Nat)
  /-- Go `http.DetectContentType` on non-empty data. -/
  Sniff : List Nat → String
  /-- Go `mime.TypeByExtension`. -/
  TypeByExtension : String → String
  /-- The external metadata library on a path, see `mediainfo.MediaInfo`. -/
  MediaOpen : String → Except String mediainfo.Info
  /-- The wall clock in nanoseconds: the reading returned by the `n`-th
  call of `time.Now` or `time.Since`. -/
  Now : Nat → Int

/-- Go `http.DetectContentType(data)`: empty data matches no signature
but the text signature, so the result is `text/plain; charset=utf-8`. -/
def World.DetectContentType (w : World) (data : List Nat) : String :=
  if data = [] then "text/plain; charset=utf-8" else w.Sniff data

/-! ## Package `database` -/

namespace database

/-- Struct `File` of `database/types.go`. -/
structure File where
  id : Int := 0
  Path : String
  Size : Int
  CreatedGuess : Time
  Modified : Time
  MIME : String
  deriving DecidableEq, Repr

/-- Struct `Picture`: a `File` and the camera. -/
structure Picture where
  File : File
  Camera : String
  deriving DecidableEq, Repr

/-- Struct `Video`. -/
structure Video where
  File : File
  Duration : Option Duration
  Camera : String
  Year : Option Int
  deriving DecidableEq, Repr

/-- Struct `Audio`. -/
structure Audio where
  File : File
  Duration : Option Duration
  Author : String
  Year : Option Int
  deriving DecidableEq, Repr

/-- Struct `Document`. -/
structure Document where
  File : File
  deriving DecidableEq, Repr

/-- Struct `ShortFileInfo` of `database/rescan.go`. -/
structure ShortFileInfo where
  Size : Int
  ModTime : Time
  deriving DecidableEq, Repr

/-- A row of table `file` (`schema_v1.go`). -/
structure FileRow where
  id : Int
  path : String
  size : Int
  created_guess : Int
  modified : Int
  mime : String
  deriving DecidableEq, Repr

/-- A row of table `picture`. -/
structure PictureRow where
  file : Int
  camera : Option String
  deriving DecidableEq, Repr

/-- A row of table `video`. -/
structure VideoRow where
  file : Int
  seconds : Option Int
  camera : Option String
  year : Option Int
  deriving DecidableEq, Repr

/-- A row of table `audio`. -/
structure AudioRow where
  file : Int
  seconds : Option Int
  author : Option String
  year : Option Int
  deriving DecidableEq, Repr

/-- A row of table `document`. -/
structure DocumentRow where
  file : Int
  deriving DecidableEq, Repr

/-- The tables of schema version 1. -/
structure Tables where
  tracked_path : List String := []
  file : List FileRow := []
  picture : List PictureRow := []
  video : List VideoRow := []
  audio : List AudioRow := []
  document : List DocumentRow := []
  deriving DecidableEq, Repr

/-- Struct `DB`: `d` is the database file (its committed tables), `tx` the
tables as seen inside the open write transaction `db.tx` (`none` when the
pointer is nil), `txLock` whether the mutex is held.  `faults` decides for
each coming call into the storage engine whether it fails (an exhausted
list means no further failure). -/
structure DB where
  d : Tables := {}
  tx : Option Tables := none
  txLock : Bool := false
  faults : List Bool := []
  deriving DecidableEq, Repr

/-- The errors of package `database` that callers tell apart: the sentinel
`errAlreadyExists` and every other error. -/
inductive DBError where
  | errAlreadyExists
  | other (msg : String)
  deriving DecidableEq, Repr

/-- Consult the storage engine: does the coming call fail? -/
def DB.fails (db : DB) : Bool × DB :=
  match db.faults with
  | [] => (false, db)
  | b :: r => (b, { db with faults := r })

/-- Method `BeginTx`.  With the mutex held, `Lock` does not return; the
model reports this as an error and changes nothing. -/
def DB.BeginTx (db : DB) : Option String × DB :=
  if db.txLock then (some "BeginTx blocks: the write lock is held", db)
  else
    match db.fails with
    | (true, db1) => (some "could not start transaction: storage failure", db1)
    | (false, db1) => (none, { db1 with tx := some db1.d, txLock := true })

/-- Method `Commit`: the deferred function unlocks and clears `db.tx`
whether or not the commit succeeds.  Without a transaction the Go code
dereferences a nil pointer; the model reports an error and changes nothing. -/
def DB.Commit (db : DB) : Option String × DB :=
  match db.tx with
  | none => (some "Commit without transaction", db)
  | some t =>
    match db.fails with
    | (true, db1) =>
      (some "could not commit transaction: storage failure",
        { db1 with tx := none, txLock := false })
    | (false, db1) => (none, { db1 with d := t, tx := none, txLock := false })

/-- Method `Rollback`, with the same deferred function as `Commit`. -/
def DB.Rollback (db : DB) : Option String × DB :=
  match db.tx with
  | none => (some "Rollback without transaction", db)
  | some _ =>
    match db.fails with
    | (true, db1) =>
      (some "could not roll back transaction: storage failure",
        { db1 with tx := none, txLock := false })
    | (false, db1) => (none, { db1 with tx := none, txLock := false })

/-- The row id SQLite gives to a new row of a table with an
`INTEGER PRIMARY KEY`: one more than the largest id in use. -/
def nextId (rows : List FileRow) : Int :=
  rows.foldl (fun m r => max m r.id) 0 + 1

/-- Method `addFile`:
`INSERT INTO file (...) VALUES (...) ON CONFLICT (path) DO NOTHING` inside
`db.tx`, then `LastInsertId` and `RowsAffected` (which the SQLite driver
never fails).  Returns the id and the error of the Go function; on a
conflict the id is not used by any caller and is given as 0. -/
def DB.addFile (db : DB) (file : File) : (Int × Option DBError) × DB :=
  match db.tx with
  | none => ((0, some (DBError.other "addFile without transaction")), db)
  | some t =>
    match db.fails with
    | (true, db1) =>
      ((0, some (DBError.other "could not create file entry: storage failure")), db1)
    | (false, db1) =>
      if t.file.any (fun r => r.path = file.Path) then
        ((0, some DBError.errAlreadyExists), db1)
      else
        let id := nextId t.file
        let row : FileRow :=
          { id := id, path := file.Path, size := file.Size,
            created_guess := file.CreatedGuess.Unix, modified := file.Modified.Unix,
            mime := file.MIME }
        ((id, none), { db1 with tx := some { t with file := t.file ++ [row] } })

/-- Go `tx.Exec` of one more statement inside `db.tx`: `stmt` is the effect
of the statement on the tables (`none` when a constraint rejects it), `msg`
the error text when it fails. -/
def DB.Exec (db : DB) (stmt : Tables → Option Tables) (msg : String) : Option String × DB :=
  match db.tx with
  | none => (some "Exec without transaction", db)
  | some t =>
    match db.fails with
    | (true, db1) => (some msg, db1)
    | (false, db1) =>
      match stmt t with
      | none => (some msg, db1)
      | some t1 => (none, { db1 with tx := some t1 })

/-- A Go string stored through a `*string`: SQL NULL for the nil pointer,
which is what the `Add` methods pass for the empty string. -/
def nullIfEmpty (s : String) : Option String := if s ≠ "" then some s else none

/-- Go `int(d.Seconds())` for the `*time.Duration` of a record.  The source
goes through `float64`; for the durations the program builds (whole
milliseconds, see `mediainfo.MediaInfo`) the result is the truncated
quotient. -/
def wholeSeconds (d : Option Duration) : Option Int := d.map (fun x => Int.tdiv x 1000000000)

/-- Statement `INSERT INTO picture (file, camera) VALUES (?, ?)`; the
primary key `file` rejects a second row for the same file. -/
def insertPicture (row : PictureRow) (t : Tables) : Option Tables :=
  if t.picture.any (fun r => r.file = row.file) then none
  else some { t with picture := t.picture ++ [row] }

/-- Statement `INSERT INTO video (file, seconds, camera, year) VALUES (?, ?, ?, ?)`. -/
def insertVideo (row : VideoRow) (t : Tables) : Option Tables :=
  if t.video.any (fun r => r.file = row.file) then none
  else some { t with video := t.video ++ [row] }

/-- Statement `INSERT INTO audio (file, seconds, author, year) VALUES (?, ?, ?, ?)`. -/
def insertAudio (row : AudioRow) (t : Tables) : Option Tables :=
  if t.audio.any (fun r => r.file = row.file) then none
  else some { t with audio := t.audio ++ [row] }

/-- Statement `INSERT INTO document (file) VALUES (?)`. -/
def insertDocument (row : DocumentRow) (t : Tables) : Option Tables :=
  if t.document.any (fun r => r.file = row.file) then none
  else some { t with document := t.document ++ [row] }

/-- Method `AddPicture`. -/
def DB.AddPicture (db : DB) (pic : Picture) : Option String × DB :=
  match db.addFile pic.File with
  | ((_, some DBError.errAlreadyExists), db1) => (none, db1)
  | ((_, some (DBError.other e)), db1) => (some e, db1)
  | ((id, none), db1) =>
    db1.Exec (insertPicture { file := id, camera := nullIfEmpty pic.Camera })
      "could not add picture for file"

/-- Method `AddVideo`. -/
def DB.AddVideo (db : DB) (vid : Video) : Option String × DB :=
  match db.addFile vid.File with
  | ((_, some DBError.errAlreadyExists), db1) => (none, db1)
  | ((_, some (DBError.other e)), db1) => (some e, db1)
  | ((id, none), db1) =>
    let row : VideoRow :=
      { file := id, seconds := wholeSeconds vid.Duration,
        camera := nullIfEmpty vid.Camera, year := vid.Year }
    db1.Exec (insertVideo row) "could not add video for file"

/-- Method `AddAudio`. -/
def DB.AddAudio (db : DB) (audio : Audio) : Option String × DB :=
  match db.addFile audio.File with
  | ((_, some DBError.errAlreadyExists), db1) => (none, db1)
  | ((_, some (DBError.other e)), db1) => (some e, db1)
  | ((id, none), db1) =>
    let row : AudioRow :=
      { file := id, seconds := wholeSeconds audio.Duration,
        author := nullIfEmpty audio.Author, year := audio.Year }
    db1.Exec (insertAudio row) "could not add audio for file"

/-- Method `AddDocument`. -/
def DB.AddDocument (db : DB) (doc : Document) : Option String × DB :=
  match db.addFile doc.File with
  | ((_, some DBError.errAlreadyExists), db1) => (none, db1)
  | ((_, some (DBError.other e)), db1) => (some e, db1)
  | ((id, none), db1) =>
    db1.Exec (insertDocument { file := id }) "could not add document for file"

/-- Method `AddFile`. -/
def DB.AddFile (db : DB) (file : File) : Option String × DB :=
  match db.addFile file with
  | ((_, some DBError.errAlreadyExists), db1) => (none, db1)
  | ((_, some (DBError.other e)), db1) => (some e, db1)
  | ((_, none), db1) => (none, db1)

/-! ### `database/rescan.go` and `database/config.go` -/

/-- The SQL `LIKE` operator of SQLite with its default settings: `%`
matches any run of characters, `_` any single character, every other
character itself or its other ASCII case. -/
def sqlLike : List Char → List Char → Bool
  | [], s => s.isEmpty
  | c :: p, s =>
    if c = '%' then s.tails.any (fun t => sqlLike p t)
    else
      match s with
      | [] => false
      | c1 :: s1 => (c = '_' || c.toLower = c1.toLower) && sqlLike p s1

/-- Method `AllFileInfosAt`:
`SELECT path, size, modified FROM file WHERE path LIKE ?` with the argument
`filepath.Join(path, "%")`, read inside `db.tx` into a map. -/
def DB.AllFileInfosAt (db : DB) (path : String) : Except String (GoMap ShortFileInfo) × DB :=
  match db.tx with
  | none => (.error "AllFileInfosAt without transaction", db)
  | some t =>
    match db.fails with
    | (true, db1) => (.error "could not query database: storage failure", db1)
    | (false, db1) =>
      let rows := t.file.filter (fun r => sqlLike (filepath.Join path "%").data r.path.data)
      (.ok (rows.foldl
        (fun infos r => infos.set r.path { Size := r.size, ModTime := time.Unix r.modified 0 })
        []), db1)

/-- Statement `DELETE FROM file WHERE path IN (?, ...)`; the extension
tables reference `file(id)` with `ON DELETE CASCADE`. -/
def deleteFiles (paths : List String) (t : Tables) : Option Tables :=
  let gone := (t.file.filter (fun r => r.path ∈ paths)).map (fun r => r.id)
  some { t with
    file := t.file.filter (fun r => r.path ∉ paths),
    picture := t.picture.filter (fun r => r.file ∉ gone),
    video := t.video.filter (fun r => r.file ∉ gone),
    audio := t.audio.filter (fun r => r.file ∉ gone),
    document := t.document.filter (fun r => r.file ∉ gone) }

/-- The loop of method `DeletePaths` from index `i` on, `paths` being
`paths[i:]`; every round deletes the next chunk of at most 1000 paths.
`fuel` bounds the number of rounds. -/
def DB.deleteChunks : Nat → List String → DB → Option String × DB
  | 0, _, db => (none, db)
  | fuel + 1, paths, db =>
    if paths = [] then (none, db)
    else
      match db.Exec (deleteFiles (paths.take 1000)) "could not delete: storage failure" with
      | (some e, db1) => (some e, db1)
      | (none, db1) => deleteChunks fuel (paths.drop 1000) db1

/-- Method `DeletePaths`; the loop runs at most once per path. -/
def DB.DeletePaths (db : DB) (paths : List String) : Option String × DB :=
  db.deleteChunks paths.length paths

/-- Method `TrackedPaths`: `SELECT path FROM tracked_path` on the database
file. -/
def DB.TrackedPaths (db : DB) : Except String (List String) × DB :=
  match db.fails with
  | (true, db1) => (.error "could not query tracked paths: storage failure", db1)
  | (false, db1) => (.ok db1.d.tracked_path, db1)

/-- Go `strings.TrimSuffix(s, "/")`. -/
def trimSeparator (s : String) : String :=
  match s.data.reverse with
  | '/' :: r => String.mk r.reverse
  | _ => s

/-- Go `strings.HasPrefix(s, pre)`. -/
def hasPrefix (s pre : String) : Bool := pre.data.isPrefixOf s.data

/-- The loop of method `TrackPath` over the tracked paths: the error of the
first old path that equals, contains or lies inside `path`. -/
def trackConflict (path : String) : List String → Option String
  | [] => none
  | oldPath :: rest =>
    if oldPath = path then some "path is already tracked"
    else if hasPrefix path oldPath then
      some ("path is already contained in tracked path \x27" ++ oldPath ++ "\x27")
    else if hasPrefix oldPath path then
      some ("path contains already tracked path \x27" ++ oldPath ++ "\x27")
    else trackConflict path rest

/-- Method `TrackPath`; `stat` is `os.Stat` (its error).  The transaction is
one of its own on the database file: begin, read the tracked paths, insert,
commit. -/
def DB.TrackPath (db : DB) (stat : String → Option String) (path0 : String) :
    Option String × DB :=
  let path := trimSeparator path0
  match stat path with
  | some e => (some ("could not find info: " ++ e), db)
  | none =>
    match db.fails with
    | (true, db1) => (some "could not start transaction: storage failure", db1)
    | (false, db1) =>
      match db1.fails with
      | (true, db2) => (some "could not find previous paths: storage failure", db2)
      | (false, db2) =>
        match trackConflict path db2.d.tracked_path with
        | some e => (some e, db2)
        | none =>
          match db2.fails with
          | (true, db3) => (some "could not track path: storage failure", db3)
          | (false, db3) =>
            match db3.fails with
            | (true, db4) => (some "could not commit transaction: storage failure", db4)
            | (false, db4) =>
              (none, { db4 with d := { db4.d with tracked_path := db4.d.tracked_path ++ [path] } })

/-- The scan of a bracket set in a SQLite `GLOB` pattern after its optional
`^` and optional leading `]` (the loop `while( c2 && c2!=']' )` of
`patternCompare`): `c` is the character of the string, `prior` the variable
`prior_c` (`none` for 0), `seen` whether `c` was found.  Returns `seen` and
the pattern after the closing bracket, `none` when the pattern ends inside
the set. -/
def globSet (c : Char) : List Char → Option Char → Bool → Option (Bool × List Char)
  | [], _, _ => none
  | [c2], _, seen =>
    if c2 = ']' then some (seen, [])
    else globSet c [] (some c2) (seen || c = c2)
  | c2 :: hi :: rest, prior, seen =>
    if c2 = ']' then some (seen, hi :: rest)
    else if c2 = '-' ∧ hi ≠ ']' ∧ prior.isSome then
      globSet c rest none
        (seen || (decide ((prior.getD c).val ≤ c.val) && decide (c.val ≤ hi.val)))
    else globSet c (hi :: rest) (some c2) (seen || c = c2)

/-- The SQL `GLOB` operator of SQLite (`patternCompare` with the GLOB
wildcards): `*` matches any run of characters, `?` any single character,
`[...]` one character of the set (ranges with `-`, complement with a leading
`^`, a leading `]` is literal), every other character itself, with case.
`fuel` bounds the number of steps along the pattern. -/
def globFuel : Nat → List Char → List Char → Bool
  | 0, _, _ => false
  | _ + 1, [], s => s.isEmpty
  | fuel + 1, c :: p, s =>
    if c = '*' then s.tails.any (fun t => globFuel fuel p t)
    else
      match s with
      | [] => false
      | x :: s1 =>
        if c = '?' then globFuel fuel p s1
        else if c = '[' then
          let inv : Bool := p.head? = some '^'
          let p1 := if inv then p.drop 1 else p
          let lead : Bool := p1.head? = some ']'
          let p2 := if lead then p1.drop 1 else p1
          match globSet x p2 none (lead && x = ']') with
          | none => false
          | some (seen, rest) => (seen != inv) && globFuel fuel rest s1
        else c = x && globFuel fuel p s1

/-- The value of `str GLOB pattern`. -/
def sqlGlob (pattern str : List Char) : Bool := globFuel (pattern.length + 1) pattern str

/-- Delete the rows of `file` selected by `del`; the extension tables
reference `file(id)` with `ON DELETE CASCADE`. -/
def deleteWhere (del : FileRow → Bool) (t : Tables) : Tables :=
  let gone := (t.file.filter del).map (fun r => r.id)
  { t with
    file := t.file.filter (fun r => !del r),
    picture := t.picture.filter (fun r => r.file ∉ gone),
    video := t.video.filter (fun r => r.file ∉ gone),
    audio := t.audio.filter (fun r => r.file ∉ gone),
    document := t.document.filter (fun r => r.file ∉ gone) }

/-- Method `UntrackPath`.  The transaction is one of its own on the database
file: begin, `DELETE FROM tracked_path WHERE path = ?` (which must delete
exactly one row), read the remaining tracked paths, then `DELETE FROM file`
when none remains and otherwise
`DELETE FROM file WHERE path NOT GLOB ? AND path NOT GLOB ? ...` with the
arguments `filepath.Join(path, "*")` of the remaining paths, commit. -/
def DB.UntrackPath (db : DB) (path : String) : Option String × DB :=
  match db.fails with
  | (true, db1) => (some "could not start transaction: storage failure", db1)
  | (false, db1) =>
    match db1.fails with
    | (true, db2) => (some "storage failure", db2)
    | (false, db2) =>
      let n := db2.d.tracked_path.count path
      if n ≠ 1 then (some ("untracked " ++ toString n ++ " instead of 1 paths"), db2)
      else
        match db2.fails with
        | (true, db3) => (some "could not find previous paths: storage failure", db3)
        | (false, db3) =>
          let paths := db3.d.tracked_path.filter (fun p => p ≠ path)
          match db3.fails with
          | (true, db4) => (some "could not delete old entries: storage failure", db4)
          | (false, db4) =>
            let files :=
              if paths.length = 0 then deleteWhere (fun _ => true) db4.d
              else
                deleteWhere
                  (fun r => paths.all (fun p => !sqlGlob (filepath.Join p "*").data r.path.data))
                  db4.d
            match db4.fails with
            | (true, db5) => (some "could not commit transaction: storage failure", db5)
            | (false, db5) => (none, { db5 with d := { files with tracked_path := paths } })

/-- The text `q` of the statement that one round of `DeletePaths` builds for
`n = j - i` arguments:
`DELETE FROM file WHERE path IN (?` followed by `n - 1` times `, ?` and `)`.
It is the statement whose effect is `deleteFiles`. -/
def deletePathsQuery (n : Nat) : String :=
  "DELETE FROM file WHERE path IN (?" ++ String.join (List.replicate (n - 1) ", ?") ++ ")"

/-- The number of placeholders `?` in the text of a statement. -/
def placeholders (q : String) : Nat := q.data.count '?'

end database

open database mimecat

/-! ## Package `den`: `add.go` -/

/-- Struct `addition` of `add.go`. -/
structure addition where
  path : String
  d : DirEntry
  mime : String
  mediainfo : mediainfo.Info := {}

/-- Struct `Progress`. -/
structure Progress where
  Done : Int := 0
  Total : Int := 0
  deriving DecidableEq, Repr

/-- The progress channel as its consumer sees it: the snapshots received so
far and whether the channel has been closed. -/
structure Chan where
  sent : List Progress := []
  closed : Bool := false
  deriving DecidableEq, Repr

/-- The local state of the progress throttle in `Add` and `Rescan`: the
channel, the number of clock readings taken so far and the variable
`lastProgressUpdate` (`none` is the zero `time.Time`). -/
structure Run where
  progress : Chan
  tick : Nat := 0
  lastProgressUpdate : Option Int := none
  deriving DecidableEq, Repr

/-- The statement
`if time.Since(lastProgressUpdate) >= time.Second { progress <- prog; lastProgressUpdate = time.Now() }`.
The time since the zero `time.Time` is the largest duration. -/
def Run.report (w : World) (r : Run) (prog : Progress) : Run :=
  let since : Int :=
    match r.lastProgressUpdate with
    | none => 9223372036854775807
    | some t => w.Now r.tick - t
  if since ≥ time.Second then
    { progress := { r.progress with sent := r.progress.sent ++ [prog] },
      tick := r.tick + 2,
      lastProgressUpdate := some (w.Now (r.tick + 1)) }
  else { r with tick := r.tick + 1 }

/-- The zero value of `time.Time`. -/
def zeroTime : Time := { wall := 0, ext := 0, loc := Location.UTC }

/-- Function `toFile`.  The pair carried through the three `if` statements
is (`created`, `timeFound`). -/
def toFile (a : addition) : Except String File :=
  match a.d.Info with
  | .error e => .error ("could not get file info for \x27" ++ a.path ++ "\x27: " ++ e)
  | .ok info =>
    let s0 : Time × Bool := (zeroTime, false)
    let s1 : Time × Bool :=
      match info.BirthTime with
      | some t => (t, true)
      | none => s0
    let s2 : Time × Bool :=
      match info.ChangeTime with
      | some t => (if !s1.2 || t.Before s1.1 then t else s1.1, true)
      | none => s1
    let s3 : Time × Bool :=
      if !s2.2 || info.ModTime.Before s2.1 then (info.ModTime, true) else s2
    .ok { Path := a.path, Size := info.Size, CreatedGuess := s3.1,
          Modified := info.ModTime, MIME := a.mime }

/-- The statement `if idx := strings.IndexByte(m, ';'); idx != -1 { m = m[:idx] }`. -/
def stripParams (m : String) : String := String.mk (m.data.takeWhile (fun c => c != ';'))

/-- Go `strings.ToLower` on the ASCII letters.  The full function also
lowers other letters, none of them to a string of the `switch` in
`determineMIME` (whose cases use only the letters c, d, l, o, p, s, t, x). -/
def toLower (s : String) : String := String.mk (s.data.map Char.toLower)

/-- The `switch strings.ToLower(ext)` of `determineMIME` on a file sniffed
as `application/zip`. -/
def zipMIME (ext : String) : String :=
  let e := toLower ext
  if e = ".odt" then "application/vnd.oasis.opendocument.text"
  else if e = ".ods" then "application/vnd.oasis.opendocument.spreadsheet"
  else if e = ".odp" then "application/vnd.oasis.opendocument.presentation "
  else if e = ".docx" then
    "application/vnd.openxmlformats-officedocument.wordprocessingml.document"
  else if e = ".xlsx" then "application/vnd.openxmlformats-officedocument.spreadsheetml.sheet"
  else if e = ".pptx" then
    "application/vnd.openxmlformats-officedocument.presentationml.presentation"
  else "application/zip"

/-- Function `determineMIME`. -/
def determineMIME (w : World) (path : String) : Except String String :=
  match w.Open path with
  | .error e => .error ("could not open file \x27" ++ path ++ "\x27: " ++ e)
  | .ok data =>
    let mimeType := stripParams (w.DetectContentType data)
    let ext := filepath.Ext path
    if data.length = 0 ∨ mimeType = "application/octet-stream" then
      let secondOpinion := w.TypeByExtension ext
      if secondOpinion ≠ "" then .ok (stripParams secondOpinion) else .ok mimeType
    else if (mimeType = "text/plain" ∨ mimeType = "text/xml") ∧
        w.TypeByExtension ext = "image/svg+xml" then
      .ok "image/svg+xml"
    else if mimeType = "application/zip" then .ok (zipMIME ext)
    else .ok mimeType

/-- Function `addFile` of `add.go`. -/
def addFile (a : addition) (db : DB) : Option String × DB :=
  match toFile a with
  | .error e => (some e, db)
  | .ok f => db.AddFile f

/-- Function `addPicture`. -/
def addPicture (a : addition) (db : DB) : Option String × DB :=
  match toFile a with
  | .error e => (some e, db)
  | .ok f => db.AddPicture { File := f, Camera := a.mediainfo.Camera }

/-- Function `addVideo`. -/
def addVideo (a : addition) (db : DB) : Option String × DB :=
  match toFile a with
  | .error e => (some e, db)
  | .ok f =>
    db.AddVideo { File := f, Duration := a.mediainfo.Duration, Camera := a.mediainfo.Camera,
                  Year := a.mediainfo.Year }

/-- Function `addAudio`. -/
def addAudio (a : addition) (db : DB) : Option String × DB :=
  match toFile a with
  | .error e => (some e, db)
  | .ok f =>
    db.AddAudio { File := f, Duration := a.mediainfo.Duration, Author := a.mediainfo.Author,
                  Year := a.mediainfo.Year }

/-- Function `addDocument`. -/
def addDocument (a : addition) (db : DB) : Option String × DB :=
  match toFile a with
  | .error e => (some e, db)
  | .ok f => db.AddDocument { File := f }

/-- Go `fmt.Errorf(msg + " '%s': %s", path, err)` applied to a non-nil error. -/
def wrapErr (msg path : String) (r : Option String × DB) : Option String × DB :=
  match r with
  | (some e, db) => (some (msg ++ " \x27" ++ path ++ "\x27: " ++ e), db)
  | (none, db) => (none, db)

/-- Function `indexFile`. -/
def indexFile (w : World) (db : DB) (path : String) (d : DirEntry) : Option String × DB :=
  match d.Info with
  | .error e => (some ("could not get file info on \x27" ++ path ++ "\x27: " ++ e), db)
  | .ok _ =>
    match determineMIME w path with
    | .error e => (some ("could not determine mime type of \x27" ++ path ++ "\x27: " ++ e), db)
    | .ok m =>
      let cat := MIMEToCategory m
      let a : addition :=
        { path := path, d := d, mime := m,
          mediainfo :=
            if cat = Category.Video ∨ cat = Category.Audio ∨ cat = Category.Picture then
              (mediainfo.MediaInfo (w.MediaOpen path)).1
            else {} }
      if cat = Category.Other then wrapErr "could not add other file" path (addFile a db)
      else if cat = Category.Picture then wrapErr "could not add picture" path (addPicture a db)
      else if cat = Category.Video ∧ a.mediainfo.Typ ≠ mediainfo.InfoType.TypeAudio then
        wrapErr "could not add video" path (addVideo a db)
      else if (cat = Category.Video ∧ a.mediainfo.Typ = mediainfo.InfoType.TypeAudio) ∨
          cat = Category.Audio then
        wrapErr "could not add audio" path (addAudio a db)
      else if cat = Category.Document then
        wrapErr "could not add document" path (addDocument a db)
      else (none, db)

/-- The callback `Add` passes to `filepath.WalkDir`; the state it closes
over is the throttle, the map `paths` and `prog`. -/
def Add.walkFn (w : World) (path : String) (d : Option DirEntry) (err : Option String)
    (s : Run × GoMap DirEntry × Progress) :
    Option filepath.WalkErr × (Run × GoMap DirEntry × Progress) :=
  let run := s.1.report w s.2.2
  match err, d with
  | some e, _ => (some (filepath.WalkErr.err e), (run, s.2))
  | none, none => (some (filepath.WalkErr.err "nil DirEntry"), (run, s.2))
  | none, some d =>
    match isHiddenFile d.Name with
    | (_, some e) =>
      (some (filepath.WalkErr.err
        ("could not determine if \x27" ++ path ++ "\x27 is hidden: " ++ e)), (run, s.2))
    | (true, none) =>
      if d.IsDir then (some filepath.WalkErr.SkipDir, (run, s.2)) else (none, (run, s.2))
    | (false, none) =>
      if !d.Typ.IsRegular then (none, (run, s.2))
      else (none, (run, s.2.1.set path d, { s.2.2 with Total := s.2.2.Total + 1 }))

/-- The state of the index loops of `Add` and `Rescan`: the database, the
throttle, `entriesInTx` and `prog`. -/
structure IndexState where
  db : DB
  run : Run
  entriesInTx : Nat := 0
  prog : Progress
  deriving DecidableEq, Repr

/-- The loop `for path, d := range paths` of `Add`. -/
def Add.indexLoop (w : World) : List (String × DirEntry) → IndexState → Option String × IndexState
  | [], s => (none, s)
  | (path, d) :: rest, s =>
    let run := s.run.report w s.prog
    match (if s.entriesInTx = 0 then s.db.BeginTx else (none, s.db)) with
    | (some e, db1) =>
      (some ("could not start transaction: " ++ e), { s with db := db1, run := run })
    | (none, db1) =>
      let n := s.entriesInTx + 1
      match indexFile w db1 path d with
      | (some e, db2) =>
        (some e, { s with db := db2.Rollback.2, run := run, entriesInTx := n })
      | (none, db2) =>
        if n = 1000 then
          match db2.Commit with
          | (some e2, db3) =>
            (some ("could not commit transaction: " ++ e2),
              { s with db := db3, run := run, entriesInTx := 0 })
          | (none, db3) =>
            indexLoop w rest
              { db := db3, run := run, entriesInTx := 0,
                prog := { s.prog with Done := s.prog.Done + 1 } }
        else
          indexLoop w rest
            { db := db2, run := run, entriesInTx := n,
              prog := { s.prog with Done := s.prog.Done + 1 } }

/-- What follows an index loop in both `Add` and `Rescan`: commit a pending
transaction, set `prog.Done = prog.Total` and send the final snapshot. -/
def finishIndex (s : IndexState) : Option String × DB × Chan :=
  match (if s.entriesInTx > 0 then s.db.Commit else (none, s.db)) with
  | (some e, db1) => (some ("could not commit transaction: " ++ e), db1, s.run.progress)
  | (none, db1) =>
    (none, db1,
      { s.run.progress with
        sent := s.run.progress.sent ++ [{ s.prog with Done := s.prog.Total }] })

/-- The body of function `Add`, before the deferred `close(progress)`. -/
def Add.body (w : World) (path0 : String) (db : DB) (progress : Chan) :
    Option String × DB × Chan :=
  match w.Abs path0 with
  | .error e => (some ("could not normalize path: " ++ e), db, progress)
  | .ok path =>
    match db.TrackPath w.Stat path with
    | (some e, db1) =>
      (some ("could not track path \x27" ++ path ++ "\x27: " ++ e), db1, progress)
    | (none, db1) =>
      match filepath.WalkDir (w.Lstat path) path (Add.walkFn w)
          (({ progress := progress } : Run), ([] : GoMap DirEntry), ({} : Progress)) with
      | (some e, s) => (some ("could not index files: " ++ e), db1, s.1.progress)
      | (none, s) =>
        match Add.indexLoop w s.2.1 { db := db1, run := s.1, prog := s.2.2 } with
        | (some e, st) => (some e, st.db, st.run.progress)
        | (none, st) => finishIndex st

/-- Function `Add`: the body, then the deferred `close(progress)`. -/
def Add (w : World) (path : String) (db : DB) (progress : Chan) : Option String × DB × Chan :=
  match Add.body w path db progress with
  | (e, db1, ch) => (e, db1, { ch with closed := true })

/-! ## Package `den`: `rescan.go` -/

/-- The callback `rescanPath` passes to `filepath.WalkDir`; the state it
closes over is the map `newInfos`. -/
def rescanPath.walkFn (path : String) (d : Option DirEntry) (err : Option String)
    (newInfos : GoMap DirEntry) : Option filepath.WalkErr × GoMap DirEntry :=
  match err, d with
  | some e, _ => (some (filepath.WalkErr.err e), newInfos)
  | none, none => (some (filepath.WalkErr.err "nil DirEntry"), newInfos)
  | none, some d =>
    match isHiddenFile d.Name with
    | (_, some e) =>
      (some (filepath.WalkErr.err
        ("could not determine if \x27" ++ path ++ "\x27 is hidden: " ++ e)), newInfos)
    | (true, none) =>
      if d.IsDir then (some filepath.WalkErr.SkipDir, newInfos) else (none, newInfos)
    | (false, none) =>
      if !d.Typ.IsRegular then (none, newInfos) else (none, newInfos.set path d)

/-- The condition
`oldInfo.Size != info.Size || oldInfo.ModTime != info.ModTime().Truncate(time.Second)`
of `rescanPath`. -/
def rescanPath.differs (oldInfo : ShortFileInfo) (info : FileInfo) : Prop :=
  oldInfo.Size ≠ info.Size ∨ oldInfo.ModTime ≠ info.ModTime.Truncate time.Second

instance (oldInfo : ShortFileInfo) (info : FileInfo) : Decidable (rescanPath.differs oldInfo info) := by
  unfold rescanPath.differs; infer_instance

/-- The loop `for path, oldInfo := range oldInfos` of `rescanPath`; the
state is (`deletePaths`, `toIndex`). -/
def rescanPath.oldLoop (newInfos : GoMap DirEntry) :
    List (String × ShortFileInfo) → List String × GoMap DirEntry →
    Except String (List String × GoMap DirEntry)
  | [], s => .ok s
  | (path, oldInfo) :: rest, s =>
    match newInfos.get path with
    | none => oldLoop newInfos rest (s.1 ++ [path], s.2)
    | some newInfo =>
      match newInfo.Info with
      | .error e => .error ("could not get info for file \x27" ++ path ++ "\x27: " ++ e)
      | .ok info =>
        if rescanPath.differs oldInfo info then
          oldLoop newInfos rest (s.1 ++ [path], s.2.set path newInfo)
        else oldLoop newInfos rest s

/-- The loop `for path, newInfo := range newInfos` of `rescanPath`. -/
def rescanPath.newLoop (oldInfos : GoMap ShortFileInfo) :
    List (String × DirEntry) → GoMap DirEntry → GoMap DirEntry
  | [], toIndex => toIndex
  | (path, newInfo) :: rest, toIndex =>
    match oldInfos.get path with
    | none => newLoop oldInfos rest (toIndex.set path newInfo)
    | some _ => newLoop oldInfos rest toIndex

/-- Lines 114 to 137 of `rescan.go`: from the stored map and the walked map
to `deletePaths` and `toIndex`. -/
def rescanPath.diff (oldInfos : GoMap ShortFileInfo) (newInfos : GoMap DirEntry) :
    Except String (List String × GoMap DirEntry) :=
  match rescanPath.oldLoop newInfos oldInfos ([], []) with
  | .error e => .error e
  | .ok s => .ok (s.1, rescanPath.newLoop oldInfos newInfos s.2)

/-- Function `rescanPath`. -/
def rescanPath (w : World) (db : DB) (path : String) : Except String (GoMap DirEntry) × DB :=
  match db.AllFileInfosAt path with
  | (.error e, db1) => (.error e, db1)
  | (.ok oldInfos, db1) =>
    match filepath.WalkDir (w.Lstat path) path rescanPath.walkFn ([] : GoMap DirEntry) with
    | (some e, _) => (.error e, db1)
    | (none, newInfos) =>
      match rescanPath.diff oldInfos newInfos with
      | .error e => (.error e, db1)
      | .ok (deletePaths, toIndex) =>
        match db1.DeletePaths deletePaths with
        | (some e, db2) => (.error ("could not delete info on files: " ++ e), db2)
        | (none, db2) => (.ok toIndex, db2)

/-- The loop `for i := range paths` of `Rescan`; the state is the database
and the map `toReindex`. -/
def Rescan.scanLoop (w : World) : List String → DB → GoMap DirEntry →
    Option String × DB × GoMap DirEntry
  | [], db, toReindex => (none, db, toReindex)
  | path :: rest, db, toReindex =>
    match rescanPath w db path with
    | (.error e, db1) =>
      (some ("could not rescan path \x27" ++ path ++ "\x27: " ++ e), db1.Rollback.2, toReindex)
    | (.ok todo, db1) => scanLoop w rest db1 (GoMap.Copy toReindex todo)

/-- The loop `for path, entry := range toReindex` of `Rescan`. -/
def Rescan.indexLoop (w : World) :
    List (String × DirEntry) → IndexState → Option String × IndexState
  | [], s => (none, s)
  | (path, entry) :: rest, s =>
    let run := s.run.report w s.prog
    match (if s.entriesInTx = 0 then s.db.BeginTx else (none, s.db)) with
    | (some e, db1) =>
      (some ("could not start transaction: " ++ e), { s with db := db1, run := run })
    | (none, db1) =>
      let n := s.entriesInTx + 1
      match indexFile w db1 path entry with
      | (some e, db2) =>
        (some ("could not index file \x27" ++ path ++ "\x27: " ++ e),
          { s with db := db2.Rollback.2, run := run, entriesInTx := n })
      | (none, db2) =>
        if n = 1000 then
          match db2.Commit with
          | (some e2, db3) =>
            (some ("could not commit transaction: " ++ e2),
              { s with db := db3, run := run, entriesInTx := 0 })
          | (none, db3) =>
            indexLoop w rest
              { db := db3, run := run, entriesInTx := 0,
                prog := { s.prog with Done := s.prog.Done + 1 } }
        else
          indexLoop w rest
            { db := db2, run := run, entriesInTx := n,
              prog := { s.prog with Done := s.prog.Done + 1 } }

/-- The body of function `Rescan`, before the deferred `close(progress)`. -/
def Rescan.body (w : World) (db : DB) (progress : Chan) : Option String × DB × Chan :=
  match db.TrackedPaths with
  | (.error e, db1) => (some ("could not query tracked paths: " ++ e), db1, progress)
  | (.ok paths, db1) =>
    match db1.BeginTx with
    | (some e, db2) => (some e, db2, progress)
    | (none, db2) =>
      match Rescan.scanLoop w paths db2 [] with
      | (some e, db3, _) => (some e, db3, progress)
      | (none, db3, toReindex) =>
        match db3.Commit with
        | (some e, db4) => (some ("could not commit transaction: " ++ e), db4, progress)
        | (none, db4) =>
          match Rescan.indexLoop w toReindex
              { db := db4, run := { progress := progress },
                prog := { Total := toReindex.length } } with
          | (some e, st) => (some e, st.db, st.run.progress)
          | (none, st) => finishIndex st

/-- Function `Rescan`: the body, then the deferred `close(progress)`. -/
def Rescan (w : World) (db : DB) (progress : Chan) : Option String × DB × Chan :=
  match Rescan.body w db progress with
  | (e, db1, ch) => (e, db1, { ch with closed := true })

/-! ## Example inputs -/

/-- A regular file entry of the given name, size and modification time
`time.Unix(sec, nsec)`. -/
def exFile (name : String) (size sec nsec : Int) : DirEntry :=
  { Name := name, Typ := FileMode.Regular,
    Info := .ok { Size := size, ModTime := time.Unix sec nsec, BirthTime := none,
                  ChangeTime := none } }

/-- A stored map: one file that is gone, one unchanged, one changed. -/
def exOld : GoMap ShortFileInfo :=
  [ ("/r/gone", { Size := 1, ModTime := time.Unix 100 0 }),
    ("/r/same", { Size := 2, ModTime := time.Unix (-5) 0 }),
    ("/r/changed", { Size := 3, ModTime := time.Unix 300 0 }) ]

/-- A walked map: the unchanged file (modified a quarter of a second after
five seconds before the epoch), the changed one and a new one. -/
def exNew : GoMap DirEntry :=
  [ ("/r/same", exFile "same" 2 (-5) 250000000),
    ("/r/changed", exFile "changed" 4 300 0),
    ("/r/new", exFile "new" 5 400 0) ]

/-- A directory of the given name holding one regular file `f`. -/
def exDir (name : String) : FSNode :=
  .node { Name := name, Typ := FileMode.Dir,
          Info := .ok { Size := 0, ModTime := time.Unix 50 0, BirthTime := none,
                        ChangeTime := none } }
    none [.node (exFile "f" 1 100 0) none []]

/-- A world with the two directories `/d/A` and `/d/a`, each holding one
plain-text file `f`; nothing on disk ever changes. -/
def exWorld : World where
  Abs := fun p => .ok p
  Stat := fun _ => none
  Lstat := fun p =>
    if p = "/d/A" then .ok (exDir "A")
    else if p = "/d/a" then .ok (exDir "a")
    else .error "no such file or directory"
  Open := fun _ => .ok [104]
  Sniff := fun _ => "text/plain; charset=utf-8"
  TypeByExtension := fun _ => ""
  MediaOpen := fun _ => .error "not a media file"
  Now := fun _ => 0

/-- The database after `Add` of `/d/A` and then of `/d/a` on the empty
database. -/
def exTracked : DB := (Add exWorld "/d/a" (Add exWorld "/d/A" {} {}).2.1 {}).2.1

/-- The same catalogue with the two tracked roots listed in the other order. -/
def exTrackedRev : DB :=
  { exTracked with d := { exTracked.d with tracked_path := exTracked.d.tracked_path.reverse } }

/-- File information with all three times: born at second 500, changed at
second 300 and a half, modified at second 400. -/
def exTimes : FileInfo :=
  { Size := 7, ModTime := time.Unix 400 0, BirthTime := some (time.Unix 500 0),
    ChangeTime := some (time.Unix 300 500000000) }

/-- An addition for a file with the information `exTimes`. -/
def exAddition : addition :=
  { path := "/r/doc.txt",
    d := { Name := "doc.txt", Typ := FileMode.Regular, Info := .ok exTimes },
    mime := "text/plain" }

/-- A world in which every file opens to the four bytes of a zip local file
header and is sniffed as `application/zip`. -/
def exZipWorld : World :=
  { exWorld with Open := fun _ => .ok [80, 75, 3, 4], Sniff := fun _ => "application/zip" }

/-- A world in which every file is sniffed as `video/mp4` while the
metadata library finds audio streams only. -/
def exMediaWorld : World :=
  { exWorld with
    Sniff := fun _ => "video/mp4",
    MediaOpen := fun _ =>
      .ok { Typ := mediainfo.InfoType.TypeAudio, Duration := some 3000000000,
            Year := some 2001, Author := "Band X" } }

/-- A world in which every file is sniffed as `image/png` and the metadata
library fails to open it. -/
def exBrokenMediaWorld : World :=
  { exWorld with Sniff := fun _ => "image/png", MediaOpen := fun _ => .error "cannot open" }

/-- The empty database with a write transaction open. -/
def exOpenDB : DB := ({} : DB).BeginTx.2

/-! ## The walk in the words of the specification -/

/-- The specification of the walk: `Collected root tree p d` holds when `d`
is a regular file at path `p` under the tree standing at `root` such that
neither its own name nor the name of a directory on the way to it (the root
included) is hidden. -/
inductive Collected : String → FSNode → String → DirEntry → Prop where
  | file (path : String) (d : DirEntry) (readErr : Option String) (children : List FSNode) :
      (isHiddenFile d.Name).1 = false → d.Typ.IsRegular = true →
      Collected path (.node d readErr children) path d
  | dir (path : String) (d : DirEntry) (readErr : Option String) (children : List FSNode)
      (c : FSNode) (p : String) (e : DirEntry) :
      (isHiddenFile d.Name).1 = false → d.IsDir = true → c ∈ children →
      Collected (filepath.Join path c.entry.Name) c p e →
      Collected path (.node d readErr children) p e

/-- The files `Collected` describes, listed in the order of the walk. -/
def collectedFiles : String → FSNode → List (String × DirEntry)
  | path, .node d _ children =>
    if (isHiddenFile d.Name).1 then []
    else if d.IsDir then collectedIn path children
    else if d.Typ.IsRegular then [(path, d)]
    else []
where
  /-- The files collected from the entries of one directory. -/
  collectedIn : String → List FSNode → List (String × DirEntry)
  | _, [] => []
  | path, c :: cs => collectedFiles (filepath.Join path c.entry.Name) c ++ collectedIn path cs

/-- No directory that the walk enters fails to be read: a node is readable
when it is hidden, or not a directory, or `os.ReadDir` succeeds on it and all
its entries are readable. -/
def FSNode.readable : FSNode → Bool
  | .node d readErr children =>
    (isHiddenFile d.Name).1 || !d.IsDir || (readErr.isNone && readableAll children)
where
  /-- All nodes of a list are readable. -/
  readableAll : List FSNode → Bool
  | [] => true
  | c :: cs => c.readable && readableAll cs

/-- A tree with a regular file, a hidden file, a symbolic link, a hidden
directory holding a file and a plain directory holding a file. -/
def exTree : FSNode :=
  .node { Name := "data", Typ := FileMode.Dir, Info := .error "unused" } none
    [ .node (exFile "photo.jpg" 10 100 0) none [],
      .node (exFile ".hidden.txt" 11 100 0) none [],
      .node { Name := "link", Typ := FileMode.Symlink, Info := .error "unused" } none [],
      .node { Name := ".secret", Typ := FileMode.Dir, Info := .error "unused" }
        (some "permission denied") [.node (exFile "notes.txt" 12 100 0) none []],
      .node { Name := "music", Typ := FileMode.Dir, Info := .error "unused" } none
        [.node (exFile "song.mp3" 13 100 0) none []] ]

/-- A call of one of the two methods that change the tracked paths:
`TrackPath` (with the `os.Stat` of the moment) or `UntrackPath`. -/
inductive ConfigCall where
  | TrackPath (stat : String → Option String) (path : String)
  | UntrackPath (path : String)

/-- The database after a call, whatever error the call returned. -/
def ConfigCall.run (db : DB) : ConfigCall → DB
  | .TrackPath stat path => (db.TrackPath stat path).2
  | .UntrackPath path => (db.UntrackPath path).2

/-- The database after a sequence of calls. -/
def runCalls (db : DB) (calls : List ConfigCall) : DB := calls.foldl ConfigCall.run db

/-- A world with the two directories `/d/p[1]` and `/d/q`, each holding one
plain-text file `f`. -/
def exBracketWorld : World :=
  { exWorld with
    Lstat := fun p =>
      if p = "/d/p[1]" then .ok (exDir "p[1]")
      else if p = "/d/q" then .ok (exDir "q")
      else .error "no such file or directory" }

/-- The database after `Add` of `/d/p[1]` and then of `/d/q` on the empty
database. -/
def exBracket : DB :=
  (Add exBracketWorld "/d/q" (Add exBracketWorld "/d/p[1]" {} {}).2.1 {}).2.1

/-- A sequence of calls: track `/d/a`, try its sibling `/d/ab`, track `/d/b`
and `/d/b/c`, untrack `/d/a`, track `/d/a/x`. -/
def exCalls : List ConfigCall :=
  [ .TrackPath (fun _ => none) "/d/a", .TrackPath (fun _ => none) "/d/ab",
    .TrackPath (fun _ => none) "/d/b/", .TrackPath (fun _ => none) "/d/b/c",
    .UntrackPath "/d/a", .TrackPath (fun _ => none) "/d/a/x" ]

/-! ## Batches in the words of the specification -/

/-- Consecutive chunks of at most 1000 entries, in order; `fuel` bounds the
number of chunks. -/
def chunksFuel {α : Type} : Nat → List α → List (List α)
  | 0, _ => []
  | fuel + 1, l =>
    match l with
    | [] => []
    | _ :: _ => l.take 1000 :: chunksFuel fuel (l.drop 1000)

/-- The consecutive chunks of at most 1000 entries of a list. -/
def chunks {α : Type} (l : List α) : List (List α) := chunksFuel l.length l

/-- One `DELETE ... WHERE path IN (...)` statement per chunk, in order, up to
the first that fails. -/
def deleteEach : List (List String) → DB → Option String × DB
  | [], db => (none, db)
  | c :: cs, db =>
    match db.Exec (deleteFiles c) "could not delete: storage failure" with
    | (some e, db1) => (some e, db1)
    | (none, db1) => deleteEach cs db1

/-- A catalogue with three files, one of them a picture, inside an open
transaction. -/
def exCatalogue : DB :=
  { tx := some
      { file :=
          [ { id := 1, path := "/r/a", size := 1, created_guess := 0, modified := 0,
              mime := "text/plain" },
            { id := 2, path := "/r/b.png", size := 2, created_guess := 0, modified := 0,
              mime := "image/png" },
            { id := 3, path := "/r/c", size := 3, created_guess := 0, modified := 0,
              mime := "text/plain" } ],
        picture := [{ file := 2, camera := none }],
        document := [{ file := 1 }, { file := 3 }] },
    txLock := true }

/-! ## The catalogue in the words of the specification -/

/-- The file ids that own a record in one of the extension tables, one
occurrence for every record. -/
def database.Tables.extIds (t : Tables) : List Int :=
  t.picture.map (fun r => r.file) ++ t.video.map (fun r => r.file) ++
    t.audio.map (fun r => r.file) ++ t.document.map (fun r => r.file)

/-- The invariants of the catalogue: no two entries share a path, no two
entries share an id, every extension record belongs to an entry, and no
entry owns more than one extension record. -/
@[reducible] def database.Tables.wf (t : Tables) : Prop :=
  (t.file.map (fun r => r.path)).Nodup ∧ (t.file.map (fun r => r.id)).Nodup ∧
  (∀ i ∈ t.extIds, i ∈ t.file.map (fun r => r.id)) ∧ t.extIds.Nodup

/-- A call of one of the five `Add` methods of `DB` with its record. -/
inductive AddCall where
  | AddFile (file : File)
  | AddPicture (pic : Picture)
  | AddVideo (vid : Video)
  | AddAudio (audio : Audio)
  | AddDocument (doc : Document)
  deriving DecidableEq, Repr

/-- The `File` of the record of a call. -/
def AddCall.File : AddCall → File
  | .AddFile file => file
  | .AddPicture pic => pic.File
  | .AddVideo vid => vid.File
  | .AddAudio audio => audio.File
  | .AddDocument doc => doc.File

/-- Make the call. -/
def AddCall.run (db : DB) : AddCall → Option String × DB
  | .AddFile file => db.AddFile file
  | .AddPicture pic => db.AddPicture pic
  | .AddVideo vid => db.AddVideo vid
  | .AddAudio audio => db.AddAudio audio
  | .AddDocument doc => db.AddDocument doc

/-- Make the calls one after the other, whatever each returns. -/
def runAdds (db : DB) (calls : List AddCall) : DB :=
  calls.foldl (fun db c => (c.run db).2) db

/-- A picture record for the path `/r/b.png`, which `exCatalogue` holds. -/
def exPicture : Picture :=
  { File := { Path := "/r/b.png", Size := 9, CreatedGuess := time.Unix 7 0,
              Modified := time.Unix 8 0, MIME := "image/png" },
    Camera := "X" }

/-- A video record for a path that `exCatalogue` does not hold. -/
def exVideo : Video :=
  { File := { Path := "/r/v.mp4", Size := 10, CreatedGuess := time.Unix 7 0,
              Modified := time.Unix 8 0, MIME := "video/mp4" },
    Duration := some 2000000000, Camera := "", Year := none }

/-- Calls that add the video twice and the picture once. -/
def exAdds : List AddCall :=
  [AddCall.AddVideo exVideo, AddCall.AddPicture exPicture, AddCall.AddVideo exVideo]

/-- The `indexFile` calls of one batch, one after the other up to the first
error; `wrap` is what the loop makes of the error of `indexFile` for a path. -/
def indexAll (w : World) (wrap : String → String → String) :
    List (String × DirEntry) → DB → Option String × DB
  | [], db => (none, db)
  | (path, d) :: rest, db =>
    match indexFile w db path d with
    | (some e, db1) => (some (wrap path e), db1)
    | (none, db1) => indexAll w wrap rest db1

/-- A batch whose transaction is open: its entries are indexed; the
transaction is rolled back at the first error and committed after the last
entry. -/
def finishBatch (w : World) (wrap : String → String → String) (c : List (String × DirEntry))
    (db : DB) : Option String × DB :=
  match indexAll w wrap c db with
  | (some e, db1) => (some e, db1.Rollback.2)
  | (none, db1) =>
    match db1.Commit with
    | (some e, db2) => (some ("could not commit transaction: " ++ e), db2)
    | (none, db2) => (none, db2)

/-- One batch: one write transaction is opened, the entries of the batch are
indexed in it, and it is committed. -/
def indexBatch (w : World) (wrap : String → String → String) (c : List (String × DirEntry))
    (db : DB) : Option String × DB :=
  match db.BeginTx with
  | (some e, db1) => (some ("could not start transaction: " ++ e), db1)
  | (none, db1) => finishBatch w wrap c db1

/-- The batches one after the other, up to the first error. -/
def indexBatches (w : World) (wrap : String → String → String) :
    List (List (String × DirEntry)) → DB → Option String × DB
  | [], db => (none, db)
  | c :: cs, db =>
    match indexBatch w wrap c db with
    | (some e, db1) => (some e, db1)
    | (none, db1) => indexBatches w wrap cs db1

/-- The index loop of `Add` returns the error of `indexFile` as it is. -/
def Add.wrap (_path e : String) : String := e

/-- The index loop of `Rescan` wraps the error of `indexFile`. -/
def Rescan.wrap (path e : String) : String :=
  "could not index file \x27" ++ path ++ "\x27: " ++ e

/-- The error and the database that `Add` and `Rescan` end with once their
index loop has returned `r`: the error of the loop, or else what
`finishIndex` gives. -/
def indexResult (r : Option String × IndexState) : Option String × DB :=
  match r with
  | (some e, st) => (some e, st.db)
  | (none, st) => ((finishIndex st).1, (finishIndex st).2.1)

/-- Two entries that index without error in `exWorld`. -/
def exEntries : List (String × DirEntry) :=
  [("/d/A/f", exFile "f" 1 100 0), ("/d/A/g", exFile "g" 2 200 0)]

/-- Three entries, the last of which was removed after the walk: its `Info`
fails. -/
def exEntriesGone : List (String × DirEntry) :=
  exEntries ++
    [("/d/A/h", { Name := "h", Typ := FileMode.Regular, Info := .error "no such file" })]

/-- The state in which an index loop starts on the empty database. -/
def exIndexState : IndexState :=
  { db := {}, run := { progress := {} }, prog := { Total := 3 } }

/-! ## The progress channel in the words of the specification -/

/-- Between the states `c0` and `c` of the channel only snapshots were sent:
the channel was not closed (nor reopened) and what had been sent is still
the beginning of what has been sent. -/
def Chan.onlySends (c0 c : Chan) : Prop := c.closed = c0.closed ∧ c0.sent <+: c.sent

/-- The tracked paths are `R` both in the database file and in the open
transaction, if there is one. -/
def database.DB.roots (db : DB) (R : List String) : Prop :=
  db.d.tracked_path = R ∧ ∀ t, db.tx = some t → t.tracked_path = R

/-- The directory `/d/A` with the file `f` and a file `h` that is removed
after the walk has seen it: its `Info` fails. -/
def exGoneDir : FSNode :=
  .node { Name := "A", Typ := FileMode.Dir,
          Info := .ok { Size := 0, ModTime := time.Unix 50 0, BirthTime := none,
                        ChangeTime := none } }
    none
    [.node (exFile "f" 1 100 0) none [],
     .node { Name := "h", Typ := FileMode.Regular, Info := .error "gone" } none []]

/-- The world of `exWorld` with `exGoneDir` standing at `/d/A`. -/
def exGoneWorld : World :=
  { exWorld with
    Lstat := fun p => if p = "/d/A" then .ok exGoneDir else .error "no such file or directory" }

/-! ## Command `den`: the creation-time filter (`cmd/den/query.go`, `database/query_paths.go`) -/

namespace time

/-- Go `norm(hi, lo, base)` of package `time`: `lo` brought into
`[0, base)`, the excess carried into `hi`. -/
def norm (hi lo base : Int) : Int × Int := (hi + lo / base, lo % base)

/-- Go `isLeap(year)`. -/
def isLeap (year : Int) : Bool :=
  Int.tmod year 4 = 0 ∧ (Int.tmod year 100 ≠ 0 ∨ Int.tmod year 400 = 0)

/-- Table `daysBefore` of package `time`: the days of a non-leap year before
the month with index `m` (0 for January). -/
def daysBefore (m : Int) : Int :=
  [0, 31, 59, 90, 120, 151, 181, 212, 243, 273, 304, 334, 365].getD m.toNat 0

/-- The days from 1 January 1970 to 1 January of `year` in the proleptic
Gregorian calendar, which is what Go `daysSinceEpoch(year)` gives once the
constant offset of its absolute epoch is taken off. -/
def daysToYear (year : Int) : Int :=
  365 * (year - 1970) + ((year - 1) / 4 - (year - 1) / 100 + (year - 1) / 400) - 477

/-- Go `time.Date(year, month, day, hour, min, sec, nsec, loc)`: values
outside their usual ranges are normalized, then the wall time is moved to
UTC by the zone offset of `loc`.  `lookup` is `loc.lookup` on a Unix time:
the offset of the zone in force and the bounds `start`, `end` of its
period. -/
def Date (lookup : Int → Int × Int × Int) (year month day hour min sec nsec : Int)
    (loc : Location) : Time :=
  let ym := norm year (month - 1) 12
  let sn := norm sec nsec 1000000000
  let ms := norm min sn.1 60
  let hm := norm hour ms.1 60
  let dh := norm day hm.1 24
  let d := daysToYear ym.1 + daysBefore ym.2 +
    (if isLeap ym.1 ∧ ym.2 + 1 ≥ 3 then 1 else 0) + (dh.1 - 1)
  let unix := wrap64 (d * 86400 + (dh.2 * 3600 + hm.2 * 60 + ms.2))
  let z := lookup unix
  let unix1 :=
    if z.1 ≠ 0 then
      let utc := wrap64 (unix - z.1)
      let offset := if utc < z.2.1 ∨ utc ≥ z.2.2 then (lookup utc).1 else z.1
      wrap64 (unix - offset)
    else unix
  { unixTime unix1 sn.2 with loc := loc }

end time

namespace database

/-- Struct `FileFilter` of `database/query_paths.go`; nil pointers are
`none`. -/
structure FileFilter where
  CreatedSince : Option Time := none
  CreatedUntil : Option Time := none
  Prefix : String := ""
  deriving DecidableEq, Repr

/-- The three `strings.ReplaceAll` calls of `addFileFilters` on the prefix:
a backslash before every backslash, `%` and `_`. -/
def escapeLike (pre : String) : String :=
  String.mk (pre.data.flatMap
    (fun c => if c = '\\' ∨ c = '%' ∨ c = '_' then ['\\', c] else [c]))

/-- Function `addFileFilters`: the conditions it appends to the `WHERE`
clause with their arguments, as a predicate on the row `f` of `file`. -/
def addFileFilters (filter : FileFilter) (f : FileRow) : Bool :=
  (match filter.CreatedSince with
    | some t => decide (f.created_guess ≥ t.Unix)
    | none => true) &&
  (match filter.CreatedUntil with
    | some t => decide (f.created_guess ≤ t.Unix)
    | none => true) &&
  (if filter.Prefix ≠ "" then sqlLike (escapeLike filter.Prefix ++ "%").data f.path.data
   else true)

end database

/-- Function `createFilter` of `cmd/den/query.go`; the package variables
`createdFromYear` and `createdUntilYear` (set by `parseFlags` from `-c`,
both to the year for a single year) and the zone table of `time.Local` are
arguments. -/
def createFilter (lookup : Int → Int × Int × Int) (createdFromYear createdUntilYear : Option Int) :
    FileFilter :=
  let f0 : FileFilter := {}
  let f1 : FileFilter :=
    match createdFromYear with
    | some y => { f0 with CreatedSince := some (time.Date lookup y 1 0 0 0 0 0 Location.Local) }
    | none => f0
  match createdUntilYear with
  | some y =>
    { f1 with
      CreatedUntil :=
        some ((time.Date lookup (wrap64 (y + 1)) 1 0 0 0 0 0 Location.Local).Add (-1)) }
  | none => f1

/-- The zone table of a machine whose local time is UTC: offset 0 for all
of time. -/
def exUTC : Int → Int × Int × Int := fun _ => (0, -9223372036854775808, 9223372036854775807)

/-- A file row with the given creation guess in Unix seconds. -/
def exRow (created : Int) : FileRow :=
  { id := 1, path := "/r/a", size := 1, created_guess := created, modified := created,
    mime := "text/plain" }

/-! ## The snapshots of a run in the words of the specification -/

/-- The condition `time.Since(lastProgressUpdate) >= time.Second` of the
throttle in the state `r`. -/
def Run.due (w : World) (r : Run) : Bool :=
  match r.lastProgressUpdate with
  | none => true
  | some t => decide (w.Now r.tick - t ≥ time.Second)

/-- The throttle statement executed once for each of the snapshots
`offers`, in order. -/
def Run.reports (w : World) (r : Run) (offers : List Progress) : Run :=
  offers.foldl (fun r p => r.report w p) r

/-- The snapshots among `offers` that the throttle sends, each with the
number of the clock reading that `time.Since` took for it: the snapshot is
sent after that reading and before the next one, which `time.Now` takes. -/
def Run.sends (w : World) : List Progress → Run → List (Nat × Progress)
  | [], _ => []
  | p :: ps, r =>
    if r.due w then (r.tick, p) :: Run.sends w ps (r.report w p)
    else Run.sends w ps (r.report w p)

/-- Neither `Done` nor `Total` is smaller in `q` than in `p`. -/
def Progress.le (p q : Progress) : Prop := p.Done ≤ q.Done ∧ p.Total ≤ q.Total

/-- A snapshot is well-formed: `0 <= Done <= Total`. -/
def Progress.valid (p : Progress) : Prop := 0 ≤ p.Done ∧ p.Done ≤ p.Total

/-- What a stretch of the walk of `Add` does to its state (throttle, map
`paths`, `prog`): the throttle is offered snapshots `offers`, all with the
`Done` of the start and with a `Total` that grows from the one of the start
to the one of the state reached, and the map grows by no more than `Total`
does. -/
def Add.walked (w : World) (a b : Run × GoMap DirEntry × Progress) : Prop :=
  b.2.2.Done = a.2.2.Done ∧ a.2.2.Total ≤ b.2.2.Total ∧
  (b.2.1.length : Int) + a.2.2.Total ≤ b.2.2.Total + a.2.1.length ∧
  ∃ offers, b.1 = Run.reports w a.1 offers ∧ offers.Pairwise Progress.le ∧
    ∀ p ∈ offers, p.Done = a.2.2.Done ∧ a.2.2.Total ≤ p.Total ∧ p.Total ≤ b.2.2.Total

/-- The world `exGoneWorld` with a clock that advances one second from each
reading to the next. -/
def exTickingWorld : World := { exGoneWorld with Now := fun n => n * 1000000000 }

/-- The world `exWorld` in which `os.Stat` finds nothing. -/
def exEmptyWorld : World := { exWorld with Stat := fun _ => some "no such file or directory" }

/-- A world in which `/d/file.txt` is a regular file of size 1, modified at
second 100, and nothing else exists. -/
def exFileWorld : World :=
  { exWorld with
    Lstat := fun p =>
      if p = "/d/file.txt" then .ok (.node (exFile "file.txt" 1 100 0) none [])
      else .error "no such file or directory" }

/-- The world of `exFileWorld` after the file was rewritten: size 2,
modified at second 200. -/
def exFileWorldChanged : World :=
  { exWorld with
    Lstat := fun p =>
      if p = "/d/file.txt" then .ok (.node (exFile "file.txt" 2 200 0) none [])
      else .error "no such file or directory" }

/-- The database after `Add` of the regular file `/d/file.txt` on the empty
database. -/
def exFileDB : DB := (Add exFileWorld "/d/file.txt" {} {}).2.1

/-! ## Lemmas on Go maps -/

theorem GoMap.get_set {V : Type} (m : GoMap V) (k : String) (v : V) (q : String) :
    (m.set k v).get q = if k = q then some v else m.get q := by
  induction m with
  | nil => simp [GoMap.set, GoMap.get]
  | cons kv r ih =>
    obtain ⟨k1, v1⟩ := kv
    by_cases h : k1 = k
    · subst h
      by_cases hq : k1 = q <;> simp [GoMap.set, GoMap.get, hq]
    · by_cases hq : k1 = q
      · subst hq
        simp [GoMap.set, GoMap.get, h, Ne.symm h]
      · simp [GoMap.set, GoMap.get, h, hq, ih]

theorem GoMap.get_eq_none_iff {V : Type} (m : GoMap V) (q : String) :
    m.get q = none ↔ q ∉ m.keys := by
  induction m with
  | nil => simp [GoMap.get, GoMap.keys]
  | cons kv r ih =>
    obtain ⟨k1, v1⟩ := kv
    by_cases hq : k1 = q
    · simp [GoMap.get, GoMap.keys, hq]
    · simp only [GoMap.keys] at ih
      simp [GoMap.get, GoMap.keys, hq, ih, Ne.symm hq]

theorem GoMap.mem_keys_iff {V : Type} (m : GoMap V) (q : String) :
    q ∈ m.keys ↔ ∃ v, m.get q = some v := by
  rw [← not_iff_not, ← GoMap.get_eq_none_iff]
  cases m.get q <;> simp

theorem GoMap.get_of_mem {V : Type} (m : GoMap V) (h : m.keys.Nodup) (q : String) (v : V)
    (hm : (q, v) ∈ m) : m.get q = some v := by
  induction m with
  | nil => simp at hm
  | cons kv r ih =>
    obtain ⟨k1, v1⟩ := kv
    simp only [GoMap.keys, List.map_cons, List.nodup_cons] at h
    rcases List.mem_cons.1 hm with h1 | h1
    · cases h1; simp [GoMap.get]
    · have : k1 ≠ q := by
        rintro rfl
        exact h.1 (List.mem_map.2 ⟨(k1, v), h1, rfl⟩)
      simp [GoMap.get, this, ih h.2 h1]

theorem GoMap.mem_of_get {V : Type} (m : GoMap V) (q : String) (v : V)
    (hm : m.get q = some v) : (q, v) ∈ m := by
  induction m with
  | nil => simp [GoMap.get] at hm
  | cons kv r ih =>
    obtain ⟨k1, v1⟩ := kv
    by_cases hq : k1 = q
    · simp [GoMap.get, hq] at hm; simp [hq, hm]
    · simp [GoMap.get, hq] at hm; simp [ih hm]

theorem GoMap.keys_set_nodup {V : Type} (m : GoMap V) (k : String) (v : V)
    (h : m.keys.Nodup) : (m.set k v).keys.Nodup := by
  induction m with
  | nil => simp [GoMap.set, GoMap.keys]
  | cons kv r ih =>
    obtain ⟨k1, v1⟩ := kv
    simp only [GoMap.keys, List.map_cons, List.nodup_cons] at h
    by_cases hk : k1 = k
    · subst hk; simpa [GoMap.set, GoMap.keys] using h
    · have hmem : k1 ∉ (GoMap.set r k v).keys := by
        rw [← GoMap.get_eq_none_iff, GoMap.get_set]
        simp [Ne.symm hk, GoMap.get_eq_none_iff, GoMap.keys, h.1]
      simp only [GoMap.set, hk, if_false, GoMap.keys, List.map_cons, List.nodup_cons]
      exact ⟨hmem, ih h.2⟩

theorem GoMap.keys_foldl_set {V : Type} (l : List (String × V)) :
    ∀ (acc : GoMap V) (p : String),
      p ∈ (l.foldl (fun m kv => m.set kv.1 kv.2) acc).keys ↔ p ∈ acc.keys ∨ ∃ v, (p, v) ∈ l := by
  induction l with
  | nil => intro acc p; simp
  | cons kv l ih =>
    obtain ⟨k, v⟩ := kv
    intro acc p
    simp only [List.foldl_cons, List.mem_cons, Prod.mk.injEq]
    rw [ih, GoMap.mem_keys_iff, GoMap.get_set, GoMap.mem_keys_iff]
    by_cases hk : k = p
    · subst hk
      simp
    · simp only [hk, if_false]
      constructor
      · rintro (h | ⟨v1, h⟩)
        · exact Or.inl h
        · exact Or.inr ⟨v1, Or.inr h⟩
      · rintro (h | ⟨v1, ⟨h1, -⟩ | h⟩)
        · exact Or.inl h
        · exact absurd h1.symm hk
        · exact Or.inr ⟨v1, h⟩

theorem GoMap.get_foldl_set {V : Type} (l : List (String × V)) :
    ∀ (acc : GoMap V) (p : String) (v : V),
      (l.foldl (fun m kv => m.set kv.1 kv.2) acc).get p = some v →
      acc.get p = some v ∨ (p, v) ∈ l := by
  induction l with
  | nil => intro acc p v h; exact Or.inl h
  | cons kv l ih =>
    obtain ⟨k, v0⟩ := kv
    intro acc p v h
    simp only [List.foldl_cons] at h
    rcases ih _ p v h with h1 | h1
    · rw [GoMap.get_set] at h1
      by_cases hk : k = p
      · subst hk
        simp only [if_true, Option.some.injEq] at h1
        subst h1
        exact Or.inr (List.mem_cons_self _ _)
      · rw [if_neg hk] at h1
        exact Or.inl h1
    · exact Or.inr (List.mem_cons_of_mem _ h1)

theorem GoMap.keys_foldl_set_nodup {V : Type} (l : List (String × V)) :
    ∀ acc : GoMap V, acc.keys.Nodup → (l.foldl (fun m kv => m.set kv.1 kv.2) acc).keys.Nodup := by
  induction l with
  | nil => intro acc h; exact h
  | cons kv l ih =>
    intro acc h
    exact ih _ (GoMap.keys_set_nodup acc kv.1 kv.2 h)

theorem GoMap.get_foldl_rows_of_not_mem (g : FileRow → ShortFileInfo) (q : String) :
    ∀ (l : List FileRow) (acc : GoMap ShortFileInfo), (∀ r ∈ l, r.path ≠ q) →
      (l.foldl (fun infos r => infos.set r.path (g r)) acc).get q = acc.get q := by
  intro l
  induction l with
  | nil => intro acc _; rfl
  | cons a l ih =>
    intro acc h
    simp only [List.foldl_cons]
    rw [ih _ (fun r hr => h r (List.mem_cons_of_mem _ hr)), GoMap.get_set,
      if_neg (h a (List.mem_cons_self _ _))]

theorem GoMap.get_foldl_rows (g : FileRow → ShortFileInfo) (row : FileRow) :
    ∀ (l : List FileRow) (acc : GoMap ShortFileInfo), (l.map (fun r => r.path)).Nodup →
      row ∈ l → (l.foldl (fun infos r => infos.set r.path (g r)) acc).get row.path
        = some (g row) := by
  intro l
  induction l with
  | nil => intro acc _ h; simp at h
  | cons a l ih =>
    intro acc hnd hm
    simp only [List.map_cons, List.nodup_cons, List.mem_map, not_exists, not_and] at hnd
    simp only [List.foldl_cons]
    rcases List.mem_cons.1 hm with rfl | hm
    · rw [GoMap.get_foldl_rows_of_not_mem g row.path l _ (fun r hr e => hnd.1 r hr e),
        GoMap.get_set, if_pos rfl]
    · exact ih _ hnd.2 hm

/-! ## Lemmas on `time` -/

theorem tdiv_billion (x : Int) :
    Int.tdiv x 1000000000 = if 0 ≤ x then x / 1000000000 else -((-x) / 1000000000) := by
  split
  · rw [Int.tdiv_eq_ediv] <;> omega
  · have h : x = -(-x) := by omega
    rw [h, Int.neg_tdiv, Int.tdiv_eq_ediv] <;> omega

theorem tmod_billion (x : Int) :
    Int.tmod x 1000000000 = if 0 ≤ x then x % 1000000000 else -((-x) % 1000000000) := by
  rw [Int.tmod_def, tdiv_billion]
  split <;> omega

/-- Every `time.Unix(sec, nsec)` is a local time whose nanosecond field lies
in `[0, 1e9)` and whose seconds fit `int64`. -/
theorem time.Unix_normal (sec nsec : Int) :
    ∃ e n : Int, isInt64 e ∧ 0 ≤ n ∧ n < 1000000000 ∧
      time.Unix sec nsec = { wall := n.toNat, ext := e, loc := Location.Local } := by
  unfold isInt64
  unfold time.Unix time.unixTime wrap64 time.unixToInternal
  simp only [tdiv_billion]
  split
  · split
    · split
      · exact ⟨_, _, by omega, by omega, by omega, rfl⟩
      · exact ⟨_, _, by omega, by omega, by omega, rfl⟩
    · split
      · exact ⟨_, _, by omega, by omega, by omega, rfl⟩
      · exact ⟨_, _, by omega, by omega, by omega, rfl⟩
  · exact ⟨_, _, by omega, by omega, by omega, rfl⟩

theorem Time.divRem_second (t : Time) (h1 : t.nsec < 1000000000) :
    t.divRem time.Second = t.nsec := by
  have h0 : 0 ≤ t.nsec := by unfold Time.nsec; omega
  have c1 : ¬ (time.Second < time.Second ∧
      Int.tmod time.Second (time.Second + time.Second) = 0) := by
    intro h; exact absurd h.1 (by decide)
  have c2 : Int.tmod time.Second time.Second = 0 := by decide
  have c3 : Int.tdiv time.Second time.Second = 1 := by decide
  unfold Time.divRem
  simp only [c1, c2, c3, if_false, if_true, Int.tmod_one, Int.zero_mul, Int.zero_add]
  by_cases hs : t.sec < 0
  · by_cases hn : -t.nsec < 0
    · simp [hs, hn, time.Second]; omega
    · have : t.nsec = 0 := by omega
      simp [hs, hn, time.Second, this]
  · simp [hs]

theorem Time.Truncate_second (e n : Int) (l : Location) (he : isInt64 e) (h0 : 0 ≤ n)
    (h1 : n < 1000000000) :
    Time.Truncate { wall := n.toNat, ext := e, loc := l } time.Second =
      { wall := 0, ext := e, loc := l } := by
  have hn : Time.nsec { wall := n.toNat, ext := e, loc := l } = n := by
    simp only [Time.nsec]; omega
  have hd : ¬ (time.Second ≤ 0) := by decide
  unfold Time.Truncate
  rw [if_neg hd, Time.divRem_second _ (by rw [hn]; exact h1), hn]
  unfold isInt64 at he
  unfold Time.Add Time.addSec wrap64
  simp only [tdiv_billion, tmod_billion, hn]
  by_cases hz : 0 ≤ -n
  · have hn0 : n = 0 := by omega
    subst hn0
    simp
    have hm : (e + 9223372036854775808) % 18446744073709551616 = e + 9223372036854775808 := by
      omega
    rw [hm]
    simp
  · have e1 : (-(-n)) / 1000000000 = 0 := by omega
    have e2 : (-(-n)) % 1000000000 = n := by omega
    simp only [hz, if_false, e1, e2]
    simp
    have hm : (e + 9223372036854775808) % 18446744073709551616 = e + 9223372036854775808 := by
      omega
    rw [hm]
    simp

theorem time.Unix_of_Unix (e n : Int) (l : Location) (he : isInt64 e) :
    time.Unix (Time.Unix { wall := n.toNat, ext := e, loc := l }) 0 =
      { wall := 0, ext := e, loc := Location.Local } := by
  unfold isInt64 at he
  simp only [time.Unix, Time.Unix, Time.sec, time.unixTime, time.internalToUnix,
    time.unixToInternal, wrap64]
  simp
  omega

/-- The modification time stored as `m.Unix()` and read back as
`time.Unix(sec, 0)` is `m` truncated to whole seconds, for every
`m = time.Unix(sec, nsec)`. -/
theorem time.stored_eq_Truncate (sec nsec : Int) :
    time.Unix (Time.Unix (time.Unix sec nsec)) 0 =
      Time.Truncate (time.Unix sec nsec) time.Second := by
  obtain ⟨e, n, he, h0, h1, h⟩ := time.Unix_normal sec nsec
  rw [h, Time.Truncate_second e n _ he h0 h1, time.Unix_of_Unix e n _ he]

theorem time.Unix_zero_inj (a b : Int) (ha : isInt64 a) (hb : isInt64 b) :
    time.Unix a 0 = time.Unix b 0 ↔ a = b := by
  unfold isInt64 at ha hb
  constructor
  · intro h
    simp only [time.Unix, time.unixTime, time.unixToInternal, wrap64] at h
    simp at h
    omega
  · rintro rfl; rfl

theorem Time.Unix_isInt64 (t : Time) : isInt64 t.Unix := by
  unfold isInt64 Time.Unix wrap64
  omega

/-- For a stored second `s0` and a walked time `m = time.Unix(sec, nsec)`, the
comparison of `rescanPath` holds exactly when `s0` is not the Unix second of
`m`. -/
theorem time.stored_ne_Truncate_iff (s0 sec nsec : Int) (h0 : isInt64 s0) :
    time.Unix s0 0 ≠ Time.Truncate (time.Unix sec nsec) time.Second ↔
      s0 ≠ Time.Unix (time.Unix sec nsec) := by
  rw [← time.stored_eq_Truncate, Ne, time.Unix_zero_inj s0 _ h0 (Time.Unix_isInt64 _)]

theorem Time.Before_iff (t u : Time) :
    t.Before u = true ↔ t.sec < u.sec ∨ (t.sec = u.sec ∧ t.nsec < u.nsec) := by
  simp [Time.Before]

/-! ## Lemmas on the database -/

theorem nextId_foldl (rows : List FileRow) :
    ∀ init : Int, init ≤ rows.foldl (fun m r => max m r.id) init ∧
      ∀ r ∈ rows, r.id ≤ rows.foldl (fun m r => max m r.id) init := by
  induction rows with
  | nil => intro init; simp
  | cons a rows ih =>
    intro init
    have h := ih (max init a.id)
    simp only [List.foldl_cons, List.mem_cons]
    refine ⟨le_trans (le_max_left _ _) h.1, ?_⟩
    rintro r (rfl | hr)
    · exact le_trans (le_max_right _ _) h.1
    · exact h.2 r hr

theorem nextId_fresh (rows : List FileRow) (r : FileRow) (hr : r ∈ rows) :
    r.id ≠ nextId rows := by
  have h := (nextId_foldl rows 0).2 r hr
  unfold nextId
  omega

theorem DB.addFile_fresh (db : DB) (t : Tables) (file : File) (htx : db.tx = some t)
    (hf : db.faults = []) (hnew : ∀ r ∈ t.file, r.path ≠ file.Path) :
    db.addFile file =
      ((nextId t.file, none),
        { db with tx := some { t with file := t.file ++
            [{ id := nextId t.file, path := file.Path, size := file.Size,
               created_guess := file.CreatedGuess.Unix, modified := file.Modified.Unix,
               mime := file.MIME }] } }) := by
  have hany : (t.file.any fun r => decide (r.path = file.Path)) = false := by
    rw [List.any_eq_false]
    intro r hr
    simpa using hnew r hr
  obtain ⟨d, tx, lock, faults⟩ := db
  simp only at htx hf
  subst htx hf
  simp [DB.addFile, DB.fails, hany]

theorem DB.AddAudio_video (db : DB) (audio : Audio) :
    (db.AddAudio audio).2.tx.map (fun t => t.video) = db.tx.map (fun t => t.video) ∧
    (db.AddAudio audio).2.d = db.d := by
  unfold DB.AddAudio DB.addFile
  cases htx : db.tx with
  | none => simp [htx]
  | some t =>
    cases hf : db.faults with
    | nil =>
      by_cases hc : (t.file.any fun r => decide (r.path = audio.File.Path)) = true
      · simp [DB.fails, hf, hc, htx]
      · simp only [DB.fails, hf, hc, Bool.false_eq_true, if_false, DB.Exec]
        by_cases hp : (t.audio.any fun r => decide (r.file = nextId t.file)) = true
        · simp [insertAudio, hp]
        · simp [insertAudio, hp]
    | cons b rest =>
      cases b with
      | true => simp [DB.fails, hf, htx]
      | false =>
        by_cases hc : (t.file.any fun r => decide (r.path = audio.File.Path)) = true
        · simp [DB.fails, hf, hc, htx]
        · simp only [DB.fails, hf, hc, Bool.false_eq_true, if_false, DB.Exec]
          cases rest with
          | nil =>
            by_cases hp : (t.audio.any fun r => decide (r.file = nextId t.file)) = true
            · simp [insertAudio, hp]
            · simp [insertAudio, hp]
          | cons b2 rest2 =>
            cases b2 with
            | true => simp
            | false =>
              by_cases hp : (t.audio.any fun r => decide (r.file = nextId t.file)) = true
              · simp [insertAudio, hp]
              · simp [insertAudio, hp]

theorem sqlLike_append (q s : List Char) (h : sqlLike q s = true) :
    ∀ p : List Char, sqlLike (p ++ q) (p ++ s) = true := by
  intro p
  induction p with
  | nil => exact h
  | cons c p ih =>
    simp only [List.cons_append, sqlLike]
    by_cases hc : c = '%'
    · rw [if_pos hc, List.any_eq_true]
      exact ⟨p ++ s, (List.mem_tails _ _).2 (List.suffix_cons _ _), ih⟩
    · rw [if_neg hc]
      simp [ih]

theorem sqlLike_percent (s : List Char) : sqlLike ['%'] s = true := by
  simp only [sqlLike, if_true, List.any_eq_true]
  exact ⟨[], (List.mem_tails _ _).2 List.nil_suffix, rfl⟩

/-- Every path below `root` matches the pattern `AllFileInfosAt` builds. -/
theorem sqlLike_below (root rest : String) :
    sqlLike (filepath.Join root "%").data (filepath.Join root rest).data = true := by
  have h := sqlLike_append ['%'] rest.data (sqlLike_percent _) (root.data ++ ['/'])
  simpa [filepath.Join, String.data_append] using h

/-- What `addFile` stores for a file and `AllFileInfosAt` reads back: the
size, and the modification time as `time.Unix(file.Modified.Unix(), 0)`. -/
theorem DB.addFile_AllFileInfosAt (db : DB) (t : Tables) (file : File) (root : String)
    (htx : db.tx = some t) (hf : db.faults = [])
    (hnd : (t.file.map (fun r => r.path)).Nodup) (hnew : ∀ r ∈ t.file, r.path ≠ file.Path)
    (hlike : sqlLike (filepath.Join root "%").data file.Path.data = true) :
    ∃ id db1 oldInfos db2,
      db.addFile file = ((id, none), db1) ∧
      db1.AllFileInfosAt root = (.ok oldInfos, db2) ∧
      oldInfos.get file.Path =
        some { Size := file.Size, ModTime := time.Unix file.Modified.Unix 0 } := by
  have hadd := DB.addFile_fresh db t file htx hf hnew
  obtain ⟨row, hrow⟩ : ∃ row : FileRow, row =
      { id := nextId t.file, path := file.Path, size := file.Size,
        created_guess := file.CreatedGuess.Unix, modified := file.Modified.Unix,
        mime := file.MIME } := ⟨_, rfl⟩
  rw [← hrow] at hadd
  have hpath : row.path = file.Path := by rw [hrow]
  have hinfo : ({ Size := row.size, ModTime := time.Unix row.modified 0 } : ShortFileInfo) =
      { Size := file.Size, ModTime := time.Unix file.Modified.Unix 0 } := by rw [hrow]
  have hmem : row ∈ (t.file ++ [row]).filter
      (fun r => sqlLike (filepath.Join root "%").data r.path.data) := by
    simp [List.mem_filter, hpath, hlike]
  have hnd2 : (((t.file ++ [row]).filter
      (fun r => sqlLike (filepath.Join root "%").data r.path.data)).map
      (fun r => r.path)).Nodup := by
    apply List.Nodup.sublist (List.Sublist.map _ (List.filter_sublist _))
    rw [List.map_append, List.nodup_append]
    refine ⟨hnd, by simp, ?_⟩
    intro a ha hb
    simp only [List.map_cons, List.map_nil, List.mem_singleton] at hb
    obtain ⟨r, hr, rfl⟩ := List.mem_map.1 ha
    exact hnew r hr (hb.trans hpath)
  have hget := GoMap.get_foldl_rows
    (fun r => { Size := r.size, ModTime := time.Unix r.modified 0 }) row _ [] hnd2 hmem
  rw [hpath] at hget
  simp only [hinfo] at hget
  refine ⟨_, _, _, { db with tx := some { t with file := t.file ++ [row] } }, hadd, ?_, hget⟩
  simp only [DB.AllFileInfosAt, DB.fails, hf]

/-! ## Lemmas on `rescanPath` -/

theorem rescanPath.oldLoop_spec (W : GoMap DirEntry) :
    ∀ (rest : List (String × ShortFileInfo)) (s : List String × GoMap DirEntry),
      (∀ q o d, (q, o) ∈ rest → W.get q = some d → ∃ i, d.Info = .ok i) →
      ∃ del idx, rescanPath.oldLoop W rest s = .ok (del, idx) ∧
        del = s.1 ++ (rest.filter (fun kv =>
          match W.get kv.1 with
          | none => true
          | some d =>
            match d.Info with
            | .ok i => decide (rescanPath.differs kv.2 i)
            | .error _ => false)).map Prod.fst ∧
        (∀ q, (∃ o d i, (q, o) ∈ rest ∧ W.get q = some d ∧ d.Info = .ok i ∧
            rescanPath.differs o i) → idx.get q = W.get q) ∧
        (∀ q, (¬ ∃ o d i, (q, o) ∈ rest ∧ W.get q = some d ∧ d.Info = .ok i ∧
            rescanPath.differs o i) → idx.get q = s.2.get q) := by
  intro rest
  induction rest with
  | nil =>
    intro s _
    exact ⟨s.1, s.2, rfl, by simp, by simp, by simp⟩
  | cons kv rest ih =>
    obtain ⟨p, o⟩ := kv
    intro s hInfo
    have hrest : ∀ q o d, (q, o) ∈ rest → W.get q = some d → ∃ i, d.Info = .ok i :=
      fun q o d hq hd => hInfo q o d (List.mem_cons_of_mem _ hq) hd
    cases hW : W.get p with
    | none =>
      obtain ⟨del, idx, h1, h2, h3, h4⟩ := ih (s.1 ++ [p], s.2) hrest
      refine ⟨del, idx, ?_, ?_, ?_, ?_⟩
      · simp [rescanPath.oldLoop, hW, h1]
      · simp [h2, hW]
      · rintro q ⟨o1, d1, i1, hm, hg, hi, hdf⟩
        rcases List.mem_cons.1 hm with hm | hm
        · cases hm; rw [hW] at hg; cases hg
        · exact h3 q ⟨o1, d1, i1, hm, hg, hi, hdf⟩
      · intro q hq
        rw [h4 q]
        intro ⟨o1, d1, i1, hm, hg, hi, hdf⟩
        exact hq ⟨o1, d1, i1, List.mem_cons_of_mem _ hm, hg, hi, hdf⟩
    | some d =>
      obtain ⟨i, hi⟩ := hInfo p o d (List.mem_cons_self _ _) hW
      by_cases hdf : rescanPath.differs o i
      · obtain ⟨del, idx, h1, h2, h3, h4⟩ := ih (s.1 ++ [p], s.2.set p d) hrest
        refine ⟨del, idx, ?_, ?_, ?_, ?_⟩
        · simp [rescanPath.oldLoop, hW, hi, hdf, h1]
        · simp [h2, hW, hi, hdf]
        · rintro q ⟨o1, d1, i1, hm, hg, hi1, hdf1⟩
          by_cases hex : ∃ o d i, (q, o) ∈ rest ∧ W.get q = some d ∧ d.Info = .ok i ∧
              rescanPath.differs o i
          · exact h3 q hex
          · rw [h4 q hex]
            rcases List.mem_cons.1 hm with hm | hm
            · cases hm
              simp [GoMap.get_set, hW]
            · exact absurd ⟨o1, d1, i1, hm, hg, hi1, hdf1⟩ hex
        · intro q hq
          have hex : ¬ ∃ o d i, (q, o) ∈ rest ∧ W.get q = some d ∧ d.Info = .ok i ∧
              rescanPath.differs o i := by
            intro ⟨o1, d1, i1, hm, hg, hi1, hdf1⟩
            exact hq ⟨o1, d1, i1, List.mem_cons_of_mem _ hm, hg, hi1, hdf1⟩
          rw [h4 q hex]
          have hpq : p ≠ q := by
            rintro rfl
            exact hq ⟨o, d, i, List.mem_cons_self _ _, hW, hi, hdf⟩
          simp [GoMap.get_set, hpq]
      · obtain ⟨del, idx, h1, h2, h3, h4⟩ := ih s hrest
        refine ⟨del, idx, ?_, ?_, ?_, ?_⟩
        · simp [rescanPath.oldLoop, hW, hi, hdf, h1]
        · simp [h2, hW, hi, hdf]
        · rintro q ⟨o1, d1, i1, hm, hg, hi1, hdf1⟩
          rcases List.mem_cons.1 hm with hm | hm
          · cases hm
            rw [hW] at hg; cases hg
            rw [hi] at hi1; cases hi1
            exact absurd hdf1 hdf
          · exact h3 q ⟨o1, d1, i1, hm, hg, hi1, hdf1⟩
        · intro q hq
          rw [h4 q]
          intro ⟨o1, d1, i1, hm, hg, hi1, hdf1⟩
          exact hq ⟨o1, d1, i1, List.mem_cons_of_mem _ hm, hg, hi1, hdf1⟩

theorem rescanPath.newLoop_get (S : GoMap ShortFileInfo) (q : String) :
    ∀ (rest : List (String × DirEntry)) (idx : GoMap DirEntry), (GoMap.keys rest).Nodup →
      (rescanPath.newLoop S rest idx).get q =
        if S.get q = none ∧ q ∈ GoMap.keys rest then GoMap.get rest q else idx.get q := by
  intro rest
  induction rest with
  | nil => intro idx _; simp [rescanPath.newLoop, GoMap.keys]
  | cons kv rest ih =>
    obtain ⟨k, v⟩ := kv
    intro idx hnd
    have hnd2 : k ∉ GoMap.keys rest ∧ (GoMap.keys rest).Nodup := by
      simpa [GoMap.keys] using hnd
    have hkeys : GoMap.keys ((k, v) :: rest) = k :: GoMap.keys rest := rfl
    rw [hkeys]
    by_cases hkq : k = q
    · subst hkq
      cases hS : S.get k with
      | none =>
        simp only [rescanPath.newLoop, hS]
        rw [ih _ hnd2.2, if_neg (fun h => hnd2.1 h.2), if_pos ⟨trivial, List.mem_cons_self _ _⟩]
        simp [GoMap.get_set, GoMap.get]
      | some o =>
        simp only [rescanPath.newLoop, hS]
        rw [ih _ hnd2.2, if_neg (fun h => hnd2.1 h.2), if_neg (fun h => by simp at h)]
    · have hget : GoMap.get ((k, v) :: rest) q = GoMap.get rest q := by
        simp [GoMap.get, hkq]
      rw [hget]
      have hstep : ∀ idx1 : GoMap DirEntry, idx1.get q = idx.get q →
          (rescanPath.newLoop S rest idx1).get q =
            if S.get q = none ∧ q ∈ k :: GoMap.keys rest then GoMap.get rest q else idx.get q := by
        intro idx1 h1
        rw [ih _ hnd2.2]
        by_cases hc : S.get q = none ∧ q ∈ GoMap.keys rest
        · rw [if_pos hc, if_pos ⟨hc.1, List.mem_cons_of_mem _ hc.2⟩]
        · rw [if_neg hc, if_neg (fun h => hc ⟨h.1, (List.mem_cons.1 h.2).resolve_left
            (Ne.symm hkq)⟩), h1]
      cases hS : S.get k with
      | none =>
        simp only [rescanPath.newLoop, hS]
        exact hstep _ (by simp [GoMap.get_set, hkq])
      | some o =>
        simp only [rescanPath.newLoop, hS]
        exact hstep _ rfl

theorem rescanPath.diff_delete (oldInfos : GoMap ShortFileInfo) (newInfos : GoMap DirEntry)
    (hS : oldInfos.keys.Nodup)
    (hInfo : ∀ p d, p ∈ oldInfos.keys → newInfos.get p = some d → ∃ i, d.Info = .ok i) :
    ∃ deletePaths toIndex,
      rescanPath.diff oldInfos newInfos = .ok (deletePaths, toIndex) ∧
      deletePaths.Nodup ∧
      ∀ p, p ∈ deletePaths ↔
        ∃ o, oldInfos.get p = some o ∧
          (newInfos.get p = none ∨
            ∃ d i, newInfos.get p = some d ∧ d.Info = .ok i ∧
              (o.Size ≠ i.Size ∨ o.ModTime ≠ i.ModTime.Truncate time.Second)) := by
  have hInfo1 : ∀ q o d, (q, o) ∈ oldInfos → newInfos.get q = some d → ∃ i, d.Info = .ok i :=
    fun q o d hq hd => hInfo q d (List.mem_map.2 ⟨(q, o), hq, rfl⟩) hd
  obtain ⟨del, idx, h1, h2, -, -⟩ := rescanPath.oldLoop_spec newInfos oldInfos ([], []) hInfo1
  refine ⟨del, rescanPath.newLoop oldInfos newInfos idx, ?_, ?_, ?_⟩
  · simp [rescanPath.diff, h1]
  · rw [h2]
    simp only [List.nil_append]
    exact List.Nodup.sublist (List.Sublist.map _ (List.filter_sublist _)) hS
  · intro p
    rw [h2]
    simp only [List.nil_append, List.mem_map, List.mem_filter]
    constructor
    · rintro ⟨⟨q, o⟩, ⟨hm, hf⟩, rfl⟩
      refine ⟨o, GoMap.get_of_mem _ hS _ _ hm, ?_⟩
      simp only at hf
      cases hW : newInfos.get q with
      | none => exact Or.inl rfl
      | some d =>
        obtain ⟨i, hi⟩ := hInfo1 q o d hm hW
        rw [hW] at hf
        simp only [hi, decide_eq_true_eq] at hf
        exact Or.inr ⟨d, i, rfl, hi, hf⟩
    · rintro ⟨o, ho, hc⟩
      refine ⟨(p, o), ⟨GoMap.mem_of_get _ _ _ ho, ?_⟩, rfl⟩
      rcases hc with hc | ⟨d, i, hd, hi, hdf⟩
      · simp [hc]
      · simp only [hd, hi, decide_eq_true_eq]
        exact hdf

theorem rescanPath.diff_index (oldInfos : GoMap ShortFileInfo) (newInfos : GoMap DirEntry)
    (hS : oldInfos.keys.Nodup) (hW : newInfos.keys.Nodup)
    (hInfo : ∀ p d, p ∈ oldInfos.keys → newInfos.get p = some d → ∃ i, d.Info = .ok i) :
    ∃ deletePaths toIndex,
      rescanPath.diff oldInfos newInfos = .ok (deletePaths, toIndex) ∧
      (∀ p, p ∈ toIndex.keys ↔
        (p ∈ newInfos.keys ∧ p ∉ oldInfos.keys) ∨
          ∃ o d i, oldInfos.get p = some o ∧ newInfos.get p = some d ∧ d.Info = .ok i ∧
            (o.Size ≠ i.Size ∨ o.ModTime ≠ i.ModTime.Truncate time.Second)) ∧
      (∀ p, p ∈ newInfos.keys → p ∉ oldInfos.keys → p ∈ toIndex.keys ∧ p ∉ deletePaths) ∧
      (∀ p d, toIndex.get p = some d → newInfos.get p = some d) := by
  have hInfo1 : ∀ q o d, (q, o) ∈ oldInfos → newInfos.get q = some d → ∃ i, d.Info = .ok i :=
    fun q o d hq hd => hInfo q d (List.mem_map.2 ⟨(q, o), hq, rfl⟩) hd
  obtain ⟨del, idx, h1, h2, h3, h4⟩ := rescanPath.oldLoop_spec newInfos oldInfos ([], []) hInfo1
  have hget : ∀ q, (rescanPath.newLoop oldInfos newInfos idx).get q =
      if oldInfos.get q = none ∧ q ∈ GoMap.keys newInfos then GoMap.get newInfos q
      else idx.get q := fun q => rescanPath.newLoop_get oldInfos q newInfos idx hW
  have hmis : ∀ q, (∃ o d i, (q, o) ∈ oldInfos ∧ newInfos.get q = some d ∧ d.Info = .ok i ∧
        rescanPath.differs o i) ↔
      ∃ o d i, oldInfos.get q = some o ∧ newInfos.get q = some d ∧ d.Info = .ok i ∧
        (o.Size ≠ i.Size ∨ o.ModTime ≠ i.ModTime.Truncate time.Second) := by
    intro q
    constructor
    · rintro ⟨o, d, i, hm, hr⟩
      exact ⟨o, d, i, GoMap.get_of_mem _ hS _ _ hm, hr⟩
    · rintro ⟨o, d, i, hm, hr⟩
      exact ⟨o, d, i, GoMap.mem_of_get _ _ _ hm, hr⟩
  have hkey : ∀ p, p ∈ (rescanPath.newLoop oldInfos newInfos idx).keys ↔
      (p ∈ newInfos.keys ∧ p ∉ oldInfos.keys) ∨
        ∃ o d i, oldInfos.get p = some o ∧ newInfos.get p = some d ∧ d.Info = .ok i ∧
          (o.Size ≠ i.Size ∨ o.ModTime ≠ i.ModTime.Truncate time.Second) := by
    intro p
    rw [GoMap.mem_keys_iff, hget p]
    by_cases hc : oldInfos.get p = none ∧ p ∈ GoMap.keys newInfos
    · rw [if_pos hc]
      constructor
      · intro _
        exact Or.inl ⟨hc.2, (GoMap.get_eq_none_iff _ _).1 hc.1⟩
      · intro _
        exact (GoMap.mem_keys_iff _ _).1 hc.2
    · rw [if_neg hc]
      by_cases hex : ∃ o d i, (p, o) ∈ oldInfos ∧ newInfos.get p = some d ∧ d.Info = .ok i ∧
          rescanPath.differs o i
      · rw [h3 p hex]
        constructor
        · intro _; exact Or.inr ((hmis p).1 hex)
        · intro _
          obtain ⟨o, d, i, -, hd, -⟩ := hex
          exact ⟨d, hd⟩
      · rw [h4 p hex]
        constructor
        · rintro ⟨v, hv⟩
          simp [GoMap.get] at hv
        · rintro (⟨hw, hs⟩ | hm)
          · exact absurd ⟨(GoMap.get_eq_none_iff _ _).2 hs, hw⟩ hc
          · exact absurd ((hmis p).2 hm) hex
  refine ⟨del, rescanPath.newLoop oldInfos newInfos idx, ?_, hkey, ?_, ?_⟩
  · simp [rescanPath.diff, h1]
  · intro p hw hs
    refine ⟨(hkey p).2 (Or.inl ⟨hw, hs⟩), ?_⟩
    rw [h2]
    simp only [List.nil_append, List.mem_map, List.mem_filter]
    rintro ⟨⟨q, o⟩, ⟨hm, -⟩, rfl⟩
    exact hs (List.mem_map.2 ⟨(q, o), hm, rfl⟩)
  · intro p d hp
    rw [hget p] at hp
    by_cases hc : oldInfos.get p = none ∧ p ∈ GoMap.keys newInfos
    · rw [if_pos hc] at hp; exact hp
    · rw [if_neg hc] at hp
      by_cases hex : ∃ o d i, (p, o) ∈ oldInfos ∧ newInfos.get p = some d ∧ d.Info = .ok i ∧
          rescanPath.differs o i
      · rw [h3 p hex] at hp; exact hp
      · rw [h4 p hex] at hp
        simp [GoMap.get] at hp

theorem rescanPath.eq_of_diff (w : World) (db db1 : DB) (path : String)
    (oldInfos : GoMap ShortFileInfo) (newInfos : GoMap DirEntry)
    (deletePaths : List String) (toIndex : GoMap DirEntry)
    (hq : db.AllFileInfosAt path = (.ok oldInfos, db1))
    (hwalk : filepath.WalkDir (w.Lstat path) path rescanPath.walkFn ([] : GoMap DirEntry)
      = (none, newInfos))
    (hdiff : rescanPath.diff oldInfos newInfos = .ok (deletePaths, toIndex)) :
    rescanPath w db path =
      match db1.DeletePaths deletePaths with
      | (some e, db2) => (.error ("could not delete info on files: " ++ e), db2)
      | (none, db2) => (.ok toIndex, db2) := by
  simp [rescanPath, hq, hwalk, hdiff]

theorem exNew_info (p : String) (d : DirEntry) (_ : p ∈ exOld.keys)
    (hg : exNew.get p = some d) : ∃ i, d.Info = .ok i := by
  have hm := GoMap.mem_of_get _ _ _ hg
  simp only [exNew, List.mem_cons, Prod.mk.injEq, List.mem_singleton, List.not_mem_nil,
    or_false] at hm
  rcases hm with ⟨-, rfl⟩ | ⟨-, rfl⟩ | ⟨-, rfl⟩ <;> exact ⟨_, rfl⟩

/-! ## Lemmas on the walk -/

theorem isHiddenFile_iff (name : String) (hname : name ≠ ".") :
    (isHiddenFile name).1 = true ↔ name.data.head? = some '.' := by
  obtain ⟨cs⟩ := name
  cases cs with
  | nil => simp [isHiddenFile]
  | cons c cs =>
    cases cs with
    | nil =>
      have hc : c ≠ '.' := by
        rintro rfl
        exact hname rfl
      simp [isHiddenFile, hc]
    | cons c2 cs =>
      have h1 : 0 < c.utf8Size := Char.utf8Size_pos c
      have h2 : 0 < c2.utf8Size := Char.utf8Size_pos c2
      have hsz : 1 < String.utf8ByteSize ⟨c :: c2 :: cs⟩ := by
        simp only [String.utf8ByteSize, String.utf8ByteSize.go]
        omega
      simp only [isHiddenFile, hsz, decide_True, Bool.true_and]
      simp

theorem rescan_walkFn_hidden (path : String) (d : DirEntry) (acc : GoMap DirEntry)
    (h : (isHiddenFile d.Name).1 = true) :
    rescanPath.walkFn path (some d) none acc =
      (if d.IsDir then some filepath.WalkErr.SkipDir else none, acc) := by
  have h2 : isHiddenFile d.Name = (true, none) := by
    simp only [isHiddenFile] at h ⊢
    rw [h]
  simp only [rescanPath.walkFn, h2]
  split <;> rfl

theorem rescan_walkFn_shown (path : String) (d : DirEntry) (acc : GoMap DirEntry)
    (h : (isHiddenFile d.Name).1 = false) :
    rescanPath.walkFn path (some d) none acc =
      (none, if d.Typ.IsRegular then acc.set path d else acc) := by
  have h2 : isHiddenFile d.Name = (false, none) := by
    simp only [isHiddenFile] at h ⊢
    rw [h]
  simp only [rescanPath.walkFn, h2]
  cases d.Typ.IsRegular <;> rfl

mutual
theorem rescan_walkDir_eq : ∀ (n : FSNode) (path : String) (acc : GoMap DirEntry),
    n.readable = true →
    filepath.walkDir rescanPath.walkFn path n acc =
      (none, (collectedFiles path n).foldl (fun m kv => m.set kv.1 kv.2) acc)
  | .node d readErr children, path, acc, h => by
    cases hh : (isHiddenFile d.Name).1 with
    | true =>
      rw [filepath.walkDir, rescan_walkFn_hidden path d acc hh]
      cases hd : d.IsDir <;> simp [collectedFiles, hh]
    | false =>
      rw [filepath.walkDir, rescan_walkFn_shown path d acc hh]
      cases hd : d.IsDir with
      | false =>
        cases hr : d.Typ.IsRegular <;> simp [collectedFiles, hh, hd, hr]
      | true =>
        have hr : d.Typ.IsRegular = false := by
          simp only [DirEntry.IsDir, decide_eq_true_eq] at hd
          simp [FileMode.IsRegular, hd]
        simp only [FSNode.readable, hh, hd, Bool.not_true, Bool.false_or, Bool.and_eq_true,
          Option.isNone_iff_eq_none] at h
        obtain ⟨he, hc⟩ := h
        subst he
        simp only [hr, Bool.not_true, Bool.false_eq_true, if_false]
        rw [rescan_walkDirs_eq children path acc hc]
        simp [collectedFiles, hh, hd]
theorem rescan_walkDirs_eq : ∀ (cs : List FSNode) (path : String) (acc : GoMap DirEntry),
    FSNode.readable.readableAll cs = true →
    filepath.walkDir.walkDirs rescanPath.walkFn path cs acc =
      (none, (collectedFiles.collectedIn path cs).foldl (fun m kv => m.set kv.1 kv.2) acc)
  | [], path, acc, _ => by
    simp [filepath.walkDir.walkDirs, collectedFiles.collectedIn]
  | c :: cs, path, acc, h => by
    simp only [FSNode.readable.readableAll, Bool.and_eq_true] at h
    rw [filepath.walkDir.walkDirs, rescan_walkDir_eq c _ acc h.1]
    simp only
    rw [rescan_walkDirs_eq cs path _ h.2]
    simp [collectedFiles.collectedIn, List.foldl_append]
end

theorem add_walkFn_hidden (w : World) (path : String) (d : DirEntry)
    (s : Run × GoMap DirEntry × Progress) (h : (isHiddenFile d.Name).1 = true) :
    Add.walkFn w path (some d) none s =
      (if d.IsDir then some filepath.WalkErr.SkipDir else none, (s.1.report w s.2.2, s.2)) := by
  have h2 : isHiddenFile d.Name = (true, none) := by
    simp only [isHiddenFile] at h ⊢
    rw [h]
  simp only [Add.walkFn, h2]
  split <;> rfl

theorem add_walkFn_shown (w : World) (path : String) (d : DirEntry)
    (s : Run × GoMap DirEntry × Progress) (h : (isHiddenFile d.Name).1 = false) :
    Add.walkFn w path (some d) none s =
      (none, (s.1.report w s.2.2,
        if d.Typ.IsRegular then (s.2.1.set path d, { s.2.2 with Total := s.2.2.Total + 1 })
        else s.2)) := by
  have h2 : isHiddenFile d.Name = (false, none) := by
    simp only [isHiddenFile] at h ⊢
    rw [h]
  simp only [Add.walkFn, h2]
  cases d.Typ.IsRegular <;> rfl

mutual
theorem add_walkDir_eq (w : World) : ∀ (n : FSNode) (path : String) (run : Run)
    (acc : GoMap DirEntry) (prog : Progress), n.readable = true →
    ∃ run1, filepath.walkDir (Add.walkFn w) path n (run, acc, prog) =
      (none, (run1, (collectedFiles path n).foldl (fun m kv => m.set kv.1 kv.2) acc,
        { prog with Total := prog.Total + (collectedFiles path n).length }))
  | .node d readErr children, path, run, acc, prog, h => by
    cases hh : (isHiddenFile d.Name).1 with
    | true =>
      refine ⟨run.report w prog, ?_⟩
      rw [filepath.walkDir, add_walkFn_hidden w path d _ hh]
      cases hd : d.IsDir <;> simp [collectedFiles, hh]
    | false =>
      cases hd : d.IsDir with
      | false =>
        refine ⟨run.report w prog, ?_⟩
        rw [filepath.walkDir, add_walkFn_shown w path d _ hh]
        cases hr : d.Typ.IsRegular <;> simp [collectedFiles, hh, hd, hr]
      | true =>
        have hr : d.Typ.IsRegular = false := by
          simp only [DirEntry.IsDir, decide_eq_true_eq] at hd
          simp [FileMode.IsRegular, hd]
        simp only [FSNode.readable, hh, hd, Bool.not_true, Bool.false_or, Bool.and_eq_true,
          Option.isNone_iff_eq_none] at h
        obtain ⟨he, hc⟩ := h
        subst he
        obtain ⟨run1, h1⟩ := add_walkDirs_eq w children path (run.report w prog) acc prog hc
        refine ⟨run1, ?_⟩
        rw [filepath.walkDir, add_walkFn_shown w path d _ hh]
        simp only [hr, hd, Bool.not_true, Bool.false_eq_true, if_false]
        rw [h1]
        simp [collectedFiles, hh, hd]
theorem add_walkDirs_eq (w : World) : ∀ (cs : List FSNode) (path : String) (run : Run)
    (acc : GoMap DirEntry) (prog : Progress), FSNode.readable.readableAll cs = true →
    ∃ run1, filepath.walkDir.walkDirs (Add.walkFn w) path cs (run, acc, prog) =
      (none, (run1,
        (collectedFiles.collectedIn path cs).foldl (fun m kv => m.set kv.1 kv.2) acc,
        { prog with Total := prog.Total + (collectedFiles.collectedIn path cs).length }))
  | [], path, run, acc, prog, _ => by
    exact ⟨run, by simp [filepath.walkDir.walkDirs, collectedFiles.collectedIn]⟩
  | c :: cs, path, run, acc, prog, h => by
    simp only [FSNode.readable.readableAll, Bool.and_eq_true] at h
    obtain ⟨run1, h1⟩ := add_walkDir_eq w c (filepath.Join path c.entry.Name) run acc prog h.1
    obtain ⟨run2, h2⟩ := add_walkDirs_eq w cs path run1 _ _ h.2
    refine ⟨run2, ?_⟩
    rw [filepath.walkDir.walkDirs, h1]
    simp only
    rw [h2]
    simp [collectedFiles.collectedIn, List.foldl_append, Int.add_assoc]
end

theorem collectedIn_of_mem (path : String) (p : String) (e : DirEntry) (c : FSNode) :
    ∀ cs : List FSNode, c ∈ cs →
      (p, e) ∈ collectedFiles (filepath.Join path c.entry.Name) c →
      (p, e) ∈ collectedFiles.collectedIn path cs := by
  intro cs
  induction cs with
  | nil => intro h; simp at h
  | cons a cs ih =>
    intro h hm
    simp only [collectedFiles.collectedIn, List.mem_append]
    rcases List.mem_cons.1 h with rfl | h
    · exact Or.inl hm
    · exact Or.inr (ih h hm)

theorem mem_collectedFiles_of_Collected (root : String) (tree : FSNode) (p : String)
    (e : DirEntry) (h : Collected root tree p e) : (p, e) ∈ collectedFiles root tree := by
  induction h with
  | file path d readErr children hh hr =>
    have hd : d.IsDir = false := by
      cases hT : d.Typ <;> simp_all [FileMode.IsRegular, DirEntry.IsDir]
    simp [collectedFiles, hh, hr, hd]
  | dir path d readErr children c p e hh hd hc _ ih =>
    simp only [collectedFiles, hh, hd, Bool.false_eq_true, if_false, if_true]
    exact collectedIn_of_mem path p e c children hc ih

mutual
theorem Collected_of_mem_collectedFiles : ∀ (n : FSNode) (path p : String) (e : DirEntry),
    (p, e) ∈ collectedFiles path n → Collected path n p e
  | .node d readErr children, path, p, e, h => by
    cases hh : (isHiddenFile d.Name).1 with
    | true => simp [collectedFiles, hh] at h
    | false =>
      cases hd : d.IsDir with
      | true =>
        simp only [collectedFiles, hh, hd, Bool.false_eq_true, if_false, if_true] at h
        obtain ⟨c, hc, hcol⟩ := Collected_of_mem_collectedIn children path p e h
        exact Collected.dir path d readErr children c p e hh hd hc hcol
      | false =>
        cases hr : d.Typ.IsRegular with
        | false => simp [collectedFiles, hh, hd, hr] at h
        | true =>
          simp only [collectedFiles, hh, hd, hr, Bool.false_eq_true, if_false, if_true,
            List.mem_singleton, Prod.mk.injEq] at h
          obtain ⟨rfl, rfl⟩ := h
          exact Collected.file p e readErr children hh hr
theorem Collected_of_mem_collectedIn : ∀ (cs : List FSNode) (path p : String) (e : DirEntry),
    (p, e) ∈ collectedFiles.collectedIn path cs →
    ∃ c, c ∈ cs ∧ Collected (filepath.Join path c.entry.Name) c p e
  | [], path, p, e, h => by simp [collectedFiles.collectedIn] at h
  | c :: cs, path, p, e, h => by
    simp only [collectedFiles.collectedIn, List.mem_append] at h
    rcases h with h | h
    · exact ⟨c, List.mem_cons_self _ _, Collected_of_mem_collectedFiles c _ p e h⟩
    · obtain ⟨c1, hc1, hcol⟩ := Collected_of_mem_collectedIn cs path p e h
      exact ⟨c1, List.mem_cons_of_mem _ hc1, hcol⟩
end

/-! ## Lemmas on classification and indexing -/

theorem takeWhile_ne_of_not_mem (c : Char) (l r : List Char) (h : c ∉ l) :
    (l ++ c :: r).takeWhile (fun x => x != c) = l := by
  induction l with
  | nil => simp
  | cons a l ih =>
    have ha : a ≠ c := fun e => h (e ▸ List.mem_cons_self _ _)
    have hl : c ∉ l := fun e => h (List.mem_cons_of_mem _ e)
    have hb : (a != c) = true := by simpa using ha
    simp [List.takeWhile, hb, ih hl]

theorem takeWhile_ne_of_not_mem_nil (c : Char) (l : List Char) (h : c ∉ l) :
    l.takeWhile (fun x => x != c) = l := by
  induction l with
  | nil => simp
  | cons a l ih =>
    have ha : a ≠ c := fun e => h (e ▸ List.mem_cons_self _ _)
    have hl : c ∉ l := fun e => h (List.mem_cons_of_mem _ e)
    have hb : (a != c) = true := by simpa using ha
    simp [List.takeWhile, hb, ih hl]

theorem determineMIME_of_zip (w : World) (path : String) (data : List Nat)
    (hopen : w.Open path = .ok data)
    (hzip : stripParams (w.DetectContentType data) = "application/zip") :
    determineMIME w path = .ok (zipMIME (filepath.Ext path)) := by
  have hdata : data.length ≠ 0 := by
    intro h
    have hnil : data = [] := List.length_eq_zero.1 h
    rw [hnil] at hzip
    have hempty : stripParams (w.DetectContentType []) = "text/plain" := by
      simp only [World.DetectContentType, if_true]
      decide
    rw [hempty] at hzip
    exact absurd hzip (by decide)
  simp only [determineMIME, hopen, hzip]
  have h1 : ¬ (data.length = 0 ∨ "application/zip" = "application/octet-stream") := by
    rintro (h | h)
    · exact hdata h
    · exact absurd h (by decide)
  have h2 : ¬ (("application/zip" = "text/plain" ∨ "application/zip" = "text/xml") ∧
      w.TypeByExtension (filepath.Ext path) = "image/svg+xml") := by
    rintro ⟨h | h, -⟩
    · exact absurd h (by decide)
    · exact absurd h (by decide)
  rw [if_neg h1, if_neg h2]
  simp

theorem toFile_ok (a : addition) (i : FileInfo) (hi : a.d.Info = .ok i) :
    ∃ f, toFile a = .ok f ∧ f.Path = a.path ∧ f.Size = i.Size ∧ f.Modified = i.ModTime ∧
      f.MIME = a.mime :=
  ⟨_, by simp only [toFile, hi]; rfl, rfl, rfl, rfl, rfl⟩

theorem wrapErr_db (msg path : String) (r : Option String × DB) : (wrapErr msg path r).2 = r.2 := by
  obtain ⟨e, db⟩ := r
  cases e <;> rfl

/-! ## Reconciliation -/

/-- C1: for every stored map `oldInfos` and walked map `newInfos` (each walked
entry that is also stored having a readable `Info`), `rescanPath` reaches
`DeletePaths`, the list it passes has no duplicates and holds exactly the
stored paths that are absent from the walk or whose stored size or stored
modification time differs from the walked size or the walked modification
time truncated to whole seconds.  For a stored second `s0` and a walked time
`time.Unix(sec, nsec)` the times differ exactly when `s0` is not the whole
second of the walked time. -/
theorem rescanPath_deletePaths_spec (oldInfos : GoMap ShortFileInfo) (newInfos : GoMap DirEntry)
    (hS : oldInfos.keys.Nodup)
    (hInfo : ∀ p d, p ∈ oldInfos.keys → newInfos.get p = some d → ∃ i, d.Info = .ok i) :
    ∃ deletePaths toIndex,
      rescanPath.diff oldInfos newInfos = .ok (deletePaths, toIndex) ∧
      (∀ (w : World) (db db1 : DB) (path : String),
        db.AllFileInfosAt path = (.ok oldInfos, db1) →
        filepath.WalkDir (w.Lstat path) path rescanPath.walkFn ([] : GoMap DirEntry)
          = (none, newInfos) →
        rescanPath w db path =
          match db1.DeletePaths deletePaths with
          | (some e, db2) => (.error ("could not delete info on files: " ++ e), db2)
          | (none, db2) => (.ok toIndex, db2)) ∧
      deletePaths.Nodup ∧
      (∀ p, p ∈ deletePaths ↔
        ∃ o, oldInfos.get p = some o ∧
          (newInfos.get p = none ∨
            ∃ d i, newInfos.get p = some d ∧ d.Info = .ok i ∧
              (o.Size ≠ i.Size ∨ o.ModTime ≠ i.ModTime.Truncate time.Second))) ∧
      (∀ s0 sec nsec : Int, isInt64 s0 →
        (time.Unix s0 0 ≠ Time.Truncate (time.Unix sec nsec) time.Second ↔
          s0 ≠ Time.Unix (time.Unix sec nsec))) := by
  obtain ⟨del, idx, h1, h2, h3⟩ := rescanPath.diff_delete oldInfos newInfos hS hInfo
  exact ⟨del, idx, h1,
    fun w db db1 path hq hwalk =>
      rescanPath.eq_of_diff w db db1 path oldInfos newInfos del idx hq hwalk h1,
    h2, h3, time.stored_ne_Truncate_iff⟩

/-- Witness of C1 on the example maps. -/
theorem rescanPath_deletePaths_witness :
    exOld.keys.Nodup ∧
    (∀ p d, p ∈ exOld.keys → exNew.get p = some d → ∃ i, d.Info = .ok i) ∧
    ∃ deletePaths toIndex,
      rescanPath.diff exOld exNew = .ok (deletePaths, toIndex) ∧
      (∀ (w : World) (db db1 : DB) (path : String),
        db.AllFileInfosAt path = (.ok exOld, db1) →
        filepath.WalkDir (w.Lstat path) path rescanPath.walkFn ([] : GoMap DirEntry)
          = (none, exNew) →
        rescanPath w db path =
          match db1.DeletePaths deletePaths with
          | (some e, db2) => (.error ("could not delete info on files: " ++ e), db2)
          | (none, db2) => (.ok toIndex, db2)) ∧
      deletePaths.Nodup ∧
      (∀ p, p ∈ deletePaths ↔
        ∃ o, exOld.get p = some o ∧
          (exNew.get p = none ∨
            ∃ d i, exNew.get p = some d ∧ d.Info = .ok i ∧
              (o.Size ≠ i.Size ∨ o.ModTime ≠ i.ModTime.Truncate time.Second))) ∧
      (∀ s0 sec nsec : Int, isInt64 s0 →
        (time.Unix s0 0 ≠ Time.Truncate (time.Unix sec nsec) time.Second ↔
          s0 ≠ Time.Unix (time.Unix sec nsec))) :=
  ⟨by decide, exNew_info, rescanPath_deletePaths_spec exOld exNew (by decide) exNew_info⟩

/-- C2: for every stored map `oldInfos` and walked map `newInfos`, the keys of
the map `rescanPath` returns are exactly the walked paths absent from the
stored map together with the paths in both whose size or whole-second
modification time differs; a walked path absent from the stored map is
returned and is not in the delete list; every returned key is mapped to the
directory entry the walk found for it. -/
theorem rescanPath_toIndex_spec (oldInfos : GoMap ShortFileInfo) (newInfos : GoMap DirEntry)
    (hS : oldInfos.keys.Nodup) (hW : newInfos.keys.Nodup)
    (hInfo : ∀ p d, p ∈ oldInfos.keys → newInfos.get p = some d → ∃ i, d.Info = .ok i) :
    ∃ deletePaths toIndex,
      rescanPath.diff oldInfos newInfos = .ok (deletePaths, toIndex) ∧
      (∀ (w : World) (db db1 db2 : DB) (path : String),
        db.AllFileInfosAt path = (.ok oldInfos, db1) →
        filepath.WalkDir (w.Lstat path) path rescanPath.walkFn ([] : GoMap DirEntry)
          = (none, newInfos) →
        db1.DeletePaths deletePaths = (none, db2) →
        rescanPath w db path = (.ok toIndex, db2)) ∧
      (∀ p, p ∈ toIndex.keys ↔
        (p ∈ newInfos.keys ∧ p ∉ oldInfos.keys) ∨
          ∃ o d i, oldInfos.get p = some o ∧ newInfos.get p = some d ∧ d.Info = .ok i ∧
            (o.Size ≠ i.Size ∨ o.ModTime ≠ i.ModTime.Truncate time.Second)) ∧
      (∀ p, p ∈ newInfos.keys → p ∉ oldInfos.keys → p ∈ toIndex.keys ∧ p ∉ deletePaths) ∧
      (∀ p d, toIndex.get p = some d → newInfos.get p = some d) := by
  obtain ⟨del, idx, h1, h2, h3, h4⟩ := rescanPath.diff_index oldInfos newInfos hS hW hInfo
  refine ⟨del, idx, h1, ?_, h2, h3, h4⟩
  intro w db db1 db2 path hq hwalk hdel
  rw [rescanPath.eq_of_diff w db db1 path oldInfos newInfos del idx hq hwalk h1, hdel]

/-- Witness of C2 on the example maps. -/
theorem rescanPath_toIndex_witness :
    exOld.keys.Nodup ∧ exNew.keys.Nodup ∧
    (∀ p d, p ∈ exOld.keys → exNew.get p = some d → ∃ i, d.Info = .ok i) ∧
    ∃ deletePaths toIndex,
      rescanPath.diff exOld exNew = .ok (deletePaths, toIndex) ∧
      (∀ (w : World) (db db1 db2 : DB) (path : String),
        db.AllFileInfosAt path = (.ok exOld, db1) →
        filepath.WalkDir (w.Lstat path) path rescanPath.walkFn ([] : GoMap DirEntry)
          = (none, exNew) →
        db1.DeletePaths deletePaths = (none, db2) →
        rescanPath w db path = (.ok toIndex, db2)) ∧
      (∀ p, p ∈ toIndex.keys ↔
        (p ∈ exNew.keys ∧ p ∉ exOld.keys) ∨
          ∃ o d i, exOld.get p = some o ∧ exNew.get p = some d ∧ d.Info = .ok i ∧
            (o.Size ≠ i.Size ∨ o.ModTime ≠ i.ModTime.Truncate time.Second)) ∧
      (∀ p, p ∈ exNew.keys → p ∉ exOld.keys → p ∈ toIndex.keys ∧ p ∉ deletePaths) ∧
      (∀ p d, toIndex.get p = some d → exNew.get p = some d) :=
  ⟨by decide, by decide, exNew_info,
    rescanPath_toIndex_spec exOld exNew (by decide) (by decide) exNew_info⟩

/-- The comparison of `rescanPath` alone, on the maps it is handed: when the
stored map holds for a walked file its size and the second
`time.Unix(m.Unix(), 0)` of its modification time `m = time.Unix(sec, nsec)`,
the comparison puts the file in neither the delete list nor the returned
map, because that second equals `m.Truncate(time.Second)`; when every walked
file is stored that way and nothing else is in the stored map, both results
are empty.  The stored form is what `addFile` writes and `AllFileInfosAt`
reads back for a path that matches the pattern of the root.  Which entries
`AllFileInfosAt` hands to `rescanPath` is not part of this lemma. -/
theorem rescanPath_unchanged_file (oldInfos : GoMap ShortFileInfo) (newInfos : GoMap DirEntry)
    (hS : oldInfos.keys.Nodup) (hW : newInfos.keys.Nodup)
    (hInfo : ∀ p d, p ∈ oldInfos.keys → newInfos.get p = some d → ∃ i, d.Info = .ok i)
    (p : String) (d : DirEntry) (i : FileInfo) (sec nsec : Int)
    (hd : newInfos.get p = some d) (hi : d.Info = .ok i) (hm : i.ModTime = time.Unix sec nsec)
    (hp : oldInfos.get p = some { Size := i.Size, ModTime := time.Unix i.ModTime.Unix 0 }) :
    time.Unix i.ModTime.Unix 0 = i.ModTime.Truncate time.Second ∧
    (∃ deletePaths toIndex,
      rescanPath.diff oldInfos newInfos = .ok (deletePaths, toIndex) ∧
      p ∉ deletePaths ∧ p ∉ toIndex.keys ∧
      ((∀ q, newInfos.get q = none → oldInfos.get q = none) →
       (∀ q dq, newInfos.get q = some dq → ∃ iq s n, dq.Info = .ok iq ∧
          iq.ModTime = time.Unix s n ∧
          oldInfos.get q = some { Size := iq.Size, ModTime := time.Unix iq.ModTime.Unix 0 }) →
       deletePaths = [] ∧ toIndex = [])) ∧
    (∀ (db : DB) (t : Tables) (file : File) (root : String),
      db.tx = some t → db.faults = [] → (t.file.map (fun r => r.path)).Nodup →
      (∀ r ∈ t.file, r.path ≠ file.Path) →
      sqlLike (filepath.Join root "%").data file.Path.data = true →
      ∃ id db1 stored db2,
        db.addFile file = ((id, none), db1) ∧
        db1.AllFileInfosAt root = (.ok stored, db2) ∧
        stored.get file.Path =
          some { Size := file.Size, ModTime := time.Unix file.Modified.Unix 0 }) := by
  have hrt : time.Unix i.ModTime.Unix 0 = i.ModTime.Truncate time.Second := by
    rw [hm]; exact time.stored_eq_Truncate sec nsec
  refine ⟨hrt, ?_, fun db t file root htx hf hnd hnew hlike =>
    DB.addFile_AllFileInfosAt db t file root htx hf hnd hnew hlike⟩
  obtain ⟨del, idx, h1, -, h4⟩ := rescanPath.diff_delete oldInfos newInfos hS hInfo
  obtain ⟨del2, idx2, h1b, h5, -, -⟩ := rescanPath.diff_index oldInfos newInfos hS hW hInfo
  rw [h1] at h1b
  cases h1b
  have hsame : ∀ q o dq iq s n, oldInfos.get q = some o → newInfos.get q = some dq →
      dq.Info = .ok iq → iq.ModTime = time.Unix s n →
      oldInfos.get q = some { Size := iq.Size, ModTime := time.Unix iq.ModTime.Unix 0 } →
      ¬ (o.Size ≠ iq.Size ∨ o.ModTime ≠ iq.ModTime.Truncate time.Second) := by
    intro q o dq iq s n ho _ _ hmq hst
    rw [ho] at hst
    cases hst
    rw [hmq]
    simp [time.stored_eq_Truncate]
  refine ⟨del, idx, h1, ?_, ?_, ?_⟩
  · rw [h4 p]
    rintro ⟨o, ho, hg | ⟨d1, i1, hd1, hi1, hdf⟩⟩
    · rw [hd] at hg; cases hg
    · rw [hd] at hd1; cases hd1
      rw [hi] at hi1; cases hi1
      exact hsame p o d i sec nsec ho hd hi hm hp hdf
  · rw [h5 p]
    rintro (⟨-, hs⟩ | ⟨o, d1, i1, ho, hd1, hi1, hdf⟩)
    · exact hs ((GoMap.mem_keys_iff _ _).2 ⟨_, hp⟩)
    · rw [hd] at hd1; cases hd1
      rw [hi] at hi1; cases hi1
      exact hsame p o d i sec nsec ho hd hi hm hp hdf
  · intro hnone hall
    constructor
    · apply List.eq_nil_iff_forall_not_mem.2
      intro q
      rw [h4 q]
      rintro ⟨o, ho, hg | ⟨d1, i1, hd1, hi1, hdf⟩⟩
      · rw [hnone q hg] at ho; cases ho
      · obtain ⟨iq, s, n, hiq, hmq, hst⟩ := hall q d1 hd1
        rw [hi1] at hiq; cases hiq
        exact hsame q o d1 i1 s n ho hd1 hi1 hmq hst hdf
    · have hk : GoMap.keys idx = [] := by
        apply List.eq_nil_iff_forall_not_mem.2
        intro q
        rw [h5 q]
        rintro (⟨hw, hs⟩ | ⟨o, d1, i1, ho, hd1, hi1, hdf⟩)
        · obtain ⟨dq, hdq⟩ := (GoMap.mem_keys_iff _ _).1 hw
          obtain ⟨iq, s, n, -, -, hst⟩ := hall q dq hdq
          exact hs ((GoMap.mem_keys_iff _ _).2 ⟨_, hst⟩)
        · obtain ⟨iq, s, n, hiq, hmq, hst⟩ := hall q d1 hd1
          rw [hi1] at hiq; cases hiq
          exact hsame q o d1 i1 s n ho hd1 hi1 hmq hst hdf
      simpa [GoMap.keys] using hk

/-- The comparison on the example maps: the file modified a quarter of a
second after five seconds before the epoch, stored as second -5, is neither
deleted nor returned. -/
theorem rescanPath_unchanged_file_witness :
    exNew.get "/r/same" = some (exFile "same" 2 (-5) 250000000) ∧
    exOld.get "/r/same" = some { Size := 2, ModTime := time.Unix (-5) 0 } ∧
    time.Unix (Time.Unix (time.Unix (-5) 250000000)) 0 =
      Time.Truncate (time.Unix (-5) 250000000) time.Second ∧
    ∃ deletePaths toIndex,
      rescanPath.diff exOld exNew = .ok (deletePaths, toIndex) ∧
      "/r/same" ∉ deletePaths ∧ "/r/same" ∉ toIndex.keys :=
  have h := rescanPath_unchanged_file exOld exNew (by decide) (by decide) exNew_info
    "/r/same" (exFile "same" 2 (-5) 250000000)
    { Size := 2, ModTime := time.Unix (-5) 250000000, BirthTime := none, ChangeTime := none }
    (-5) 250000000 (by decide) rfl rfl (by decide)
  ⟨by decide, by decide, h.1,
    h.2.1.imp fun _ h1 => h1.imp fun _ h2 => ⟨h2.1, h2.2.1, h2.2.2.1⟩⟩

/-- C4 (the code at the failing input): with the two roots `/d/A` and `/d/a`
tracked, each holding one catalogued and unchanged file, `Rescan` returns no
error and yet the catalogue loses the file of the root scanned first, in
whichever order the roots are listed: the `LIKE` query of `AllFileInfosAt`
hands the entries of one root to the reconciliation of the other. -/
theorem Rescan_drops_entries_of_other_root :
    exTracked.d.tracked_path = ["/d/A", "/d/a"] ∧
    exTracked.d.file.map (fun r => r.path) = ["/d/A/f", "/d/a/f"] ∧
    (filepath.WalkDir (exWorld.Lstat "/d/A") "/d/A" rescanPath.walkFn []).2.keys = ["/d/A/f"] ∧
    (filepath.WalkDir (exWorld.Lstat "/d/a") "/d/a" rescanPath.walkFn []).2.keys = ["/d/a/f"] ∧
    (Rescan exWorld exTracked {}).1 = none ∧
    (Rescan exWorld exTracked {}).2.1.d.file.map (fun r => r.path) = ["/d/a/f"] ∧
    (Rescan exWorld exTrackedRev {}).1 = none ∧
    (Rescan exWorld exTrackedRev {}).2.1.d.file.map (fun r => r.path) = ["/d/A/f"] := by
  decide

/-! ## Creation time guess and directory walk -/

/-- C5: for every optional birth time, optional change time and modification
time that `Info` reports, `toFile` succeeds and its `CreatedGuess` is one of
the values present, no value present lies before it (so it is their
minimum and never later than the modification time), and it is the
modification time when neither birth nor change time is available. -/
theorem toFile_CreatedGuess_min (a : addition) (i : FileInfo) (hi : a.d.Info = .ok i) :
    ∃ f, toFile a = .ok f ∧
      (f.CreatedGuess = i.ModTime ∨ i.BirthTime = some f.CreatedGuess ∨
        i.ChangeTime = some f.CreatedGuess) ∧
      i.ModTime.Before f.CreatedGuess = false ∧
      (∀ b, i.BirthTime = some b → b.Before f.CreatedGuess = false) ∧
      (∀ c, i.ChangeTime = some c → c.Before f.CreatedGuess = false) ∧
      (i.BirthTime = none → i.ChangeTime = none → f.CreatedGuess = i.ModTime) := by
  have hnb : ∀ t u : Time, t.Before u = false ↔
      ¬ (t.sec < u.sec ∨ (t.sec = u.sec ∧ t.nsec < u.nsec)) := by
    intro t u
    rw [← Time.Before_iff]
    cases t.Before u <;> simp
  obtain ⟨sz, m, b, c⟩ := i
  refine ⟨_, by simp only [toFile, hi]; rfl, ?_⟩
  simp only
  cases b with
  | none =>
    cases c with
    | none => simp [hnb]
    | some c =>
      by_cases h : m.Before c = true
      · have h2 := (Time.Before_iff m c).1 h
        simp [h, hnb]
        omega
      · have h1 : m.Before c = false := by simpa using h
        have h2 := (hnb m c).1 h1
        simp [h1, hnb]
  | some b =>
    cases c with
    | none =>
      by_cases h : m.Before b = true
      · have h2 := (Time.Before_iff m b).1 h
        simp [h, hnb]
        omega
      · have h1 : m.Before b = false := by simpa using h
        simp [h1, hnb]
    | some c =>
      by_cases hcb : c.Before b = true
      · have h3 := (Time.Before_iff c b).1 hcb
        by_cases h : m.Before c = true
        · have h2 := (Time.Before_iff m c).1 h
          simp [hcb, h, hnb]
          omega
        · have h1 : m.Before c = false := by simpa using h
          simp [hcb, h1, hnb]
          omega
      · have hcb1 : c.Before b = false := by simpa using hcb
        have h3 := (hnb c b).1 hcb1
        by_cases h : m.Before b = true
        · have h2 := (Time.Before_iff m b).1 h
          simp [hcb1, h, hnb]
          omega
        · have h1 : m.Before b = false := by simpa using h
          simp [hcb1, h1, hnb]
          omega

/-- Witness of C5: with birth 500 s, change 300.5 s and modification 400 s the
guess is the change time. -/
theorem toFile_CreatedGuess_witness :
    exAddition.d.Info = .ok exTimes ∧
    (toFile exAddition).toOption.map (fun f => f.CreatedGuess) = some (time.Unix 300 500000000) ∧
    ∃ f, toFile exAddition = .ok f ∧
      (f.CreatedGuess = exTimes.ModTime ∨ exTimes.BirthTime = some f.CreatedGuess ∨
        exTimes.ChangeTime = some f.CreatedGuess) ∧
      exTimes.ModTime.Before f.CreatedGuess = false ∧
      (∀ b, exTimes.BirthTime = some b → b.Before f.CreatedGuess = false) ∧
      (∀ c, exTimes.ChangeTime = some c → c.Before f.CreatedGuess = false) ∧
      (exTimes.BirthTime = none → exTimes.ChangeTime = none → f.CreatedGuess = exTimes.ModTime) :=
  ⟨rfl, by decide, toFile_CreatedGuess_min exAddition exTimes rfl⟩

/-- C6: on every directory tree in which the directories the walk enters can
be read, the walk of `rescanPath` and the walk of `Add` return no error and
build the same map; its keys are exactly the paths of the regular files for
which neither the own name nor the name of a directory on the way (the root
included) is hidden, each mapped to such a file.  Hidden directories are
pruned, hidden files and non-regular entries are left out without error.  A
name other than `.` is hidden exactly when it begins with a dot. -/
theorem walk_collects_visible_regular_files (w : World) (root : String) (tree : FSNode)
    (run : Run) (h : tree.readable = true) :
    ∃ (newInfos : GoMap DirEntry) (run1 : Run),
      filepath.WalkDir (.ok tree) root rescanPath.walkFn ([] : GoMap DirEntry)
        = (none, newInfos) ∧
      filepath.WalkDir (.ok tree) root (Add.walkFn w)
          (run, ([] : GoMap DirEntry), ({} : Progress))
        = (none, (run1, newInfos,
            { Done := 0, Total := ((collectedFiles root tree).length : Int) })) ∧
      newInfos.keys.Nodup ∧
      (∀ p, p ∈ newInfos.keys ↔ ∃ d, Collected root tree p d) ∧
      (∀ p d, newInfos.get p = some d → Collected root tree p d) ∧
      (∀ name : String, name ≠ "." →
        ((isHiddenFile name).1 = true ↔ name.data.head? = some '.')) := by
  obtain ⟨run1, h1⟩ := add_walkDir_eq w tree root run [] {} h
  refine ⟨(collectedFiles root tree).foldl (fun m kv => m.set kv.1 kv.2) [], run1, ?_, ?_, ?_,
    ?_, ?_, isHiddenFile_iff⟩
  · simp only [filepath.WalkDir, rescan_walkDir_eq tree root [] h]
  · simp only [filepath.WalkDir, h1]
    simp
  · exact GoMap.keys_foldl_set_nodup _ [] (by simp [GoMap.keys])
  · intro p
    rw [GoMap.keys_foldl_set]
    constructor
    · rintro (hk | ⟨d, hd⟩)
      · simp [GoMap.keys] at hk
      · exact ⟨d, Collected_of_mem_collectedFiles tree root p d hd⟩
    · rintro ⟨d, hd⟩
      exact Or.inr ⟨d, mem_collectedFiles_of_Collected root tree p d hd⟩
  · intro p d hg
    rcases GoMap.get_foldl_set _ [] p d hg with hk | hk
    · simp [GoMap.get] at hk
    · exact Collected_of_mem_collectedFiles tree root p d hk

/-- Witness of C6 on the example tree: the walk keeps `photo.jpg` and
`music/song.mp3` and leaves out the hidden file, the symbolic link and the
unreadable hidden directory. -/
theorem walk_collects_witness :
    exTree.readable = true ∧
    (filepath.WalkDir (.ok exTree) "/data" rescanPath.walkFn ([] : GoMap DirEntry)).2.keys
      = ["/data/photo.jpg", "/data/music/song.mp3"] ∧
    ∃ (newInfos : GoMap DirEntry) (run1 : Run),
      filepath.WalkDir (.ok exTree) "/data" rescanPath.walkFn ([] : GoMap DirEntry)
        = (none, newInfos) ∧
      filepath.WalkDir (.ok exTree) "/data" (Add.walkFn exWorld)
          (({ progress := {} } : Run), ([] : GoMap DirEntry), ({} : Progress))
        = (none, (run1, newInfos,
            { Done := 0, Total := ((collectedFiles "/data" exTree).length : Int) })) ∧
      newInfos.keys.Nodup ∧
      (∀ p, p ∈ newInfos.keys ↔ ∃ d, Collected "/data" exTree p d) ∧
      (∀ p d, newInfos.get p = some d → Collected "/data" exTree p d) ∧
      (∀ name : String, name ≠ "." →
        ((isHiddenFile name).1 = true ↔ name.data.head? = some '.')) :=
  ⟨by decide, by decide,
    walk_collects_visible_regular_files exWorld "/data" exTree { progress := {} } (by decide)⟩

/-! ## Classification and indexing -/

/-- C7: `MIMEToCategory` is Document on the strings of the document table,
Audio on `application/ogg`, and otherwise decided by the text before the first
slash (the whole string when there is none): `image` gives Picture, `video`
Video, `audio` Audio, `text` and `message` Document; every other string is
Other. -/
theorem MIMEToCategory_spec :
    (∀ m : String, MIMEToCategory m =
      if m ∈ documentMIMEs then Category.Document
      else if m = "application/ogg" then Category.Audio
      else if firstSegment m = "image" then Category.Picture
      else if firstSegment m = "video" then Category.Video
      else if firstSegment m = "audio" then Category.Audio
      else if firstSegment m = "text" ∨ firstSegment m = "message" then Category.Document
      else Category.Other) ∧
    (∀ m : String, '/' ∉ m.data → firstSegment m = m) ∧
    (∀ a b : String, '/' ∉ a.data → firstSegment (a ++ "/" ++ b) = a) := by
  refine ⟨?_, ?_, ?_⟩
  · intro m
    unfold MIMEToCategory
    by_cases h1 : m = "application/ogg"
    · subst h1
      decide
    · by_cases h2 : m ∈ documentMIMEs
      · simp [h1, h2]
      · simp only [h1, h2, if_false]
        by_cases h3 : firstSegment m = "image"
        · simp [h3]
        · by_cases h4 : firstSegment m = "video"
          · simp [h4]
          · by_cases h5 : firstSegment m = "audio"
            · simp [h5]
            · simp [h3, h4, h5, or_comm]
  · intro m hm
    simp [firstSegment, takeWhile_ne_of_not_mem_nil '/' m.data hm]
  · intro a b ha
    have : (a ++ "/" ++ b).data = a.data ++ '/' :: b.data := by
      simp [String.data_append]
    simp [firstSegment, this, takeWhile_ne_of_not_mem '/' a.data b.data ha]

/-- Instances of C7: a PNG image is a Picture, a zip archive is Other, and a
string without slash is its own first segment. -/
theorem MIMEToCategory_witness :
    MIMEToCategory "image/png" = Category.Picture ∧
    MIMEToCategory "application/zip" = Category.Other ∧
    firstSegment "audio" = "audio" :=
  ⟨by rw [MIMEToCategory_spec.1]; decide, by rw [MIMEToCategory_spec.1]; decide,
    MIMEToCategory_spec.2.1 "audio" (by decide)⟩

/-- C8: for a path whose content is sniffed as `application/zip`,
`determineMIME` returns the entry of the extension table for the lower-cased
extension when it is one of the six office extensions, and the type then has
category Document; for every other extension it returns `application/zip`,
of category Other.  In particular `.docx` gives the word-processing type and
`.zip` stays `application/zip`. -/
theorem determineMIME_zip (w : World) (path : String) (data : List Nat)
    (hopen : w.Open path = .ok data)
    (hzip : stripParams (w.DetectContentType data) = "application/zip") :
    (∀ e m, (e, m) ∈
        [ (".odt", "application/vnd.oasis.opendocument.text"),
          (".ods", "application/vnd.oasis.opendocument.spreadsheet"),
          (".odp", "application/vnd.oasis.opendocument.presentation "),
          (".docx", "application/vnd.openxmlformats-officedocument.wordprocessingml.document"),
          (".xlsx", "application/vnd.openxmlformats-officedocument.spreadsheetml.sheet"),
          (".pptx",
            "application/vnd.openxmlformats-officedocument.presentationml.presentation") ] →
      toLower (filepath.Ext path) = e →
      determineMIME w path = .ok m ∧ MIMEToCategory m = Category.Document) ∧
    (toLower (filepath.Ext path) ∉ [".odt", ".ods", ".odp", ".docx", ".xlsx", ".pptx"] →
      determineMIME w path = .ok "application/zip" ∧
      MIMEToCategory "application/zip" = Category.Other) ∧
    (filepath.Ext path = ".docx" →
      determineMIME w path =
        .ok "application/vnd.openxmlformats-officedocument.wordprocessingml.document") ∧
    (filepath.Ext path = ".zip" → determineMIME w path = .ok "application/zip") := by
  rw [determineMIME_of_zip w path data hopen hzip]
  refine ⟨?_, ?_, ?_, ?_⟩
  · intro e m hm he
    simp only [List.mem_cons, Prod.mk.injEq, List.mem_singleton, List.not_mem_nil,
      or_false] at hm
    rcases hm with ⟨rfl, rfl⟩ | ⟨rfl, rfl⟩ | ⟨rfl, rfl⟩ | ⟨rfl, rfl⟩ | ⟨rfl, rfl⟩ | ⟨rfl, rfl⟩ <;>
      exact ⟨by simp only [zipMIME, he]; decide, by decide⟩
  · intro hne
    simp only [List.mem_cons, List.mem_singleton, List.not_mem_nil, or_false, not_or] at hne
    obtain ⟨h1, h2, h3, h4, h5, h6⟩ := hne
    exact ⟨by simp [zipMIME, h1, h2, h3, h4, h5, h6], by decide⟩
  · intro he
    simp only [zipMIME, he]
    decide
  · intro he
    simp only [zipMIME, he]
    decide

/-- Witness of C8: `/r/Report.DOCX` sniffed as zip is a word-processing
document, whatever the case of its extension. -/
theorem determineMIME_zip_witness :
    exZipWorld.Open "/r/Report.DOCX" = .ok [80, 75, 3, 4] ∧
    stripParams (exZipWorld.DetectContentType [80, 75, 3, 4]) = "application/zip" ∧
    determineMIME exZipWorld "/r/Report.DOCX" =
      .ok "application/vnd.openxmlformats-officedocument.wordprocessingml.document" ∧
    MIMEToCategory "application/vnd.openxmlformats-officedocument.wordprocessingml.document"
      = Category.Document :=
  have h := (determineMIME_zip exZipWorld "/r/Report.DOCX" [80, 75, 3, 4] rfl (by decide)).1
    ".docx" "application/vnd.openxmlformats-officedocument.wordprocessingml.document"
    (by decide) (by decide)
  ⟨rfl, by decide, h.1, h.2⟩

/-- C9: once the file information and the MIME type are available,
`indexFile` is exactly one insert, chosen by the MIME category and the
extractor result: Other gives `AddFile`, Picture `AddPicture`, Document
`AddDocument`, Audio `AddAudio`, Video `AddAudio` when the extractor reports
the audio type and `AddVideo` otherwise; for the category Audio the video
table is left as it was, whatever the extractor reports. -/
theorem indexFile_dispatch (w : World) (db : DB) (path : String) (d : DirEntry) (i : FileInfo)
    (m : String) (hi : d.Info = .ok i) (hm : determineMIME w path = .ok m) :
    ∃ f : File, f.Path = path ∧ f.Size = i.Size ∧ f.Modified = i.ModTime ∧ f.MIME = m ∧
      (MIMEToCategory m = Category.Other →
        indexFile w db path d = wrapErr "could not add other file" path (db.AddFile f)) ∧
      (MIMEToCategory m = Category.Picture →
        indexFile w db path d = wrapErr "could not add picture" path
          (db.AddPicture
            { File := f, Camera := (mediainfo.MediaInfo (w.MediaOpen path)).1.Camera })) ∧
      (MIMEToCategory m = Category.Document →
        indexFile w db path d = wrapErr "could not add document" path
          (db.AddDocument { File := f })) ∧
      (MIMEToCategory m = Category.Audio ∨
        (MIMEToCategory m = Category.Video ∧
          (mediainfo.MediaInfo (w.MediaOpen path)).1.Typ = mediainfo.InfoType.TypeAudio) →
        indexFile w db path d = wrapErr "could not add audio" path
          (db.AddAudio
            { File := f, Duration := (mediainfo.MediaInfo (w.MediaOpen path)).1.Duration,
              Author := (mediainfo.MediaInfo (w.MediaOpen path)).1.Author,
              Year := (mediainfo.MediaInfo (w.MediaOpen path)).1.Year })) ∧
      (MIMEToCategory m = Category.Video →
        (mediainfo.MediaInfo (w.MediaOpen path)).1.Typ ≠ mediainfo.InfoType.TypeAudio →
        indexFile w db path d = wrapErr "could not add video" path
          (db.AddVideo
            { File := f, Duration := (mediainfo.MediaInfo (w.MediaOpen path)).1.Duration,
              Camera := (mediainfo.MediaInfo (w.MediaOpen path)).1.Camera,
              Year := (mediainfo.MediaInfo (w.MediaOpen path)).1.Year })) ∧
      (MIMEToCategory m = Category.Audio →
        (indexFile w db path d).2.tx.map (fun t => t.video) = db.tx.map (fun t => t.video) ∧
        (indexFile w db path d).2.d = db.d) := by
  obtain ⟨f, hf, h1, h2, h3, h4⟩ :=
    toFile_ok { path := path, d := d, mime := m } i hi
  have hfa : ∀ mi : mediainfo.Info,
      toFile { path := path, d := d, mime := m, mediainfo := mi } = .ok f := by
    intro mi
    simp only [toFile, hi] at hf ⊢
    exact hf
  have haudio : MIMEToCategory m = Category.Audio ∨
      (MIMEToCategory m = Category.Video ∧
        (mediainfo.MediaInfo (w.MediaOpen path)).1.Typ = mediainfo.InfoType.TypeAudio) →
      indexFile w db path d = wrapErr "could not add audio" path
        (db.AddAudio
          { File := f, Duration := (mediainfo.MediaInfo (w.MediaOpen path)).1.Duration,
            Author := (mediainfo.MediaInfo (w.MediaOpen path)).1.Author,
            Year := (mediainfo.MediaInfo (w.MediaOpen path)).1.Year }) := by
    rintro (hc | ⟨hc, ht⟩)
    · simp [indexFile, hi, hm, hc, addAudio, hfa]
    · simp [indexFile, hi, hm, hc, ht, addAudio, hfa]
  refine ⟨f, h1, h2, h3, h4, ?_, ?_, ?_, haudio, ?_, ?_⟩
  · intro hc
    simp [indexFile, hi, hm, hc, addFile, hfa]
  · intro hc
    simp [indexFile, hi, hm, hc, addPicture, hfa]
  · intro hc
    simp [indexFile, hi, hm, hc, addDocument, hfa]
  · intro hc ht
    simp [indexFile, hi, hm, hc, ht, addVideo, hfa]
  · intro hc
    rw [haudio (Or.inl hc), wrapErr_db]
    exact DB.AddAudio_video db _

/-- Witness of C9: a file sniffed as `video/mp4` in which the extractor finds
only audio is inserted by `AddAudio`. -/
theorem indexFile_dispatch_witness :
    (exFile "f" 1 100 0).Info =
      .ok { Size := 1, ModTime := time.Unix 100 0, BirthTime := none, ChangeTime := none } ∧
    determineMIME exMediaWorld "/d/A/f" = .ok "video/mp4" ∧
    ∃ f : File, f.Path = "/d/A/f" ∧
      indexFile exMediaWorld exOpenDB "/d/A/f" (exFile "f" 1 100 0) =
        wrapErr "could not add audio" "/d/A/f"
          (exOpenDB.AddAudio
            { File := f, Duration := some 3000000000, Author := "Band X", Year := some 2001 }) :=
  ⟨rfl, by decide,
    (indexFile_dispatch exMediaWorld exOpenDB "/d/A/f" (exFile "f" 1 100 0) _ "video/mp4" rfl
      (by decide)).imp
      fun _ h => ⟨h.1, h.2.2.2.2.2.2.2.1 (Or.inr ⟨by decide, by decide⟩)⟩⟩

/-- C10: when the metadata extractor fails on a file of MIME category Picture,
Video or Audio, `indexFile` performs the insert of that category with empty
metadata; with a transaction open, no storage failure, the path not yet
catalogued and the extension tables referring to catalogued files only, it
returns no error, and the catalogue gains the file row and one extension row
of the category whose camera, author, seconds and year are all NULL. -/
theorem indexFile_extractor_failure (w : World) (db : DB) (path : String) (d : DirEntry)
    (i : FileInfo) (m e : String) (hi : d.Info = .ok i) (hm : determineMIME w path = .ok m)
    (hfail : w.MediaOpen path = .error e) :
    ∃ f : File, f.Path = path ∧ f.Size = i.Size ∧ f.Modified = i.ModTime ∧ f.MIME = m ∧
      (MIMEToCategory m = Category.Picture →
        indexFile w db path d = wrapErr "could not add picture" path
          (db.AddPicture { File := f, Camera := "" }) ∧
        ∀ t, db.tx = some t → db.faults = [] → (∀ r ∈ t.file, r.path ≠ path) →
          (∀ r ∈ t.picture, ∃ fr ∈ t.file, fr.id = r.file) →
          indexFile w db path d =
            (none, { db with tx := some { t with
              file := t.file ++
                [{ id := nextId t.file, path := path, size := i.Size,
                   created_guess := f.CreatedGuess.Unix, modified := i.ModTime.Unix,
                   mime := m }],
              picture := t.picture ++ [{ file := nextId t.file, camera := none }] } })) ∧
      (MIMEToCategory m = Category.Video →
        indexFile w db path d = wrapErr "could not add video" path
          (db.AddVideo { File := f, Duration := none, Camera := "", Year := none }) ∧
        ∀ t, db.tx = some t → db.faults = [] → (∀ r ∈ t.file, r.path ≠ path) →
          (∀ r ∈ t.video, ∃ fr ∈ t.file, fr.id = r.file) →
          indexFile w db path d =
            (none, { db with tx := some { t with
              file := t.file ++
                [{ id := nextId t.file, path := path, size := i.Size,
                   created_guess := f.CreatedGuess.Unix, modified := i.ModTime.Unix,
                   mime := m }],
              video := t.video ++
                [{ file := nextId t.file, seconds := none, camera := none,
                   year := none }] } })) ∧
      (MIMEToCategory m = Category.Audio →
        indexFile w db path d = wrapErr "could not add audio" path
          (db.AddAudio { File := f, Duration := none, Author := "", Year := none }) ∧
        ∀ t, db.tx = some t → db.faults = [] → (∀ r ∈ t.file, r.path ≠ path) →
          (∀ r ∈ t.audio, ∃ fr ∈ t.file, fr.id = r.file) →
          indexFile w db path d =
            (none, { db with tx := some { t with
              file := t.file ++
                [{ id := nextId t.file, path := path, size := i.Size,
                   created_guess := f.CreatedGuess.Unix, modified := i.ModTime.Unix,
                   mime := m }],
              audio := t.audio ++
                [{ file := nextId t.file, seconds := none, author := none,
                   year := none }] } })) := by
  obtain ⟨f, hf, h1, h2, h3, h4⟩ :=
    toFile_ok { path := path, d := d, mime := m } i hi
  have hfa : ∀ mi : mediainfo.Info,
      toFile { path := path, d := d, mime := m, mediainfo := mi } = .ok f := by
    intro mi
    simp only [toFile, hi] at hf ⊢
    exact hf
  have hmi : (mediainfo.MediaInfo (w.MediaOpen path)).1 = {} := by
    rw [hfail]; rfl
  have hnew : ∀ t : Tables, (∀ r ∈ t.file, r.path ≠ path) → ∀ r ∈ t.file, r.path ≠ f.Path := by
    intro t h r hr
    rw [h1]
    exact h r hr
  simp only at h1 h2 h3 h4
  refine ⟨f, h1, h2, h3, h4, ?_, ?_, ?_⟩
  · intro hc
    have heq : indexFile w db path d = wrapErr "could not add picture" path
        (db.AddPicture { File := f, Camera := "" }) := by
      simp [indexFile, hi, hm, hc, addPicture, hfa, hmi]
    refine ⟨heq, ?_⟩
    intro t htx hfl hpath hfk
    have hpk : (t.picture.any fun r => decide (r.file = nextId t.file)) = false := by
      rw [List.any_eq_false]
      intro r hr
      obtain ⟨fr, hfr, hid⟩ := hfk r hr
      have := nextId_fresh t.file fr hfr
      simpa [← hid] using this
    rw [heq]
    simp only [DB.AddPicture, DB.addFile_fresh db t f htx hfl (hnew t hpath)]
    simp [DB.Exec, DB.fails, hfl, insertPicture, hpk, wrapErr, nullIfEmpty, h1, h2, h3, h4]
  · intro hc
    have heq : indexFile w db path d = wrapErr "could not add video" path
        (db.AddVideo { File := f, Duration := none, Camera := "", Year := none }) := by
      simp [indexFile, hi, hm, hc, addVideo, hfa, hmi]
    refine ⟨heq, ?_⟩
    intro t htx hfl hpath hfk
    have hpk : (t.video.any fun r => decide (r.file = nextId t.file)) = false := by
      rw [List.any_eq_false]
      intro r hr
      obtain ⟨fr, hfr, hid⟩ := hfk r hr
      have := nextId_fresh t.file fr hfr
      simpa [← hid] using this
    rw [heq]
    simp only [DB.AddVideo, DB.addFile_fresh db t f htx hfl (hnew t hpath)]
    simp [DB.Exec, DB.fails, hfl, insertVideo, hpk, wrapErr, nullIfEmpty, wholeSeconds,
      h1, h2, h3, h4]
  · intro hc
    have heq : indexFile w db path d = wrapErr "could not add audio" path
        (db.AddAudio { File := f, Duration := none, Author := "", Year := none }) := by
      simp [indexFile, hi, hm, hc, addAudio, hfa, hmi]
    refine ⟨heq, ?_⟩
    intro t htx hfl hpath hfk
    have hpk : (t.audio.any fun r => decide (r.file = nextId t.file)) = false := by
      rw [List.any_eq_false]
      intro r hr
      obtain ⟨fr, hfr, hid⟩ := hfk r hr
      have := nextId_fresh t.file fr hfr
      simpa [← hid] using this
    rw [heq]
    simp only [DB.AddAudio, DB.addFile_fresh db t f htx hfl (hnew t hpath)]
    simp [DB.Exec, DB.fails, hfl, insertAudio, hpk, wrapErr, nullIfEmpty, wholeSeconds,
      h1, h2, h3, h4]

/-- Witness of C10: a PNG picture whose metadata cannot be read is inserted
into the empty catalogue with a picture row whose camera is NULL. -/
theorem indexFile_extractor_failure_witness :
    determineMIME exBrokenMediaWorld "/d/A/f" = .ok "image/png" ∧
    exBrokenMediaWorld.MediaOpen "/d/A/f" = .error "cannot open" ∧
    MIMEToCategory "image/png" = Category.Picture ∧
    exOpenDB.tx = some {} ∧ exOpenDB.faults = [] ∧
    ∃ f : File, f.Path = "/d/A/f" ∧
      indexFile exBrokenMediaWorld exOpenDB "/d/A/f" (exFile "f" 1 100 0) =
        (none, { exOpenDB with tx := some { ({} : Tables) with
          file := ({} : Tables).file ++
            [{ id := nextId ({} : Tables).file, path := "/d/A/f", size := 1,
               created_guess := f.CreatedGuess.Unix, modified := (time.Unix 100 0).Unix,
               mime := "image/png" }],
          picture := ({} : Tables).picture ++
            [{ file := nextId ({} : Tables).file, camera := none }] } }) :=
  ⟨by decide, rfl, by decide, rfl, rfl,
    (indexFile_extractor_failure exBrokenMediaWorld exOpenDB "/d/A/f" (exFile "f" 1 100 0)
      { Size := 1, ModTime := time.Unix 100 0, BirthTime := none, ChangeTime := none }
      "image/png" "cannot open" rfl (by decide) rfl).imp
      fun _ h => ⟨h.1, (h.2.2.2.2.1 (by decide)).2 {} rfl rfl (by simp) (by simp)⟩⟩

/-! ## Tracked paths and stored paths -/

theorem trackConflict_none (path : String) :
    ∀ l : List String, trackConflict path l = none →
      ∀ old ∈ l, old ≠ path ∧ hasPrefix path old = false ∧ hasPrefix old path = false := by
  intro l
  induction l with
  | nil => intro _ old h; simp at h
  | cons a l ih =>
    intro h old hold
    simp only [trackConflict] at h
    by_cases h1 : a = path
    · simp [h1] at h
    · rw [if_neg h1] at h
      by_cases h2 : hasPrefix path a = true
      · simp [h2] at h
      · rw [if_neg h2] at h
        by_cases h3 : hasPrefix a path = true
        · simp [h3] at h
        · rw [if_neg h3] at h
          rcases List.mem_cons.1 hold with rfl | hold
          · exact ⟨h1, by simpa using h2, by simpa using h3⟩
          · exact ih h old hold

theorem DB.fails_spec (db : DB) : ∃ b fs, db.fails = (b, { db with faults := fs }) := by
  unfold DB.fails
  cases h : db.faults with
  | nil => exact ⟨false, [], by simp [← h]⟩
  | cons b r => exact ⟨b, r, rfl⟩

theorem DB.TrackPath_tracked (db : DB) (stat : String → Option String) (path : String) :
    (db.TrackPath stat path).2.d.tracked_path = db.d.tracked_path ∨
    ((db.TrackPath stat path).1 = none ∧
      trackConflict (trimSeparator path) db.d.tracked_path = none ∧
      stat (trimSeparator path) = none ∧
      (db.TrackPath stat path).2.d.tracked_path = db.d.tracked_path ++ [trimSeparator path]) := by
  unfold DB.TrackPath
  simp only
  cases hs : stat (trimSeparator path) with
  | some e => exact Or.inl rfl
  | none =>
    obtain ⟨b1, f1, h1⟩ := DB.fails_spec db
    simp only [h1]
    cases b1 with
    | true => exact Or.inl rfl
    | false =>
      obtain ⟨b2, f2, h2⟩ := DB.fails_spec { db with faults := f1 }
      simp only [h2]
      cases b2 with
      | true => exact Or.inl rfl
      | false =>
        simp only
        cases hc : trackConflict (trimSeparator path) db.d.tracked_path with
        | some e => exact Or.inl rfl
        | none =>
          obtain ⟨b3, f3, h3⟩ := DB.fails_spec { db with faults := f2 }
          simp only [h3]
          cases b3 with
          | true => exact Or.inl rfl
          | false =>
            obtain ⟨b4, f4, h4⟩ := DB.fails_spec { db with faults := f3 }
            simp only [h4]
            cases b4 with
            | true => exact Or.inl rfl
            | false => exact Or.inr (by simp)

theorem DB.UntrackPath_tracked (db : DB) (path : String) :
    (db.UntrackPath path).2.d.tracked_path = db.d.tracked_path ∨
    ((db.UntrackPath path).1 = none ∧
      (db.UntrackPath path).2.d.tracked_path = db.d.tracked_path.filter (fun p => p ≠ path)) := by
  unfold DB.UntrackPath
  obtain ⟨b1, f1, h1⟩ := DB.fails_spec db
  simp only [h1]
  cases b1 with
  | true => exact Or.inl rfl
  | false =>
    obtain ⟨b2, f2, h2⟩ := DB.fails_spec { db with faults := f1 }
    simp only [h2]
    cases b2 with
    | true => exact Or.inl rfl
    | false =>
      simp only
      by_cases hn : db.d.tracked_path.count path ≠ 1
      · rw [if_pos hn]; exact Or.inl rfl
      · rw [if_neg hn]
        obtain ⟨b3, f3, h3⟩ := DB.fails_spec { db with faults := f2 }
        simp only [h3]
        cases b3 with
        | true => exact Or.inl rfl
        | false =>
          obtain ⟨b4, f4, h4⟩ := DB.fails_spec { db with faults := f3 }
          simp only [h4]
          cases b4 with
          | true => exact Or.inl rfl
          | false =>
            obtain ⟨b5, f5, h5⟩ := DB.fails_spec { db with faults := f4 }
            simp only [h5]
            cases b5 with
            | true => exact Or.inl rfl
            | false => exact Or.inr ⟨rfl, rfl⟩

theorem tracked_invariant_step (db : DB) (c : ConfigCall)
    (h : db.d.tracked_path.Pairwise
      (fun a b => a ≠ b ∧ hasPrefix a b = false ∧ hasPrefix b a = false)) :
    (c.run db).d.tracked_path.Pairwise
      (fun a b => a ≠ b ∧ hasPrefix a b = false ∧ hasPrefix b a = false) := by
  cases c with
  | TrackPath stat path =>
    simp only [ConfigCall.run]
    rcases DB.TrackPath_tracked db stat path with h1 | ⟨-, hc, -, h1⟩
    · rw [h1]; exact h
    · rw [h1, List.pairwise_append]
      refine ⟨h, List.pairwise_singleton _ _, ?_⟩
      intro a ha b hb
      rw [List.mem_singleton] at hb
      subst hb
      obtain ⟨h2, h3, h4⟩ := trackConflict_none _ _ hc a ha
      exact ⟨h2, h4, h3⟩
  | UntrackPath path =>
    simp only [ConfigCall.run]
    rcases DB.UntrackPath_tracked db path with h1 | ⟨-, h1⟩
    · rw [h1]; exact h
    · rw [h1]; exact h.sublist (List.filter_sublist _)

theorem tracked_invariant (calls : List ConfigCall) :
    ∀ db : DB, db.d.tracked_path.Pairwise
        (fun a b => a ≠ b ∧ hasPrefix a b = false ∧ hasPrefix b a = false) →
      (runCalls db calls).d.tracked_path.Pairwise
        (fun a b => a ≠ b ∧ hasPrefix a b = false ∧ hasPrefix b a = false) := by
  induction calls with
  | nil => intro db h; exact h
  | cons c calls ih =>
    intro db h
    exact ih _ (tracked_invariant_step db c h)

theorem hasPrefix_of_longer (a b suffix : String) (h : hasPrefix b (a ++ suffix) = true) :
    hasPrefix b a = true := by
  simp only [hasPrefix, String.data_append, List.isPrefixOf_iff_prefix] at h ⊢
  exact (List.prefix_append _ _).trans h

/-- C16: starting from an empty set of tracked paths, after every sequence of
`TrackPath` and `UntrackPath` calls (whatever each returns, whatever storage
failures occur) the tracked paths are pairwise distinct, none is a string
prefix of another, and so none is a path-prefix of another: no tracked path
begins with another tracked path followed by the separator. -/
theorem tracked_roots_never_overlap (db : DB) (calls : List ConfigCall)
    (h : db.d.tracked_path = []) :
    (runCalls db calls).d.tracked_path.Nodup ∧
    (runCalls db calls).d.tracked_path.Pairwise
      (fun a b => hasPrefix a b = false ∧ hasPrefix b a = false) ∧
    (∀ a ∈ (runCalls db calls).d.tracked_path, ∀ b ∈ (runCalls db calls).d.tracked_path,
      a ≠ b → hasPrefix b (a ++ "/") = false) := by
  have hinv := tracked_invariant calls db (by rw [h]; exact List.Pairwise.nil)
  refine ⟨?_, ?_, ?_⟩
  · exact hinv.imp (fun h => h.1)
  · exact hinv.imp (fun h => h.2)
  · intro a ha b hb hab
    have hsym : Symmetric
        (fun x y : String => x ≠ y ∧ hasPrefix x y = false ∧ hasPrefix y x = false) :=
      fun x y h => ⟨fun e => h.1 e.symm, h.2.2, h.2.1⟩
    have hab2 := List.Pairwise.forall hsym hinv ha hb hab
    cases hp : hasPrefix b (a ++ "/") with
    | false => rfl
    | true =>
      have := hasPrefix_of_longer a b "/" hp
      rw [hab2.2.2] at this
      exact absurd this (by decide)

/-- Witness of C16 on the example calls: `/d/b` and `/d/a/x` end up tracked. -/
theorem tracked_roots_never_overlap_witness :
    ({} : DB).d.tracked_path = [] ∧
    (runCalls {} exCalls).d.tracked_path = ["/d/b", "/d/a/x"] ∧
    (runCalls {} exCalls).d.tracked_path.Nodup ∧
    (runCalls {} exCalls).d.tracked_path.Pairwise
      (fun a b => hasPrefix a b = false ∧ hasPrefix b a = false) ∧
    (∀ a ∈ (runCalls {} exCalls).d.tracked_path, ∀ b ∈ (runCalls {} exCalls).d.tracked_path,
      a ≠ b → hasPrefix b (a ++ "/") = false) :=
  ⟨rfl, by decide, tracked_roots_never_overlap {} exCalls rfl⟩

/-- C15 (the code at the failing input): with `/d/a` tracked, `TrackPath` of
the existing sibling directory `/d/ab` returns the error of a contained path
and adds nothing, although `/d/ab` neither equals `/d/a` nor lies below it:
the loop compares with `strings.HasPrefix`, not by path elements. -/
theorem TrackPath_rejects_sibling_extending_name :
    (DB.TrackPath {} (fun _ => none) "/d/a").2.d.tracked_path = ["/d/a"] ∧
    DB.TrackPath (DB.TrackPath {} (fun _ => none) "/d/a").2 (fun _ => none) "/d/ab" =
      (some "path is already contained in tracked path \x27/d/a\x27",
        (DB.TrackPath {} (fun _ => none) "/d/a").2) ∧
    "/d/ab" ≠ "/d/a" ∧
    hasPrefix "/d/ab" "/d/a/" = false ∧
    hasPrefix "/d/a" "/d/ab/" = false := by
  decide

/-- C17 (the code at the failing input): with the roots `/d/p[1]` and `/d/q`
tracked and one file catalogued under each, a successful `UntrackPath` of
`/d/q` leaves `/d/p[1]` tracked and yet deletes the entry `/d/p[1]/f` under
it: in the `GLOB` pattern built from the remaining root, `[1]` is a character
set, so the entry does not match the pattern of its own root. -/
theorem UntrackPath_deletes_entry_of_remaining_root :
    exBracket.d.tracked_path = ["/d/p[1]", "/d/q"] ∧
    exBracket.d.file.map (fun r => r.path) = ["/d/p[1]/f", "/d/q/f"] ∧
    (exBracket.UntrackPath "/d/q").1 = none ∧
    (exBracket.UntrackPath "/d/q").2.d.tracked_path = ["/d/p[1]"] ∧
    (exBracket.UntrackPath "/d/q").2.d.file = [] ∧
    "/d/p[1]/f" = filepath.Join "/d/p[1]" "f" ∧
    sqlGlob (filepath.Join "/d/p[1]" "*").data "/d/p[1]/f".data = false := by
  decide

/-- C18 (the code at the failing input): with the roots `/d/A` and `/d/a`
tracked and one file catalogued under each, `AllFileInfosAt` of `/d/A`
returns both entries, the one of the other root included: the `LIKE`
pattern built from the root matches without regard to ASCII case. -/
theorem AllFileInfosAt_returns_entry_of_other_root :
    exTracked.d.tracked_path = ["/d/A", "/d/a"] ∧
    exTracked.d.file.map (fun r => r.path) = ["/d/A/f", "/d/a/f"] ∧
    (exTracked.BeginTx.2.AllFileInfosAt "/d/A").1.toOption.map GoMap.keys =
      some ["/d/A/f", "/d/a/f"] ∧
    hasPrefix "/d/a/f" "/d/A/" = false := by
  decide

/-! ## Chunks -/

theorem chunksFuel_cons {α : Type} (fuel : Nat) (a : α) (l : List α) :
    chunksFuel (fuel + 1) (a :: l) =
      (a :: l).take 1000 :: chunksFuel fuel ((a :: l).drop 1000) := rfl

theorem chunksFuel_nil {α : Type} (fuel : Nat) : chunksFuel fuel ([] : List α) = [] := by
  cases fuel <;> rfl

theorem chunksFuel_flatten {α : Type} :
    ∀ (fuel : Nat) (l : List α), l.length ≤ fuel → (chunksFuel fuel l).flatten = l := by
  intro fuel
  induction fuel with
  | zero =>
    intro l h
    have : l = [] := List.length_eq_zero.1 (Nat.le_zero.1 h)
    subst this
    rfl
  | succ fuel ih =>
    intro l h
    cases l with
    | nil => rfl
    | cons a l =>
      rw [chunksFuel_cons, List.flatten_cons,
        ih _ (by simp only [List.length_drop, List.length_cons] at h ⊢; omega)]
      exact List.take_append_drop _ _

theorem chunksFuel_length {α : Type} :
    ∀ (fuel : Nat) (l : List α), l.length ≤ fuel →
      (chunksFuel fuel l).length = (l.length + 999) / 1000 := by
  intro fuel
  induction fuel with
  | zero =>
    intro l h
    have : l = [] := List.length_eq_zero.1 (Nat.le_zero.1 h)
    subst this
    simp [chunksFuel]
  | succ fuel ih =>
    intro l h
    cases l with
    | nil => simp [chunksFuel]
    | cons a l =>
      rw [chunksFuel_cons, List.length_cons,
        ih _ (by simp only [List.length_drop, List.length_cons] at h ⊢; omega)]
      simp only [List.length_drop, List.length_cons]
      omega

theorem chunksFuel_sizes {α : Type} :
    ∀ (fuel : Nat) (l : List α), ∀ c ∈ chunksFuel fuel l, 1 ≤ c.length ∧ c.length ≤ 1000 := by
  intro fuel
  induction fuel with
  | zero => intro l c h; simp [chunksFuel] at h
  | succ fuel ih =>
    intro l c h
    cases l with
    | nil => simp [chunksFuel] at h
    | cons a l =>
      rw [chunksFuel_cons, List.mem_cons] at h
      rcases h with rfl | h
      · simp only [List.length_take, List.length_cons]
        omega
      · exact ih _ c h

theorem chunksFuel_full {α : Type} :
    ∀ (fuel : Nat) (l : List α), ∀ c ∈ (chunksFuel fuel l).dropLast, c.length = 1000 := by
  intro fuel
  induction fuel with
  | zero => intro l c h; simp [chunksFuel] at h
  | succ fuel ih =>
    intro l c h
    cases l with
    | nil => simp [chunksFuel] at h
    | cons a l =>
      rw [chunksFuel_cons] at h
      cases hrest : chunksFuel fuel (List.drop 1000 (a :: l)) with
      | nil => rw [hrest] at h; simp at h
      | cons c2 rest =>
        rw [hrest, List.dropLast_cons₂, List.mem_cons] at h
        rcases h with rfl | h
        · have hne : List.drop 1000 (a :: l) ≠ [] := by
            intro e
            rw [e, chunksFuel_nil] at hrest
            cases hrest
          have hlen : 1000 < (a :: l).length := by
            by_contra hle
            exact hne (List.drop_eq_nil_of_le (by omega))
          simp only [List.length_take]
          omega
        · rw [← hrest] at h
          exact ih _ c h
/-! ## DeletePaths -/

theorem count_foldl_append (c : Char) (s : String) :
    ∀ (k : Nat) (acc : String),
      ((List.replicate k s).foldl (fun r x => r ++ x) acc).data.count c =
        acc.data.count c + k * s.data.count c := by
  intro k
  induction k with
  | zero => intro acc; simp
  | succ k ih =>
    intro acc
    rw [List.replicate_succ, List.foldl_cons, ih, String.data_append, List.count_append]
    rw [Nat.succ_mul]
    omega

theorem placeholders_deletePathsQuery (n : Nat) (h : 1 ≤ n) :
    placeholders (deletePathsQuery n) = n := by
  unfold placeholders deletePathsQuery String.join
  rw [String.data_append, String.data_append, List.count_append, List.count_append,
    count_foldl_append]
  have h1 : "DELETE FROM file WHERE path IN (?".data.count '?' = 1 := by decide
  have h2 : ", ?".data.count '?' = 1 := by decide
  have h3 : ")".data.count '?' = 0 := by decide
  have h4 : "".data.count '?' = 0 := by decide
  rw [h1, h2, h3, h4]
  omega

theorem DB.Exec_ok (db db1 : DB) (stmt : Tables → Option Tables) (msg : String)
    (h : db.Exec stmt msg = (none, db1)) :
    ∃ t t1, db.tx = some t ∧ stmt t = some t1 ∧
      db1 = { db with tx := some t1, faults := db.faults.drop 1 } := by
  unfold DB.Exec at h
  cases ht : db.tx with
  | none => simp [ht] at h
  | some t =>
    simp only [ht] at h
    cases hs : stmt t with
    | none =>
      unfold DB.fails at h
      cases hf : db.faults with
      | nil => simp [hf, hs] at h
      | cons b r => cases b <;> simp [hf, hs] at h
    | some t1 =>
      refine ⟨t, t1, rfl, hs, ?_⟩
      unfold DB.fails at h
      cases hf : db.faults with
      | nil =>
        simp only [hf, hs, Prod.mk.injEq, true_and] at h
        rw [← h]
        simp [hf]
      | cons b r =>
        cases b
        · simp only [hf, hs, Prod.mk.injEq, true_and] at h
          rw [← h]
          simp
        · simp [hf, hs] at h

theorem deleteFiles_nil (t : Tables) : deleteFiles [] t = some t := by
  simp [deleteFiles]

theorem deleteFiles_append (a b : List String) (t t1 : Tables) (h : deleteFiles a t = some t1) :
    deleteFiles b t1 = deleteFiles (a ++ b) t := by
  unfold deleteFiles at h
  simp only [Option.some.injEq] at h
  subst h
  have hgone : ∀ x : Int,
      (x ∈ (t.file.filter (fun r => r.path ∈ a ++ b)).map (fun r => r.id)) ↔
        (x ∈ (t.file.filter (fun r => r.path ∈ a)).map (fun r => r.id) ∨
          x ∈ ((t.file.filter (fun r => r.path ∉ a)).filter (fun r => r.path ∈ b)).map
            (fun r => r.id)) := by
    intro x
    simp only [List.mem_map, List.mem_filter, List.mem_append, decide_eq_true_eq,
      decide_not, Bool.not_eq_true', decide_eq_false_iff_not]
    constructor
    · rintro ⟨r, ⟨hr, hab⟩, rfl⟩
      by_cases ha : r.path ∈ a
      · exact Or.inl ⟨r, ⟨hr, ha⟩, rfl⟩
      · exact Or.inr ⟨r, ⟨⟨hr, ha⟩, hab.resolve_left ha⟩, rfl⟩
    · rintro (⟨r, ⟨hr, ha⟩, rfl⟩ | ⟨r, ⟨⟨hr, _⟩, hb⟩, rfl⟩)
      · exact ⟨r, ⟨hr, Or.inl ha⟩, rfl⟩
      · exact ⟨r, ⟨hr, Or.inr hb⟩, rfl⟩
  have hext : ∀ x : Int,
      (decide (x ∉ ((t.file.filter (fun r => r.path ∉ a)).filter (fun r => r.path ∈ b)).map
            (fun r => r.id)) &&
        decide (x ∉ (t.file.filter (fun r => r.path ∈ a)).map (fun r => r.id))) =
      decide (x ∉ (t.file.filter (fun r => r.path ∈ a ++ b)).map (fun r => r.id)) := by
    intro x
    rw [Bool.eq_iff_iff, Bool.and_eq_true, decide_eq_true_eq, decide_eq_true_eq,
      decide_eq_true_eq, hgone x]
    tauto
  unfold deleteFiles
  simp only [Option.some.injEq, Tables.mk.injEq, true_and]
  refine ⟨?_, ?_, ?_, ?_, ?_⟩
  · rw [List.filter_filter]
    apply List.filter_congr
    intro r _
    rw [Bool.eq_iff_iff, Bool.and_eq_true, decide_eq_true_eq, decide_eq_true_eq,
      decide_eq_true_eq, List.mem_append]
    tauto
  all_goals
    rw [List.filter_filter]
    apply List.filter_congr
    intro r _
    exact hext r.file

theorem deleteChunks_eq :
    ∀ (fuel : Nat) (paths : List String) (db : DB),
      DB.deleteChunks fuel paths db = deleteEach (chunksFuel fuel paths) db := by
  intro fuel
  induction fuel with
  | zero => intro paths db; rfl
  | succ fuel ih =>
    intro paths db
    cases paths with
    | nil => rfl
    | cons a l =>
      rw [chunksFuel_cons]
      simp only [DB.deleteChunks, deleteEach, ih]
      simp

theorem deleteEach_ok :
    ∀ (cs : List (List String)) (db db1 : DB), deleteEach cs db = (none, db1) →
      ∀ t, db.tx = some t →
        ∃ t1, deleteFiles cs.flatten t = some t1 ∧
          db1 = { db with tx := some t1, faults := db.faults.drop cs.length } := by
  intro cs
  induction cs with
  | nil =>
    intro db db1 h t ht
    simp only [deleteEach, Prod.mk.injEq, true_and] at h
    subst h
    refine ⟨t, deleteFiles_nil t, ?_⟩
    cases db
    simp only [List.length_nil, List.drop_zero] at *
    rw [ht]
  | cons c cs ih =>
    intro db db1 h t ht
    unfold deleteEach at h
    cases he : db.Exec (deleteFiles c) "could not delete: storage failure" with
    | mk e db2 =>
      cases e with
      | some e => simp [he] at h
      | none =>
        simp only [he] at h
        obtain ⟨t0, t2, ht0, hs, hdb2⟩ := DB.Exec_ok _ _ _ _ he
        rw [ht] at ht0
        cases ht0
        obtain ⟨t1, hd, hdb1⟩ := ih db2 db1 h t2 (by rw [hdb2])
        refine ⟨t1, ?_, ?_⟩
        · rw [List.flatten_cons, ← deleteFiles_append c _ t t2 hs]
          exact hd
        · rw [hdb1, hdb2]
          simp [List.drop_drop, Nat.add_comm]
/-- Claim C19.  `DeletePaths` is one delete statement per chunk of `chunks paths`,
in order, up to the first failure.  The chunks are consecutive (their
concatenation is `paths`), there are `ceil(len/1000)` of them, each holds
between 1 and 1000 paths and its statement text has as many placeholders as
it has arguments; for the empty list nothing is issued.  When the call
succeeds the storage engine was called once per chunk and the tables inside
the transaction are those of `deleteFiles paths`: the file rows are exactly
the former rows whose path is not listed. -/
theorem DeletePaths_chunks (db : DB) (paths : List String) :
    db.DeletePaths paths = deleteEach (chunks paths) db ∧
    (chunks paths).flatten = paths ∧
    (chunks paths).length = (paths.length + 999) / 1000 ∧
    (∀ c ∈ chunks paths, 1 ≤ c.length ∧ c.length ≤ 1000 ∧
      placeholders (deletePathsQuery c.length) = c.length) ∧
    (paths = [] → chunks paths = [] ∧ db.DeletePaths paths = (none, db)) ∧
    (∀ db1 t, db.DeletePaths paths = (none, db1) → db.tx = some t →
      ∃ t1, deleteFiles paths t = some t1 ∧
        db1 = { db with tx := some t1,
                        faults := db.faults.drop ((paths.length + 999) / 1000) } ∧
        t1.file = t.file.filter (fun r => r.path ∉ paths) ∧
        (∀ r ∈ t1.file, r.path ∉ paths) ∧
        (∀ r ∈ t.file, r.path ∉ paths → r ∈ t1.file)) := by
  have heq : db.DeletePaths paths = deleteEach (chunks paths) db :=
    deleteChunks_eq paths.length paths db
  have hflat : (chunks paths).flatten = paths := chunksFuel_flatten _ _ (Nat.le_refl _)
  have hlen : (chunks paths).length = (paths.length + 999) / 1000 :=
    chunksFuel_length _ _ (Nat.le_refl _)
  refine ⟨heq, hflat, hlen, ?_, ?_, ?_⟩
  · intro c hc
    have hs := chunksFuel_sizes _ _ c hc
    exact ⟨hs.1, hs.2, placeholders_deletePathsQuery _ hs.1⟩
  · intro h
    subst h
    exact ⟨rfl, rfl⟩
  · intro db1 t h ht
    rw [heq] at h
    obtain ⟨t1, hd, hdb⟩ := deleteEach_ok _ _ _ h t ht
    rw [hflat] at hd
    rw [hlen] at hdb
    have hfile : t1.file = t.file.filter (fun r => r.path ∉ paths) := by
      unfold deleteFiles at hd
      simp only [Option.some.injEq] at hd
      rw [← hd]
    refine ⟨t1, hd, hdb, hfile, ?_, ?_⟩
    · intro r hr
      rw [hfile, List.mem_filter] at hr
      exact of_decide_eq_true hr.2
    · intro r hr hn
      rw [hfile, List.mem_filter]
      exact ⟨hr, decide_eq_true hn⟩

/-- Deleting `/r/b.png` and a path that is not stored from `exCatalogue`
is one statement; it leaves `/r/a` and `/r/c` and removes the picture row. -/
theorem DeletePaths_chunks_witness :
    chunks ["/r/b.png", "/r/x"] = [["/r/b.png", "/r/x"]] ∧
    placeholders (deletePathsQuery 2) = 2 ∧
    (exCatalogue.DeletePaths ["/r/b.png", "/r/x"]).1 = none ∧
    ((exCatalogue.DeletePaths ["/r/b.png", "/r/x"]).2.tx.map
      (fun t => (t.file.map (fun r => r.path), t.picture, t.document))) =
      some (["/r/a", "/r/c"], [], [{ file := 1 }, { file := 3 }]) ∧
    (∀ c ∈ chunks ["/r/b.png", "/r/x"], 1 ≤ c.length ∧ c.length ≤ 1000 ∧
      placeholders (deletePathsQuery c.length) = c.length) :=
  ⟨by decide, by decide, by decide, by decide,
    (DeletePaths_chunks exCatalogue ["/r/b.png", "/r/x"]).2.2.2.1⟩

/-! ## The Add methods -/

theorem DB.fails_eq (db : DB) : db.fails.2 = { db with faults := db.fails.2.faults } := by
  unfold DB.fails
  cases h : db.faults with
  | nil => simp [← h]
  | cons b r => rfl

theorem DB.addFile_cases (db : DB) (t : Tables) (file : File) (ht : db.tx = some t) :
    (db.fails.1 = true ∧
      db.addFile file =
        ((0, some (DBError.other "could not create file entry: storage failure")),
          db.fails.2)) ∨
    (db.fails.1 = false ∧ t.file.any (fun r => r.path = file.Path) = true ∧
      db.addFile file = ((0, some DBError.errAlreadyExists), db.fails.2)) ∨
    (db.fails.1 = false ∧ t.file.any (fun r => r.path = file.Path) = false ∧
      db.addFile file =
        ((nextId t.file, none),
          { db.fails.2 with tx := some { t with file := t.file ++
            [{ id := nextId t.file, path := file.Path, size := file.Size,
               created_guess := file.CreatedGuess.Unix, modified := file.Modified.Unix,
               mime := file.MIME }] } })) := by
  unfold DB.addFile
  simp only [ht]
  cases hf : db.fails with
  | mk b db1 =>
    cases b with
    | true => exact Or.inl ⟨rfl, rfl⟩
    | false =>
      cases ha : t.file.any (fun r => decide (r.path = file.Path)) with
      | true => exact Or.inr (Or.inl ⟨rfl, rfl, by simp⟩)
      | false => exact Or.inr (Or.inr ⟨rfl, rfl, by simp⟩)

theorem DB.Exec_cases (db : DB) (t : Tables) (stmt : Tables → Option Tables) (msg : String)
    (ht : db.tx = some t) :
    db.Exec stmt msg = (some msg, db.fails.2) ∨
    (∃ t1, stmt t = some t1 ∧ db.Exec stmt msg = (none, { db.fails.2 with tx := some t1 })) := by
  unfold DB.Exec
  simp only [ht]
  cases hf : db.fails with
  | mk b db1 =>
    cases b with
    | true => exact Or.inl rfl
    | false =>
      cases hs : stmt t with
      | none => exact Or.inl rfl
      | some t1 => exact Or.inr ⟨t1, rfl, rfl⟩
theorem wf_addRow (t : Tables) (row : FileRow) (hid : row.id = nextId t.file)
    (hnew : t.file.any (fun r => r.path = row.path) = false) (h : t.wf) :
    ({ t with file := t.file ++ [row] } : Tables).wf := by
  obtain ⟨hp, hi, hsub, hnd⟩ := h
  have hpath : row.path ∉ t.file.map (fun r => r.path) := by
    intro hm
    obtain ⟨r, hr, hrp⟩ := List.mem_map.1 hm
    have : t.file.any (fun r => decide (r.path = row.path)) = true :=
      List.any_eq_true.2 ⟨r, hr, by simp [hrp]⟩
    rw [hnew] at this
    cases this
  have hfresh : row.id ∉ t.file.map (fun r => r.id) := by
    intro hm
    obtain ⟨r, hr, hri⟩ := List.mem_map.1 hm
    exact nextId_fresh t.file r hr (by rw [hri, hid])
  refine ⟨?_, ?_, ?_, hnd⟩
  · simp only [List.map_append, List.map_cons, List.map_nil]
    exact List.Nodup.append hp (List.nodup_singleton _) (by simpa using hpath)
  · simp only [List.map_append, List.map_cons, List.map_nil]
    exact List.Nodup.append hi (List.nodup_singleton _) (by simpa using hfresh)
  · intro i hi2
    simp only [List.map_append, List.mem_append]
    exact Or.inl (hsub i hi2)

theorem wf_ext_insert (t0 t1 : Tables) (id : Int) (hfile : t1.file = t0.file)
    (hperm : t1.extIds.Perm (id :: t0.extIds)) (hid : id ∈ t0.file.map (fun r => r.id))
    (hfresh : id ∉ t0.extIds) (h : t0.wf) : t1.wf := by
  obtain ⟨hp, hi, hsub, hnd⟩ := h
  refine ⟨by rw [hfile]; exact hp, by rw [hfile]; exact hi, ?_, ?_⟩
  · intro i hi2
    rw [hfile]
    rcases List.mem_cons.1 (hperm.subset hi2) with rfl | h3
    · exact hid
    · exact hsub i h3
  · exact hperm.nodup_iff.2 (List.nodup_cons.2 ⟨hfresh, hnd⟩)

theorem extIds_picture (t : Tables) (row : PictureRow) :
    ({ t with picture := t.picture ++ [row] } : Tables).extIds.Perm (row.file :: t.extIds) := by
  rw [List.perm_iff_count]
  intro a
  simp only [Tables.extIds, List.map_append, List.count_append, List.count_cons, List.map_cons,
    List.map_nil, List.count_nil]
  omega

theorem extIds_video (t : Tables) (row : VideoRow) :
    ({ t with video := t.video ++ [row] } : Tables).extIds.Perm (row.file :: t.extIds) := by
  rw [List.perm_iff_count]
  intro a
  simp only [Tables.extIds, List.map_append, List.count_append, List.count_cons, List.map_cons,
    List.map_nil, List.count_nil]
  omega

theorem extIds_audio (t : Tables) (row : AudioRow) :
    ({ t with audio := t.audio ++ [row] } : Tables).extIds.Perm (row.file :: t.extIds) := by
  rw [List.perm_iff_count]
  intro a
  simp only [Tables.extIds, List.map_append, List.count_append, List.count_cons, List.map_cons,
    List.map_nil, List.count_nil]
  omega

theorem extIds_document (t : Tables) (row : DocumentRow) :
    ({ t with document := t.document ++ [row] } : Tables).extIds.Perm
      (row.file :: t.extIds) := by
  rw [List.perm_iff_count]
  intro a
  simp only [Tables.extIds, List.map_append, List.count_append, List.count_cons, List.map_cons,
    List.map_nil, List.count_nil]
  omega
theorem DB.with_tx_faults (db : DB) (t : Tables) (fs : List Bool) (ht : db.tx = some t) :
    ({ db with faults := fs } : DB) = { db with tx := some t, faults := fs } := by
  cases db
  simp only at ht
  subst ht
  rfl

theorem mem_paths_of_any (t : Tables) (path : String)
    (h : t.file.any (fun r => r.path = path) = true) : path ∈ t.file.map (fun r => r.path) := by
  obtain ⟨r, hr, hp⟩ := List.any_eq_true.1 h
  exact List.mem_map.2 ⟨r, hr, of_decide_eq_true hp⟩

/-- The common shape of `AddPicture`, `AddVideo`, `AddAudio` and `AddDocument`:
`addFile`, then one insert into an extension table under the new id. -/
theorem addThenInsert_tx (db : DB) (t : Tables) (file : File)
    (stmt : Int → Tables → Option Tables) (msg : String) (ht : db.tx = some t)
    (hstmt : ∀ id t0 t1, stmt id t0 = some t1 →
      t1.file = t0.file ∧ t1.extIds.Perm (id :: t0.extIds)) :
    ∃ e t1 fs,
      (match db.addFile file with
        | ((_, some DBError.errAlreadyExists), db1) => (none, db1)
        | ((_, some (DBError.other e)), db1) => (some e, db1)
        | ((id, none), db1) => db1.Exec (stmt id) msg) =
        (e, { db with tx := some t1, faults := fs }) ∧
      (t.wf → t1.wf) ∧
      (e = none → ∀ p, p ∈ t1.file.map (fun r => r.path) ↔
        (p ∈ t.file.map (fun r => r.path) ∨ p = file.Path)) ∧
      (t.file.any (fun r => r.path = file.Path) = true →
        t1 = t ∧ fs = db.fails.2.faults ∧
        e = if db.fails.1 then some "could not create file entry: storage failure"
            else none) := by
  obtain ⟨b, fs, hfs⟩ := DB.fails_spec db
  have h2 : db.fails.2 = { db with tx := some t, faults := fs } := by
    rw [hfs]
    exact DB.with_tx_faults db t fs ht
  have h3 : db.fails.2.faults = fs := by rw [h2]
  rcases DB.addFile_cases db t file ht with ⟨hf, ha⟩ | ⟨hf, hany, ha⟩ | ⟨hf, hany, ha⟩
  · rw [ha, h2]
    refine ⟨_, t, fs, rfl, id, ?_, ?_⟩
    · intro h
      cases h
    · intro _
      exact ⟨rfl, rfl, by rw [hf]; rfl⟩
  · rw [ha, h2]
    refine ⟨_, t, fs, rfl, id, ?_, ?_⟩
    · intro _ p
      constructor
      · exact Or.inl
      · rintro (h | rfl)
        · exact h
        · exact mem_paths_of_any t _ hany
    · intro _
      exact ⟨rfl, rfl, by rw [hf]; rfl⟩
  · rw [ha, h2]
    have hrow : ∀ row : FileRow, row.id = nextId t.file → row.path = file.Path →
        ∀ db1 : DB, db1 = { db with tx := some { t with file := t.file ++ [row] }, faults := fs } →
        ∃ e t1 fs1, db1.Exec (stmt (nextId t.file)) msg =
            (e, { db with tx := some t1, faults := fs1 }) ∧
          (t.wf → t1.wf) ∧
          (e = none → ∀ p, p ∈ t1.file.map (fun r => r.path) ↔
            (p ∈ t.file.map (fun r => r.path) ∨ p = file.Path)) := by
      intro row hid hpath db1 hdb1
      have hany2 : t.file.any (fun r => decide (r.path = row.path)) = false := by
        rw [hpath]
        exact hany
      have htx1 : db1.tx = some { t with file := t.file ++ [row] } := by rw [hdb1]
      obtain ⟨b1, fs1, hfs1⟩ := DB.fails_spec db1
      have h4 : db1.fails.2 =
          { db with tx := some { t with file := t.file ++ [row] }, faults := fs1 } := by
        rw [hfs1, hdb1]
      rcases DB.Exec_cases db1 _ (stmt (nextId t.file)) msg htx1 with he | ⟨t1, hs, he⟩
      · rw [he, h4]
        refine ⟨_, _, fs1, rfl, wf_addRow t row hid hany2, ?_⟩
        intro h
        cases h
      · rw [he, h4]
        obtain ⟨hfile, hperm⟩ := hstmt _ _ _ hs
        refine ⟨_, t1, fs1, rfl, ?_, ?_⟩
        · intro hw
          refine wf_ext_insert _ t1 (nextId t.file) hfile hperm ?_ ?_ (wf_addRow t row hid hany2 hw)
          · simp only [List.map_append, List.mem_append, List.map_cons, List.map_nil,
              List.mem_singleton]
            exact Or.inr hid.symm
          · intro hm
            obtain ⟨r, hr, hri⟩ := List.mem_map.1 (hw.2.2.1 _ hm)
            exact nextId_fresh t.file r hr hri
        · intro _ p
          rw [hfile]
          simp only [List.map_append, List.mem_append, List.map_cons, List.map_nil,
            List.mem_singleton, hpath]
    obtain ⟨e, t1, fs1, h5, hwf, hp⟩ :=
      hrow { id := nextId t.file, path := file.Path, size := file.Size,
             created_guess := file.CreatedGuess.Unix, modified := file.Modified.Unix,
             mime := file.MIME } rfl rfl _ rfl
    refine ⟨e, t1, fs1, h5, hwf, hp, ?_⟩
    intro h
    rw [hany] at h
    cases h
theorem insertPicture_spec (row : PictureRow) (t0 t1 : Tables)
    (h : insertPicture row t0 = some t1) :
    t1.file = t0.file ∧ t1.extIds.Perm (row.file :: t0.extIds) := by
  unfold insertPicture at h
  split at h
  · cases h
  · simp only [Option.some.injEq] at h
    subst h
    exact ⟨rfl, extIds_picture t0 row⟩

theorem insertVideo_spec (row : VideoRow) (t0 t1 : Tables) (h : insertVideo row t0 = some t1) :
    t1.file = t0.file ∧ t1.extIds.Perm (row.file :: t0.extIds) := by
  unfold insertVideo at h
  split at h
  · cases h
  · simp only [Option.some.injEq] at h
    subst h
    exact ⟨rfl, extIds_video t0 row⟩

theorem insertAudio_spec (row : AudioRow) (t0 t1 : Tables) (h : insertAudio row t0 = some t1) :
    t1.file = t0.file ∧ t1.extIds.Perm (row.file :: t0.extIds) := by
  unfold insertAudio at h
  split at h
  · cases h
  · simp only [Option.some.injEq] at h
    subst h
    exact ⟨rfl, extIds_audio t0 row⟩

theorem insertDocument_spec (row : DocumentRow) (t0 t1 : Tables)
    (h : insertDocument row t0 = some t1) :
    t1.file = t0.file ∧ t1.extIds.Perm (row.file :: t0.extIds) := by
  unfold insertDocument at h
  split at h
  · cases h
  · simp only [Option.some.injEq] at h
    subst h
    exact ⟨rfl, extIds_document t0 row⟩

/-- What one call of an `Add` method does inside an open transaction: the
database file and the lock are untouched, the invariants of the catalogue
are kept, on success the paths are the former ones and the path of the
record, and for a record whose path is catalogued nothing changes. -/
theorem AddCall.run_tx (c : AddCall) (db : DB) (t : Tables) (ht : db.tx = some t) :
    ∃ e t1 fs,
      c.run db = (e, { db with tx := some t1, faults := fs }) ∧
      (t.wf → t1.wf) ∧
      (e = none → ∀ p, p ∈ t1.file.map (fun r => r.path) ↔
        (p ∈ t.file.map (fun r => r.path) ∨ p = c.File.Path)) ∧
      (t.file.any (fun r => r.path = c.File.Path) = true →
        t1 = t ∧ fs = db.fails.2.faults ∧
        e = if db.fails.1 then some "could not create file entry: storage failure"
            else none) := by
  cases c with
  | AddFile file =>
    obtain ⟨b, fs, hfs⟩ := DB.fails_spec db
    have h2 : db.fails.2 = { db with tx := some t, faults := fs } := by
      rw [hfs]
      exact DB.with_tx_faults db t fs ht
    simp only [AddCall.run, AddCall.File, DB.AddFile]
    rcases DB.addFile_cases db t file ht with ⟨hf, ha⟩ | ⟨hf, hany, ha⟩ | ⟨hf, hany, ha⟩
    · rw [ha, h2]
      refine ⟨_, t, fs, rfl, id, ?_, ?_⟩
      · intro h
        cases h
      · intro _
        exact ⟨rfl, rfl, by rw [hf]; rfl⟩
    · rw [ha, h2]
      refine ⟨_, t, fs, rfl, id, ?_, ?_⟩
      · intro _ p
        constructor
        · exact Or.inl
        · rintro (h | rfl)
          · exact h
          · exact mem_paths_of_any t _ hany
      · intro _
        exact ⟨rfl, rfl, by rw [hf]; rfl⟩
    · rw [ha, h2]
      refine ⟨_, _, fs, rfl, ?_, ?_, ?_⟩
      · exact wf_addRow t _ rfl hany
      · intro _ p
        simp only [List.map_append, List.mem_append, List.map_cons, List.map_nil,
          List.mem_singleton]
      · intro h
        rw [hany] at h
        cases h
  | AddPicture pic =>
    exact addThenInsert_tx db t pic.File
      (fun id => insertPicture { file := id, camera := nullIfEmpty pic.Camera })
      "could not add picture for file" ht (fun _ _ _ h => insertPicture_spec _ _ _ h)
  | AddVideo vid =>
    exact addThenInsert_tx db t vid.File
      (fun id => insertVideo { file := id, seconds := wholeSeconds vid.Duration,
                               camera := nullIfEmpty vid.Camera, year := vid.Year })
      "could not add video for file" ht (fun _ _ _ h => insertVideo_spec _ _ _ h)
  | AddAudio audio =>
    exact addThenInsert_tx db t audio.File
      (fun id => insertAudio { file := id, seconds := wholeSeconds audio.Duration,
                               author := nullIfEmpty audio.Author, year := audio.Year })
      "could not add audio for file" ht (fun _ _ _ h => insertAudio_spec _ _ _ h)
  | AddDocument doc =>
    exact addThenInsert_tx db t doc.File (fun id => insertDocument { file := id })
      "could not add document for file" ht (fun _ _ _ h => insertDocument_spec _ _ _ h)
theorem runAdds_wf (calls : List AddCall) :
    ∀ (db : DB) (t : Tables), db.tx = some t → t.wf →
      ∃ t1, (runAdds db calls).tx = some t1 ∧ t1.wf ∧ (runAdds db calls).d = db.d := by
  induction calls with
  | nil => intro db t ht hw; exact ⟨t, ht, hw, rfl⟩
  | cons c calls ih =>
    intro db t ht hw
    obtain ⟨e, t1, fs, hrun, hwf, _, _⟩ := AddCall.run_tx c db t ht
    have hstep : runAdds db (c :: calls) = runAdds (c.run db).2 calls := rfl
    rw [hstep, hrun]
    exact ih _ t1 rfl (hwf hw)

/-- Claim C14.  Inside an open transaction with tables `t`, for each of
`AddFile`, `AddPicture`, `AddVideo`, `AddAudio`, `AddDocument` and every
record: when the path of the record is already catalogued the call changes
no table (no file row, no extension row) and returns nil, unless the storage
engine fails the lookup, in which case it returns that error; a call that
returned nil, made again with the same record, changes nothing; and the
invariants of the catalogue (one entry per path, at most one extension
record per entry) hold for the empty catalogue and survive every sequence of
such calls, whatever each returns. -/
theorem Add_methods_idempotent (db : DB) (t : Tables) (c : AddCall) (calls : List AddCall)
    (ht : db.tx = some t) :
    (t.file.any (fun r => r.path = c.File.Path) = true →
      c.run db =
        (if db.fails.1 then some "could not create file entry: storage failure" else none,
          db.fails.2) ∧
      (c.run db).2.tx = some t ∧ (c.run db).2.d = db.d ∧
      (db.fails.1 = false → (c.run db).1 = none)) ∧
    ((c.run db).1 = none →
      (c.run (c.run db).2).2.tx = (c.run db).2.tx ∧
      (c.run (c.run db).2).2.d = (c.run db).2.d ∧
      ((c.run db).2.fails.1 = false → (c.run (c.run db).2).1 = none)) ∧
    (t.wf → ∃ t1, (runAdds db calls).tx = some t1 ∧ t1.wf) ∧
    ({} : Tables).wf := by
  have hnoop : ∀ (db : DB) (t : Tables), db.tx = some t →
      t.file.any (fun r => r.path = c.File.Path) = true →
      c.run db =
        (if db.fails.1 then some "could not create file entry: storage failure" else none,
          db.fails.2) ∧
      (c.run db).2.tx = some t ∧ (c.run db).2.d = db.d ∧
      (db.fails.1 = false → (c.run db).1 = none) := by
    intro db t ht hany
    obtain ⟨e, t1, fs, hrun, _, _, hex⟩ := AddCall.run_tx c db t ht
    obtain ⟨h1, h2, h3⟩ := hex hany
    rw [h1, h2, h3] at hrun
    have hdb : ({ db with tx := some t, faults := db.fails.2.faults } : DB) = db.fails.2 := by
      rw [← DB.with_tx_faults db t _ ht]
      exact (DB.fails_eq db).symm
    rw [hdb] at hrun
    refine ⟨hrun, ?_, ?_, ?_⟩
    · rw [hrun, ← hdb]
    · rw [hrun, ← hdb]
    · intro hf
      rw [hrun, hf]
      rfl
  refine ⟨hnoop db t ht, ?_, ?_, ?_⟩
  · intro hnone
    obtain ⟨e, t1, fs, hrun, _, hpaths, _⟩ := AddCall.run_tx c db t ht
    rw [hrun] at hnone ⊢
    simp only at hnone
    have hmem : c.File.Path ∈ t1.file.map (fun r => r.path) := (hpaths hnone _).2 (Or.inr rfl)
    have hany : t1.file.any (fun r => decide (r.path = c.File.Path)) = true := by
      obtain ⟨r, hr, hp⟩ := List.mem_map.1 hmem
      exact List.any_eq_true.2 ⟨r, hr, decide_eq_true hp⟩
    obtain ⟨_, h2, h3, h4⟩ := hnoop { db with tx := some t1, faults := fs } t1 rfl hany
    exact ⟨h2, h3, h4⟩
  · intro hw
    obtain ⟨t1, h1, h2, _⟩ := runAdds_wf calls db t ht hw
    exact ⟨t1, h1, h2⟩
  · decide

/-- In `exCatalogue`, adding the picture whose path is stored changes
nothing and returns nil; adding a new video twice and the picture once keeps
the invariants and stores the video once. -/
theorem Add_methods_idempotent_witness :
    exCatalogue.tx.isSome = true ∧
    exCatalogue.fails.1 = false ∧
    (AddCall.AddPicture exPicture).run exCatalogue = (none, exCatalogue) ∧
    ((runAdds exCatalogue exAdds).tx.map
      (fun t => (t.file.map (fun r => r.path), t.picture.map (fun r => r.file),
                 t.video.map (fun r => r.file)))) =
      some (["/r/a", "/r/b.png", "/r/c", "/r/v.mp4"], [2], [4]) ∧
    ∃ t1, (runAdds exCatalogue exAdds).tx = some t1 ∧ t1.wf :=
  ⟨rfl, rfl, by decide, by decide,
    (Add_methods_idempotent exCatalogue _ (AddCall.AddPicture exPicture) exAdds rfl).2.2.1
      (by decide)⟩

/-! ## The index loops -/

theorem wrapErr_run (msg path : String) (c : AddCall) (db : DB) (t : Tables)
    (ht : db.tx = some t) (hpath : c.File.Path = path) :
    ∃ e t1 fs,
      wrapErr msg path (c.run db) = (e, { db with tx := some t1, faults := fs }) ∧
      (t.wf → t1.wf) ∧
      (e = none → ∀ p, p ∈ t1.file.map (fun r => r.path) ↔
        (p ∈ t.file.map (fun r => r.path) ∨ p = path)) := by
  obtain ⟨e, t1, fs, hrun, hwf, hp, _⟩ := AddCall.run_tx c db t ht
  rw [hrun, ← hpath]
  cases e with
  | none => exact ⟨none, t1, fs, rfl, hwf, hp⟩
  | some e => exact ⟨_, t1, fs, rfl, hwf, fun h => by cases h⟩

/-- What `indexFile` does inside an open transaction: the database file and
the lock are untouched, the invariants of the catalogue are kept, and when it
returns nil the catalogued paths are the former ones and `path`. -/
theorem indexFile_tx (w : World) (db : DB) (path : String) (d : DirEntry) (t : Tables)
    (ht : db.tx = some t) :
    ∃ e t1 fs,
      indexFile w db path d = (e, { db with tx := some t1, faults := fs }) ∧
      (t.wf → t1.wf) ∧
      (e = none → ∀ p, p ∈ t1.file.map (fun r => r.path) ↔
        (p ∈ t.file.map (fun r => r.path) ∨ p = path)) := by
  have hdb : db = { db with tx := some t, faults := db.faults } :=
    DB.with_tx_faults db t db.faults ht
  unfold indexFile
  cases hi : d.Info with
  | error e0 =>
    refine ⟨some ("could not get file info on \x27" ++ path ++ "\x27: " ++ e0), t, db.faults,
      ?_, id, fun h => by cases h⟩
    simp only
    rw [← hdb]
  | ok i =>
    cases hm : determineMIME w path with
    | error e0 =>
      refine ⟨some ("could not determine mime type of \x27" ++ path ++ "\x27: " ++ e0), t,
        db.faults, ?_, id, fun h => by cases h⟩
      simp only
      rw [← hdb]
    | ok m =>
      simp only
      have hto : ∃ f : File, f.Path = path ∧ ∀ mi : mediainfo.Info,
          toFile { path := path, d := d, mime := m, mediainfo := mi } = .ok f := by
        obtain ⟨f, hf, hfp, _⟩ :=
          toFile_ok { path := path, d := d, mime := m, mediainfo := {} } i hi
        exact ⟨f, hfp, fun mi => by rw [← hf]; rfl⟩
      obtain ⟨f, hfp, hf⟩ := hto
      cases hcat : MIMEToCategory m with
      | Other =>
        simp only [reduceCtorEq, if_true, false_or, or_false, if_false]
        simp only [addFile, hf]
        exact wrapErr_run _ _ (AddCall.AddFile f) db t ht hfp
      | Picture =>
        simp only [reduceCtorEq, if_true, false_or, or_false, if_false, or_true]
        simp only [addPicture, hf]
        exact wrapErr_run _ _ (AddCall.AddPicture _) db t ht hfp
      | Video =>
        simp only [reduceCtorEq, if_true, false_or, or_false, if_false, or_true, true_or,
          true_and]
        split
        · simp only [addVideo, hf]
          exact wrapErr_run _ _ (AddCall.AddVideo _) db t ht hfp
        · rename_i hty
          rw [if_pos (not_not.1 hty)]
          simp only [addAudio, hf]
          exact wrapErr_run _ _ (AddCall.AddAudio _) db t ht hfp
      | Audio =>
        simp only [reduceCtorEq, if_true, false_or, or_false, if_false, or_true, true_or,
          false_and]
        simp only [addAudio, hf]
        exact wrapErr_run _ _ (AddCall.AddAudio _) db t ht hfp
      | Document =>
        simp only [reduceCtorEq, if_true, false_or, or_false, if_false, or_true, true_or,
          false_and]
        simp only [addDocument, hf]
        exact wrapErr_run _ _ (AddCall.AddDocument _) db t ht hfp
theorem chunksFuel_eq {α : Type} :
    ∀ (f1 f2 : Nat) (l : List α), l.length ≤ f1 → l.length ≤ f2 →
      chunksFuel f1 l = chunksFuel f2 l := by
  intro f1
  induction f1 with
  | zero =>
    intro f2 l h1 _
    have : l = [] := List.length_eq_zero.1 (Nat.le_zero.1 h1)
    subst this
    rw [chunksFuel_nil, chunksFuel_nil]
  | succ f1 ih =>
    intro f2 l h1 h2
    cases l with
    | nil => rw [chunksFuel_nil, chunksFuel_nil]
    | cons a l =>
      cases f2 with
      | zero => simp at h2
      | succ f2 =>
        rw [chunksFuel_cons, chunksFuel_cons]
        have hd : (List.drop 1000 (a :: l)).length ≤ l.length := by
          simp only [List.length_drop, List.length_cons]
          omega
        simp only [List.length_cons] at h1 h2
        rw [ih f2 _ (by omega) (by omega)]

theorem chunks_nil {α : Type} : chunks ([] : List α) = [] := rfl

theorem chunks_cons {α : Type} (a : α) (l : List α) :
    chunks (a :: l) = (a :: l.take 999) :: chunks (l.drop 999) := by
  unfold chunks
  rw [List.length_cons, chunksFuel_cons]
  have hd : (List.drop 999 l).length ≤ l.length := by
    simp only [List.length_drop]
    omega
  rw [show List.drop 1000 (a :: l) = List.drop 999 l from rfl,
    show List.take 1000 (a :: l) = a :: List.take 999 l from rfl,
    chunksFuel_eq l.length (List.drop 999 l).length _ hd (Nat.le_refl _)]

theorem finishBatch_cons (w : World) (wrap : String → String → String) (path : String)
    (d : DirEntry) (c : List (String × DirEntry)) (db : DB) :
    finishBatch w wrap ((path, d) :: c) db =
      match indexFile w db path d with
      | (some e, db1) => (some (wrap path e), db1.Rollback.2)
      | (none, db1) => finishBatch w wrap c db1 := by
  unfold finishBatch
  rw [indexAll]
  cases indexFile w db path d with
  | mk e db1 => cases e <;> rfl

theorem finishBatch_nil (w : World) (wrap : String → String → String) (db : DB) :
    finishBatch w wrap [] db =
      match db.Commit with
      | (some e, db2) => (some ("could not commit transaction: " ++ e), db2)
      | (none, db2) => (none, db2) := rfl
/-- The index loop of `Add` from a state with `entriesInTx` entries in the
open transaction: it finishes the current batch with the next
`1000 - entriesInTx` entries and then runs the batches of the rest. -/
theorem add_indexLoop_resume (w : World) :
    ∀ (l : List (String × DirEntry)) (s : IndexState), s.entriesInTx < 1000 →
      indexResult (Add.indexLoop w l s) =
        if s.entriesInTx = 0 then indexBatches w Add.wrap (chunks l) s.db
        else
          match finishBatch w Add.wrap (l.take (1000 - s.entriesInTx)) s.db with
          | (some e, db1) => (some e, db1)
          | (none, db1) =>
            indexBatches w Add.wrap (chunks (l.drop (1000 - s.entriesInTx))) db1 := by
  intro l
  induction l with
  | nil =>
    intro s hs
    rw [Add.indexLoop, List.take_nil, List.drop_nil, chunks_nil, finishBatch_nil]
    simp only [indexResult, finishIndex, indexBatches]
    by_cases hj : s.entriesInTx = 0
    · rw [if_pos hj, if_neg (by omega)]
    · rw [if_neg hj, if_pos (by omega)]
      cases s.db.Commit with
      | mk e db1 => cases e <;> rfl
  | cons a l ih =>
    obtain ⟨p, d⟩ := a
    intro s hs
    rw [Add.indexLoop]
    by_cases hj : s.entriesInTx = 0
    · rw [if_pos hj, chunks_cons, indexBatches, indexBatch]
      simp only [hj, if_true]
      cases s.db.BeginTx with
      | mk e db1 =>
        cases e with
        | some e => rfl
        | none =>
          simp only
          rw [finishBatch_cons]
          cases indexFile w db1 p d with
          | mk e2 db2 =>
            cases e2 with
            | some e2 => rfl
            | none =>
              simp only [Nat.zero_add, Nat.reduceEqDiff, if_false]
              rw [ih _ (by simp)]
              simp only [Nat.reduceEqDiff, if_false, Nat.reduceSub]
    · rw [if_neg hj]
      simp only [hj, if_false]
      have htake : List.take (1000 - s.entriesInTx) ((p, d) :: l) =
          (p, d) :: List.take (1000 - (s.entriesInTx + 1)) l := by
        rw [show 1000 - s.entriesInTx = (1000 - (s.entriesInTx + 1)) + 1 by omega,
          List.take_succ_cons]
      have hdrop : List.drop (1000 - s.entriesInTx) ((p, d) :: l) =
          List.drop (1000 - (s.entriesInTx + 1)) l := by
        rw [show 1000 - s.entriesInTx = (1000 - (s.entriesInTx + 1)) + 1 by omega,
          List.drop_succ_cons]
      rw [htake, hdrop, finishBatch_cons]
      cases indexFile w s.db p d with
      | mk e2 db2 =>
        cases e2 with
        | some e2 => rfl
        | none =>
          simp only
          by_cases hn : s.entriesInTx + 1 = 1000
          · rw [if_pos hn, hn]
            simp only [Nat.sub_self, List.take_zero, List.drop_zero]
            rw [finishBatch_nil]
            cases db2.Commit with
            | mk e3 db3 =>
              cases e3 with
              | some e3 => rfl
              | none =>
                simp only
                rw [ih _ (by simp)]
                simp only [if_true]
          · rw [if_neg hn, ih _ (by simp only; omega)]
            simp only [Nat.add_one_ne_zero, if_false]
/-- The reindex loop of `Rescan` from a state with `entriesInTx` entries in the
open transaction: it finishes the current batch with the next
`1000 - entriesInTx` entries and then runs the batches of the rest. -/
theorem rescan_indexLoop_resume (w : World) :
    ∀ (l : List (String × DirEntry)) (s : IndexState), s.entriesInTx < 1000 →
      indexResult (Rescan.indexLoop w l s) =
        if s.entriesInTx = 0 then indexBatches w Rescan.wrap (chunks l) s.db
        else
          match finishBatch w Rescan.wrap (l.take (1000 - s.entriesInTx)) s.db with
          | (some e, db1) => (some e, db1)
          | (none, db1) =>
            indexBatches w Rescan.wrap (chunks (l.drop (1000 - s.entriesInTx))) db1 := by
  intro l
  induction l with
  | nil =>
    intro s hs
    rw [Rescan.indexLoop, List.take_nil, List.drop_nil, chunks_nil, finishBatch_nil]
    simp only [indexResult, finishIndex, indexBatches]
    by_cases hj : s.entriesInTx = 0
    · rw [if_pos hj, if_neg (by omega)]
    · rw [if_neg hj, if_pos (by omega)]
      cases s.db.Commit with
      | mk e db1 => cases e <;> rfl
  | cons a l ih =>
    obtain ⟨p, d⟩ := a
    intro s hs
    rw [Rescan.indexLoop]
    by_cases hj : s.entriesInTx = 0
    · rw [if_pos hj, chunks_cons, indexBatches, indexBatch]
      simp only [hj, if_true]
      cases s.db.BeginTx with
      | mk e db1 =>
        cases e with
        | some e => rfl
        | none =>
          simp only
          rw [finishBatch_cons]
          cases indexFile w db1 p d with
          | mk e2 db2 =>
            cases e2 with
            | some e2 => rfl
            | none =>
              simp only [Nat.zero_add, Nat.reduceEqDiff, if_false]
              rw [ih _ (by simp)]
              simp only [Nat.reduceEqDiff, if_false, Nat.reduceSub]
    · rw [if_neg hj]
      simp only [hj, if_false]
      have htake : List.take (1000 - s.entriesInTx) ((p, d) :: l) =
          (p, d) :: List.take (1000 - (s.entriesInTx + 1)) l := by
        rw [show 1000 - s.entriesInTx = (1000 - (s.entriesInTx + 1)) + 1 by omega,
          List.take_succ_cons]
      have hdrop : List.drop (1000 - s.entriesInTx) ((p, d) :: l) =
          List.drop (1000 - (s.entriesInTx + 1)) l := by
        rw [show 1000 - s.entriesInTx = (1000 - (s.entriesInTx + 1)) + 1 by omega,
          List.drop_succ_cons]
      rw [htake, hdrop, finishBatch_cons]
      cases indexFile w s.db p d with
      | mk e2 db2 =>
        cases e2 with
        | some e2 => rfl
        | none =>
          simp only
          by_cases hn : s.entriesInTx + 1 = 1000
          · rw [if_pos hn, hn]
            simp only [Nat.sub_self, List.take_zero, List.drop_zero]
            rw [finishBatch_nil]
            cases db2.Commit with
            | mk e3 db3 =>
              cases e3 with
              | some e3 => rfl
              | none =>
                simp only
                rw [ih _ (by simp)]
                simp only [if_true]
          · rw [if_neg hn, ih _ (by simp only; omega)]
            simp only [Nat.add_one_ne_zero, if_false]
/-- Claim C11.  From a state with no open batch (`entriesInTx = 0`), the
index loop of `Add` followed by `finishIndex` ends with the same error and
the same database as running the batches `chunks l` one after the other,
each batch being one `BeginTx`, the `indexFile` calls of its entries in order
and one `Commit` right after the last of them; likewise the reindex loop of
`Rescan`.  The batches are consecutive pieces of the input, there are
`ceil(n/1000)` of them, each holds between 1 and 1000 entries, everyone but
the last exactly 1000, and there is none for the empty input, for which the
database is left as it was. -/
theorem index_loops_run_batches (w : World) (l : List (String × DirEntry)) (s : IndexState)
    (h : s.entriesInTx = 0) :
    indexResult (Add.indexLoop w l s) = indexBatches w Add.wrap (chunks l) s.db ∧
    indexResult (Rescan.indexLoop w l s) = indexBatches w Rescan.wrap (chunks l) s.db ∧
    (chunks l).flatten = l ∧
    (chunks l).length = (l.length + 999) / 1000 ∧
    (∀ c ∈ chunks l, 1 ≤ c.length ∧ c.length ≤ 1000) ∧
    (∀ c ∈ (chunks l).dropLast, c.length = 1000) ∧
    (l = [] → chunks l = [] ∧ indexResult (Add.indexLoop w l s) = (none, s.db) ∧
      indexResult (Rescan.indexLoop w l s) = (none, s.db)) := by
  have h1 := add_indexLoop_resume w l s (by omega)
  have h2 := rescan_indexLoop_resume w l s (by omega)
  rw [if_pos h] at h1 h2
  refine ⟨h1, h2, chunksFuel_flatten _ _ (Nat.le_refl _), chunksFuel_length _ _ (Nat.le_refl _),
    chunksFuel_sizes _ _, chunksFuel_full _ _, ?_⟩
  intro hl
  subst hl
  rw [h1, h2]
  exact ⟨rfl, rfl, rfl⟩
theorem indexAll_tx (w : World) (wrap : String → String → String) :
    ∀ (c : List (String × DirEntry)) (db : DB) (t : Tables), db.tx = some t →
      ∃ e t1 fs,
        indexAll w wrap c db = (e, { db with tx := some t1, faults := fs }) ∧
        (t.wf → t1.wf) ∧
        (e = none → ∀ p, p ∈ t1.file.map (fun r => r.path) ↔
          (p ∈ t.file.map (fun r => r.path) ∨ p ∈ c.map (fun x => x.1))) := by
  intro c
  induction c with
  | nil =>
    intro db t ht
    refine ⟨none, t, db.faults, ?_, id, fun _ p => by simp⟩
    rw [indexAll, ← DB.with_tx_faults db t db.faults ht]
  | cons a c ih =>
    obtain ⟨path, d⟩ := a
    intro db t ht
    obtain ⟨e, t1, fs, hrun, hwf, hp⟩ := indexFile_tx w db path d t ht
    rw [indexAll, hrun]
    cases e with
    | some e => exact ⟨some (wrap path e), t1, fs, rfl, hwf, fun h => by cases h⟩
    | none =>
      obtain ⟨e2, t2, fs2, hrun2, hwf2, hp2⟩ :=
        ih { db with tx := some t1, faults := fs } t1 rfl
      refine ⟨e2, t2, fs2, hrun2, fun h => hwf2 (hwf h), ?_⟩
      intro he p
      rw [hp2 he p, hp rfl p]
      simp only [List.map_cons, List.mem_cons]
      exact or_assoc

/-- One batch either fails and leaves the database file as it was, or
succeeds, and then the database file holds the former paths and the paths of
the batch, no transaction is open and the invariants are kept. -/
theorem indexBatch_d (w : World) (wrap : String → String → String)
    (c : List (String × DirEntry)) (db : DB) :
    ∃ e db1, indexBatch w wrap c db = (e, db1) ∧
      (e ≠ none → db1.d = db.d) ∧
      (e = none → db1.tx = none ∧ (db.d.wf → db1.d.wf) ∧
        ∀ p, p ∈ db1.d.file.map (fun r => r.path) ↔
          (p ∈ db.d.file.map (fun r => r.path) ∨ p ∈ c.map (fun x => x.1))) := by
  unfold indexBatch DB.BeginTx
  by_cases hl : db.txLock = true
  · rw [if_pos hl]
    exact ⟨_, _, rfl, fun _ => rfl, fun h => by cases h⟩
  · rw [if_neg hl]
    obtain ⟨b, fs, hfs⟩ := DB.fails_spec db
    rw [hfs]
    cases b with
    | true => exact ⟨_, _, rfl, fun _ => rfl, fun h => by cases h⟩
    | false =>
      simp only
      obtain ⟨e, t1, fs1, hrun, hwf, hp⟩ :=
        indexAll_tx w wrap c
          { d := db.d, tx := some db.d, txLock := true, faults := fs } db.d rfl
      unfold finishBatch
      rw [hrun]
      cases e with
      | some e =>
        refine ⟨_, _, rfl, fun _ => ?_, fun h => by cases h⟩
        simp only [DB.Rollback]
        obtain ⟨b2, fs2, hfs2⟩ :=
          DB.fails_spec { d := db.d, tx := some t1, txLock := true, faults := fs1 }
        rw [hfs2]
        cases b2 <;> rfl
      | none =>
        simp only [DB.Commit]
        obtain ⟨b2, fs2, hfs2⟩ :=
          DB.fails_spec { d := db.d, tx := some t1, txLock := true, faults := fs1 }
        rw [hfs2]
        cases b2 with
        | true => exact ⟨_, _, rfl, fun _ => rfl, fun h => by cases h⟩
        | false => exact ⟨_, _, rfl, fun h => absurd rfl h, fun _ => ⟨rfl, hwf, hp rfl⟩⟩

theorem indexBatches_ok (w : World) (wrap : String → String → String) :
    ∀ (cs : List (List (String × DirEntry))) (db db1 : DB),
      indexBatches w wrap cs db = (none, db1) →
        (db.d.wf → db1.d.wf) ∧
        ∀ p, p ∈ db1.d.file.map (fun r => r.path) ↔
          (p ∈ db.d.file.map (fun r => r.path) ∨ p ∈ cs.flatten.map (fun x => x.1)) := by
  intro cs
  induction cs with
  | nil =>
    intro db db1 h
    rw [indexBatches] at h
    cases h
    exact ⟨id, fun p => by simp⟩
  | cons c cs ih =>
    intro db db1 h
    obtain ⟨e, db2, hb, _, hok⟩ := indexBatch_d w wrap c db
    rw [indexBatches, hb] at h
    cases e with
    | some e => simp at h
    | none =>
      simp only at h
      obtain ⟨_, hwf, hp⟩ := hok rfl
      obtain ⟨hwf2, hp2⟩ := ih db2 db1 h
      refine ⟨fun hw => hwf2 (hwf hw), fun p => ?_⟩
      rw [hp2 p, hp p]
      simp only [List.flatten_cons, List.map_append, List.mem_append]
      exact or_assoc

theorem indexBatches_stop (w : World) (wrap : String → String → String) :
    ∀ (cs : List (List (String × DirEntry))) (db db1 : DB) (e : String),
      indexBatches w wrap cs db = (some e, db1) →
        ∃ k dbk, k < cs.length ∧ indexBatches w wrap (cs.take k) db = (none, dbk) ∧
          indexBatch w wrap (cs.getD k []) dbk = (some e, db1) ∧ db1.d = dbk.d := by
  intro cs
  induction cs with
  | nil =>
    intro db db1 e h
    rw [indexBatches] at h
    cases h
  | cons c cs ih =>
    intro db db1 e h
    obtain ⟨e2, db2, hb, herr, _⟩ := indexBatch_d w wrap c db
    rw [indexBatches, hb] at h
    cases e2 with
    | some e2 =>
      simp only [Prod.mk.injEq, Option.some.injEq] at h
      obtain ⟨h1, h2⟩ := h
      subst h1 h2
      exact ⟨0, db, Nat.succ_pos _, rfl, hb, herr (by simp)⟩
    | none =>
      simp only at h
      obtain ⟨k, dbk, hk, hpre, hfail, hd⟩ := ih db2 db1 e h
      refine ⟨k + 1, dbk, Nat.succ_lt_succ hk, ?_, hfail, hd⟩
      rw [List.take_succ_cons, indexBatches, hb]
      exact hpre

theorem chunksFuel_take {α : Type} :
    ∀ (fuel : Nat) (l : List α) (k : Nat), l.length ≤ fuel →
      ((chunksFuel fuel l).take k).flatten = l.take (k * 1000) := by
  intro fuel
  induction fuel with
  | zero =>
    intro l k h
    have : l = [] := List.length_eq_zero.1 (Nat.le_zero.1 h)
    subst this
    simp [chunksFuel]
  | succ fuel ih =>
    intro l k h
    cases l with
    | nil => simp [chunksFuel]
    | cons a l =>
      cases k with
      | zero => simp
      | succ k =>
        rw [chunksFuel_cons, List.take_succ_cons, List.flatten_cons,
          ih _ k (by simp only [List.length_drop, List.length_cons] at h ⊢; omega),
          show (k + 1) * 1000 = 1000 + k * 1000 by omega, List.take_add]
theorem DB.BeginTx_ok (db db1 : DB) (h : db.BeginTx = (none, db1)) :
    db1.tx = some db.d ∧ db1.d = db.d := by
  unfold DB.BeginTx at h
  split at h
  · cases h
  · obtain ⟨b, fs, hfs⟩ := DB.fails_spec db
    rw [hfs] at h
    cases b with
    | true => cases h
    | false =>
      simp only [Prod.mk.injEq, true_and] at h
      subst h
      exact ⟨rfl, rfl⟩

/-- An index loop of two entries on the empty database is one batch: both
entries are committed together. -/
theorem index_loops_run_batches_witness :
    exIndexState.entriesInTx = 0 ∧
    chunks exEntries = [exEntries] ∧
    indexBatches exWorld Add.wrap [exEntries] {} =
      (none, (indexBatch exWorld Add.wrap exEntries {}).2) ∧
    (indexBatch exWorld Add.wrap exEntries {}).2.d.file.map (fun r => r.path) =
      ["/d/A/f", "/d/A/g"] ∧
    indexResult (Add.indexLoop exWorld exEntries exIndexState) =
      indexBatches exWorld Add.wrap (chunks exEntries) exIndexState.db :=
  ⟨rfl, by decide, by decide, by decide,
    (index_loops_run_batches exWorld exEntries exIndexState rfl).1⟩

/-- Claim C12.  When the index loop of `Add`, started with no open batch,
stops with an error, some number `k` of batches was committed before: the
first `k` batches, which are the first `k * 1000` entries, ran without
error, the batch after them failed, and the database file is the one those
`k` batches left.  So the paths persisted are the former ones and those of
the first `k * 1000` entries; an entry from the batch in flight or later
that was not catalogued before is not persisted.  The same holds for a run
cut off inside a batch: whatever entries the open transaction has indexed,
the database file is still the one the committed batches left. -/
theorem index_stop_keeps_committed_batches (w : World) (l : List (String × DirEntry))
    (s st : IndexState) (e : String) (h0 : s.entriesInTx = 0)
    (hstop : Add.indexLoop w l s = (some e, st)) :
    ∃ k dbk, k < (chunks l).length ∧ k * 1000 < l.length ∧
      ((chunks l).take k).flatten = l.take (k * 1000) ∧
      indexBatches w Add.wrap ((chunks l).take k) s.db = (none, dbk) ∧
      indexBatch w Add.wrap ((chunks l).getD k []) dbk = (some e, st.db) ∧
      st.db.d = dbk.d ∧
      (∀ p, p ∈ st.db.d.file.map (fun r => r.path) ↔
        (p ∈ s.db.d.file.map (fun r => r.path) ∨
          p ∈ (l.take (k * 1000)).map (fun x => x.1))) ∧
      ((l.map (fun x => x.1)).Nodup → ∀ p ∈ (l.drop (k * 1000)).map (fun x => x.1),
        p ∉ s.db.d.file.map (fun r => r.path) → p ∉ st.db.d.file.map (fun r => r.path)) ∧
      (∀ db1, dbk.BeginTx = (none, db1) → ∀ c, (indexAll w Add.wrap c db1).2.d = dbk.d) := by
  have hres := add_indexLoop_resume w l s (by omega)
  rw [if_pos h0, hstop] at hres
  obtain ⟨k, dbk, hk, hpre, hfail, hd⟩ := indexBatches_stop w Add.wrap _ _ _ _ hres.symm
  have hflat : ((chunks l).take k).flatten = l.take (k * 1000) :=
    chunksFuel_take _ _ k (Nat.le_refl _)
  have hlen : (chunks l).length = (l.length + 999) / 1000 :=
    chunksFuel_length _ _ (Nat.le_refl _)
  have hpaths : ∀ p, p ∈ st.db.d.file.map (fun r => r.path) ↔
      (p ∈ s.db.d.file.map (fun r => r.path) ∨
        p ∈ (l.take (k * 1000)).map (fun x => x.1)) := by
    intro p
    have := (indexBatches_ok w Add.wrap _ _ _ hpre).2 p
    rw [hflat] at this
    rw [← this]
    exact iff_of_eq (congrArg (fun d => p ∈ d.file.map (fun r => r.path)) hd)
  refine ⟨k, dbk, hk, by omega, hflat, hpre, hfail, hd, hpaths, ?_, ?_⟩
  · intro hnd p hp hnew hmem
    rcases (hpaths p).1 hmem with h | h
    · exact hnew h
    · rw [← List.take_append_drop (k * 1000) l, List.map_append] at hnd
      exact (List.nodup_append.1 hnd).2.2 h hp
  · intro db1 hb c
    obtain ⟨htx, hd1⟩ := DB.BeginTx_ok _ _ hb
    obtain ⟨e2, t1, fs, hrun, _, _⟩ := indexAll_tx w Add.wrap c db1 _ htx
    rw [hrun]
    exact hd1

/-- The third of three entries fails: the loop stops with the error of
`indexFile`, no batch was committed and nothing is persisted. -/
theorem index_stop_keeps_committed_batches_witness :
    exIndexState.entriesInTx = 0 ∧
    (Add.indexLoop exWorld exEntriesGone exIndexState).1 =
      some "could not get file info on \x27/d/A/h\x27: no such file" ∧
    (Add.indexLoop exWorld exEntriesGone exIndexState).2.db.d.file = [] ∧
    ∃ k dbk, k < (chunks exEntriesGone).length ∧ k * 1000 < exEntriesGone.length ∧
      ((chunks exEntriesGone).take k).flatten = exEntriesGone.take (k * 1000) ∧
      indexBatches exWorld Add.wrap ((chunks exEntriesGone).take k) exIndexState.db =
        (none, dbk) :=
  ⟨rfl, by decide, by decide,
    (index_stop_keeps_committed_batches exWorld exEntriesGone exIndexState
      (Add.indexLoop exWorld exEntriesGone exIndexState).2
      "could not get file info on \x27/d/A/h\x27: no such file" rfl (by decide)).imp
      (fun _ h => h.imp (fun _ h2 => ⟨h2.1, h2.2.1, h2.2.2.1, h2.2.2.2.1⟩))⟩

/-! ## The progress channel -/

theorem Chan.onlySends_refl (c : Chan) : Chan.onlySends c c := ⟨rfl, List.prefix_refl _⟩

theorem Chan.onlySends_trans (a b c : Chan) (h1 : Chan.onlySends a b)
    (h2 : Chan.onlySends b c) : Chan.onlySends a c :=
  ⟨h2.1.trans h1.1, h1.2.trans h2.2⟩

theorem Run.report_onlySends (w : World) (r : Run) (prog : Progress) :
    Chan.onlySends r.progress (r.report w prog).progress := by
  unfold Run.report
  simp only
  split
  · exact ⟨rfl, List.prefix_append _ _⟩
  · exact Chan.onlySends_refl _

mutual
theorem walkDir_invariant {σ : Type}
    (fn : String → Option DirEntry → Option String → σ → Option filepath.WalkErr × σ)
    (I : σ → σ → Prop) (hrefl : ∀ s, I s s) (htrans : ∀ a b c, I a b → I b c → I a c)
    (hfn : ∀ path d err s, I s (fn path d err s).2) :
    ∀ (n : FSNode) (path : String) (s : σ), I s (filepath.walkDir fn path n s).2
  | .node d readErr children, path, s => by
    rw [filepath.walkDir]
    have h1 := hfn path (some d) none s
    cases hr1 : fn path (some d) none s with
    | mk e s1 =>
      rw [hr1] at h1
      cases e with
      | some e =>
        simp only
        split <;> exact h1
      | none =>
        simp only
        split
        · exact h1
        · cases readErr with
          | none =>
            simp only
            exact htrans _ _ _ h1 (walkDirs_invariant fn I hrefl htrans hfn children path s1)
          | some e =>
            simp only
            have h2 := hfn path (some d) (some e) s1
            cases hr2 : fn path (some d) (some e) s1 with
            | mk e2 s2 =>
              rw [hr2] at h2
              cases e2 with
              | some e2 =>
                simp only
                split <;> exact htrans _ _ _ h1 h2
              | none =>
                simp only
                exact htrans _ _ _ (htrans _ _ _ h1 h2)
                  (walkDirs_invariant fn I hrefl htrans hfn children path s2)
theorem walkDirs_invariant {σ : Type}
    (fn : String → Option DirEntry → Option String → σ → Option filepath.WalkErr × σ)
    (I : σ → σ → Prop) (hrefl : ∀ s, I s s) (htrans : ∀ a b c, I a b → I b c → I a c)
    (hfn : ∀ path d err s, I s (fn path d err s).2) :
    ∀ (cs : List FSNode) (path : String) (s : σ),
      I s (filepath.walkDir.walkDirs fn path cs s).2
  | [], path, s => by
    rw [filepath.walkDir.walkDirs]
    exact hrefl s
  | c :: cs, path, s => by
    rw [filepath.walkDir.walkDirs]
    have h1 := walkDir_invariant fn I hrefl htrans hfn c (filepath.Join path c.entry.Name) s
    cases hr : filepath.walkDir fn (filepath.Join path c.entry.Name) c s with
    | mk e s1 =>
      rw [hr] at h1
      cases e with
      | none =>
        simp only
        exact htrans _ _ _ h1 (walkDirs_invariant fn I hrefl htrans hfn cs path s1)
      | some e =>
        cases e <;> exact h1
end

theorem WalkDir_invariant {σ : Type}
    (fn : String → Option DirEntry → Option String → σ → Option filepath.WalkErr × σ)
    (I : σ → σ → Prop) (hrefl : ∀ s, I s s) (htrans : ∀ a b c, I a b → I b c → I a c)
    (hfn : ∀ path d err s, I s (fn path d err s).2)
    (lstat : Except String FSNode) (root : String) (s : σ) :
    I s (filepath.WalkDir lstat root fn s).2 := by
  unfold filepath.WalkDir
  have h1 : I s (match lstat with
      | .error e => fn root none (some e) s
      | .ok n => filepath.walkDir fn root n s).2 := by
    cases lstat with
    | error e => exact hfn root none (some e) s
    | ok n => exact walkDir_invariant fn I hrefl htrans hfn n root s
  simp only
  split <;> simp_all
theorem Add.walkFn_onlySends (w : World) (path : String) (d : Option DirEntry)
    (err : Option String) (s : Run × GoMap DirEntry × Progress) :
    Chan.onlySends s.1.progress (Add.walkFn w path d err s).2.1.progress := by
  have h := Run.report_onlySends w s.1 s.2.2
  unfold Add.walkFn
  simp only
  split
  · exact h
  · exact h
  · split
    · exact h
    · split <;> exact h
    · split <;> exact h

theorem add_indexLoop_onlySends (w : World) :
    ∀ (l : List (String × DirEntry)) (s : IndexState),
      Chan.onlySends s.run.progress (Add.indexLoop w l s).2.run.progress := by
  intro l
  induction l with
  | nil => intro s; exact Chan.onlySends_refl _
  | cons a l ih =>
    obtain ⟨p, d⟩ := a
    intro s
    have h := Run.report_onlySends w s.run s.prog
    rw [Add.indexLoop]
    simp only
    cases (if s.entriesInTx = 0 then s.db.BeginTx else (none, s.db)) with
    | mk e db1 =>
      cases e with
      | some e => exact h
      | none =>
        simp only
        cases indexFile w db1 p d with
        | mk e2 db2 =>
          cases e2 with
          | some e2 => exact h
          | none =>
            simp only
            split
            · cases db2.Commit with
              | mk e3 db3 =>
                cases e3 with
                | some e3 => exact h
                | none => exact Chan.onlySends_trans _ _ _ h (ih _)
            · exact Chan.onlySends_trans _ _ _ h (ih _)

theorem finishIndex_onlySends (s : IndexState) :
    Chan.onlySends s.run.progress (finishIndex s).2.2 := by
  unfold finishIndex
  cases (if s.entriesInTx > 0 then s.db.Commit else (none, s.db)) with
  | mk e db1 =>
    cases e with
    | some e => exact Chan.onlySends_refl _
    | none => exact ⟨rfl, List.prefix_append _ _⟩

theorem rescan_indexLoop_onlySends (w : World) :
    ∀ (l : List (String × DirEntry)) (s : IndexState),
      Chan.onlySends s.run.progress (Rescan.indexLoop w l s).2.run.progress := by
  intro l
  induction l with
  | nil => intro s; exact Chan.onlySends_refl _
  | cons a l ih =>
    obtain ⟨p, d⟩ := a
    intro s
    have h := Run.report_onlySends w s.run s.prog
    rw [Rescan.indexLoop]
    simp only
    cases (if s.entriesInTx = 0 then s.db.BeginTx else (none, s.db)) with
    | mk e db1 =>
      cases e with
      | some e => exact h
      | none =>
        simp only
        cases indexFile w db1 p d with
        | mk e2 db2 =>
          cases e2 with
          | some e2 => exact h
          | none =>
            simp only
            split
            · cases db2.Commit with
              | mk e3 db3 =>
                cases e3 with
                | some e3 => exact h
                | none => exact Chan.onlySends_trans _ _ _ h (ih _)
            · exact Chan.onlySends_trans _ _ _ h (ih _)

theorem add_body_onlySends (w : World) (path0 : String) (db : DB) (progress : Chan) :
    Chan.onlySends progress (Add.body w path0 db progress).2.2 := by
  unfold Add.body
  cases w.Abs path0 with
  | error e => exact Chan.onlySends_refl _
  | ok path =>
    simp only
    cases db.TrackPath w.Stat path with
    | mk e db1 =>
      cases e with
      | some e => exact Chan.onlySends_refl _
      | none =>
        simp only
        have hw := WalkDir_invariant (Add.walkFn w)
          (fun a b => Chan.onlySends a.1.progress b.1.progress)
          (fun _ => Chan.onlySends_refl _) (fun _ _ _ => Chan.onlySends_trans _ _ _)
          (Add.walkFn_onlySends w) (w.Lstat path) path
          (({ progress := progress } : Run), ([] : GoMap DirEntry), ({} : Progress))
        cases hwalk : filepath.WalkDir (w.Lstat path) path (Add.walkFn w)
            (({ progress := progress } : Run), ([] : GoMap DirEntry), ({} : Progress)) with
        | mk e s =>
          rw [hwalk] at hw
          cases e with
          | some e => exact hw
          | none =>
            simp only
            have hl := add_indexLoop_onlySends w s.2.1 { db := db1, run := s.1, prog := s.2.2 }
            cases hloop : Add.indexLoop w s.2.1 { db := db1, run := s.1, prog := s.2.2 } with
            | mk e st =>
              rw [hloop] at hl
              cases e with
              | some e => exact Chan.onlySends_trans _ _ _ hw hl
              | none =>
                exact Chan.onlySends_trans _ _ _ hw
                  (Chan.onlySends_trans _ _ _ hl (finishIndex_onlySends st))

theorem rescan_body_onlySends (w : World) (db : DB) (progress : Chan) :
    Chan.onlySends progress (Rescan.body w db progress).2.2 := by
  unfold Rescan.body
  cases db.TrackedPaths with
  | mk r db1 =>
    cases r with
    | error e => exact Chan.onlySends_refl _
    | ok paths =>
      simp only
      cases db1.BeginTx with
      | mk e db2 =>
        cases e with
        | some e => exact Chan.onlySends_refl _
        | none =>
          simp only
          cases Rescan.scanLoop w paths db2 [] with
          | mk e r3 =>
            obtain ⟨db3, toReindex⟩ := r3
            cases e with
            | some e => exact Chan.onlySends_refl _
            | none =>
              simp only
              cases db3.Commit with
              | mk e db4 =>
                cases e with
                | some e => exact Chan.onlySends_refl _
                | none =>
                  simp only
                  have hl := rescan_indexLoop_onlySends w toReindex
                    { db := db4, run := { progress := progress },
                      prog := { Total := toReindex.length } }
                  cases hloop : Rescan.indexLoop w toReindex
                      { db := db4, run := { progress := progress },
                        prog := { Total := toReindex.length } } with
                  | mk e st =>
                    rw [hloop] at hl
                    cases e with
                    | some e => exact hl
                    | none => exact Chan.onlySends_trans _ _ _ hl (finishIndex_onlySends st)

/-- Claim C20.  For every input of `Add` and of `Rescan`, whatever they
return: up to the deferred `close(progress)` the function only sends on the
channel (it does not close it, and what was sent before stays sent), and the
function returns right after closing it, with the error and the database of
its body; the snapshots received are those sent before the close.  For a
channel that is open at the call this is one close, after the last
snapshot. -/
theorem progress_closed_once (w : World) (path : String) (db : DB) (progress : Chan) :
    (Chan.onlySends progress (Add.body w path db progress).2.2 ∧
      Add w path db progress =
        ((Add.body w path db progress).1, (Add.body w path db progress).2.1,
          { (Add.body w path db progress).2.2 with closed := true })) ∧
    (Chan.onlySends progress (Rescan.body w db progress).2.2 ∧
      Rescan w db progress =
        ((Rescan.body w db progress).1, (Rescan.body w db progress).2.1,
          { (Rescan.body w db progress).2.2 with closed := true })) ∧
    (progress.closed = false →
      (Add.body w path db progress).2.2.closed = false ∧
      (Add w path db progress).2.2.closed = true ∧
      (Add w path db progress).2.2.sent = (Add.body w path db progress).2.2.sent ∧
      (Rescan.body w db progress).2.2.closed = false ∧
      (Rescan w db progress).2.2.closed = true ∧
      (Rescan w db progress).2.2.sent = (Rescan.body w db progress).2.2.sent) :=
  ⟨⟨add_body_onlySends w path db progress, rfl⟩,
    ⟨rescan_body_onlySends w db progress, rfl⟩,
    fun h => ⟨(add_body_onlySends w path db progress).1.trans h, rfl, rfl,
      (rescan_body_onlySends w db progress).1.trans h, rfl, rfl⟩⟩

/-- `Add` of `/d/A` in `exWorld` on an open channel: the first snapshot, the
final snapshot, then the close. -/
theorem progress_closed_once_witness :
    ({} : Chan).closed = false ∧
    (Add.body exWorld "/d/A" {} {}).2.2 =
      { sent := [{ Done := 0, Total := 0 }, { Done := 1, Total := 1 }], closed := false } ∧
    (Add exWorld "/d/A" {} {}).2.2 =
      { sent := [{ Done := 0, Total := 0 }, { Done := 1, Total := 1 }], closed := true } ∧
    (Rescan exWorld exTracked {}).2.2.closed = true ∧
    Chan.onlySends {} (Add.body exWorld "/d/A" {} {}).2.2 :=
  ⟨rfl, by decide, by decide, by decide, (progress_closed_once exWorld "/d/A" {} {}).1.1⟩

/-! ## Add on a root that is tracked -/

theorem DB.roots_faults (db : DB) (R : List String) (fs : List Bool) (h : db.roots R) :
    ({ db with faults := fs } : DB).roots R := h

theorem DB.BeginTx_roots (db : DB) (R : List String) (h : db.roots R) :
    db.BeginTx.2.roots R := by
  unfold DB.BeginTx
  split
  · exact h
  · obtain ⟨b, fs, hfs⟩ := DB.fails_spec db
    rw [hfs]
    cases b with
    | true => exact h
    | false =>
      refine ⟨h.1, ?_⟩
      intro t ht
      simp only [Option.some.injEq] at ht
      rw [← ht]
      exact h.1

theorem DB.Commit_roots (db : DB) (R : List String) (h : db.roots R) : db.Commit.2.roots R := by
  unfold DB.Commit
  cases ht : db.tx with
  | none => exact h
  | some t =>
    obtain ⟨b, fs, hfs⟩ := DB.fails_spec db
    simp only [hfs]
    cases b with
    | true => exact ⟨h.1, fun _ h2 => by cases h2⟩
    | false => exact ⟨h.2 t ht, fun _ h2 => by cases h2⟩

theorem DB.Rollback_roots (db : DB) (R : List String) (h : db.roots R) :
    db.Rollback.2.roots R := by
  unfold DB.Rollback
  cases ht : db.tx with
  | none => exact h
  | some t =>
    obtain ⟨b, fs, hfs⟩ := DB.fails_spec db
    simp only [hfs]
    cases b <;> exact ⟨h.1, fun _ h2 => by cases h2⟩

theorem DB.Exec_roots (db : DB) (R : List String) (stmt : Tables → Option Tables)
    (msg : String) (hstmt : ∀ t t1, stmt t = some t1 → t1.tracked_path = t.tracked_path)
    (h : db.roots R) : (db.Exec stmt msg).2.roots R := by
  cases ht : db.tx with
  | none =>
    unfold DB.Exec
    simp only [ht]
    exact h
  | some t =>
    obtain ⟨b, fs, hfs⟩ := DB.fails_spec db
    have h2 : db.fails.2 = { db with faults := fs } := by rw [hfs]
    rcases DB.Exec_cases db t stmt msg ht with he | ⟨t1, hs, he⟩
    · rw [he, h2]
      exact h
    · rw [he, h2]
      refine ⟨h.1, ?_⟩
      intro t2 ht2
      simp only [Option.some.injEq] at ht2
      rw [← ht2, hstmt t t1 hs]
      exact h.2 t ht

theorem DB.addFile_roots (db : DB) (R : List String) (file : File) (h : db.roots R) :
    (db.addFile file).2.roots R := by
  cases ht : db.tx with
  | none =>
    unfold DB.addFile
    simp only [ht]
    exact h
  | some t =>
    obtain ⟨b, fs, hfs⟩ := DB.fails_spec db
    have h2 : db.fails.2 = { db with faults := fs } := by rw [hfs]
    rcases DB.addFile_cases db t file ht with ⟨_, ha⟩ | ⟨_, _, ha⟩ | ⟨_, _, ha⟩
    · rw [ha, h2]
      exact h
    · rw [ha, h2]
      exact h
    · rw [ha, h2]
      refine ⟨h.1, ?_⟩
      intro t2 ht2
      simp only [Option.some.injEq] at ht2
      rw [← ht2]
      exact h.2 t ht

theorem AddCall.run_roots (c : AddCall) (db : DB) (R : List String) (h : db.roots R) :
    (c.run db).2.roots R := by
  have h1 := fun file => DB.addFile_roots db R file h
  cases c with
  | AddFile file =>
    simp only [AddCall.run, DB.AddFile]
    have := h1 file
    split <;> simp_all
  | AddPicture pic =>
    simp only [AddCall.run, DB.AddPicture]
    have := h1 pic.File
    split
    · simp_all
    · simp_all
    · rename_i id db1 heq
      rw [heq] at this
      refine DB.Exec_roots db1 R _ _ ?_ this
      intro t t1 hs
      unfold insertPicture at hs
      split at hs
      · cases hs
      · cases hs; rfl
  | AddVideo vid =>
    simp only [AddCall.run, DB.AddVideo]
    have := h1 vid.File
    split
    · simp_all
    · simp_all
    · rename_i id db1 heq
      rw [heq] at this
      refine DB.Exec_roots db1 R _ _ ?_ this
      intro t t1 hs
      unfold insertVideo at hs
      split at hs
      · cases hs
      · cases hs; rfl
  | AddAudio audio =>
    simp only [AddCall.run, DB.AddAudio]
    have := h1 audio.File
    split
    · simp_all
    · simp_all
    · rename_i id db1 heq
      rw [heq] at this
      refine DB.Exec_roots db1 R _ _ ?_ this
      intro t t1 hs
      unfold insertAudio at hs
      split at hs
      · cases hs
      · cases hs; rfl
  | AddDocument doc =>
    simp only [AddCall.run, DB.AddDocument]
    have := h1 doc.File
    split
    · simp_all
    · simp_all
    · rename_i id db1 heq
      rw [heq] at this
      refine DB.Exec_roots db1 R _ _ ?_ this
      intro t t1 hs
      unfold insertDocument at hs
      split at hs
      · cases hs
      · cases hs; rfl
theorem add_roots (db : DB) (R : List String) (a : addition) (h : db.roots R) :
    (addFile a db).2.roots R ∧ (addPicture a db).2.roots R ∧ (addVideo a db).2.roots R ∧
      (addAudio a db).2.roots R ∧ (addDocument a db).2.roots R := by
  unfold addFile addPicture addVideo addAudio addDocument
  cases toFile a with
  | error e => exact ⟨h, h, h, h, h⟩
  | ok f =>
    exact ⟨AddCall.run_roots (.AddFile f) db R h, AddCall.run_roots (.AddPicture _) db R h,
      AddCall.run_roots (.AddVideo _) db R h, AddCall.run_roots (.AddAudio _) db R h,
      AddCall.run_roots (.AddDocument _) db R h⟩

theorem dispatch_roots (db : DB) (R : List String) (cat : Category) (a : addition)
    (path : String) (h : db.roots R) :
    (if cat = Category.Other then wrapErr "could not add other file" path (addFile a db)
      else if cat = Category.Picture then wrapErr "could not add picture" path (addPicture a db)
      else if cat = Category.Video ∧ a.mediainfo.Typ ≠ mediainfo.InfoType.TypeAudio then
        wrapErr "could not add video" path (addVideo a db)
      else if (cat = Category.Video ∧ a.mediainfo.Typ = mediainfo.InfoType.TypeAudio) ∨
          cat = Category.Audio then
        wrapErr "could not add audio" path (addAudio a db)
      else if cat = Category.Document then
        wrapErr "could not add document" path (addDocument a db)
      else (none, db)).2.roots R := by
  obtain ⟨h1, h2, h3, h4, h5⟩ := add_roots db R a h
  split_ifs
  · rw [wrapErr_db]; exact h1
  · rw [wrapErr_db]; exact h2
  · rw [wrapErr_db]; exact h3
  · rw [wrapErr_db]; exact h4
  · rw [wrapErr_db]; exact h5
  · exact h

theorem indexFile_roots (w : World) (db : DB) (path : String) (d : DirEntry) (R : List String)
    (h : db.roots R) : (indexFile w db path d).2.roots R := by
  unfold indexFile
  cases d.Info with
  | error e => exact h
  | ok i =>
    cases determineMIME w path with
    | error e => exact h
    | ok m => exact dispatch_roots db R _ _ path h

theorem indexAll_roots (w : World) (wrap : String → String → String) (R : List String) :
    ∀ (c : List (String × DirEntry)) (db : DB), db.roots R → (indexAll w wrap c db).2.roots R := by
  intro c
  induction c with
  | nil => intro db h; exact h
  | cons a c ih =>
    obtain ⟨path, d⟩ := a
    intro db h
    have h1 := indexFile_roots w db path d R h
    rw [indexAll]
    cases hr : indexFile w db path d with
    | mk e db1 =>
      rw [hr] at h1
      cases e with
      | some e => exact h1
      | none => exact ih db1 h1

theorem indexBatch_roots (w : World) (wrap : String → String → String) (R : List String)
    (c : List (String × DirEntry)) (db : DB) (h : db.roots R) :
    (indexBatch w wrap c db).2.roots R := by
  have h1 := DB.BeginTx_roots db R h
  unfold indexBatch
  cases hb : db.BeginTx with
  | mk e db1 =>
    rw [hb] at h1
    cases e with
    | some e => exact h1
    | none =>
      simp only
      have h2 := indexAll_roots w wrap R c db1 h1
      unfold finishBatch
      cases hi : indexAll w wrap c db1 with
      | mk e2 db2 =>
        rw [hi] at h2
        cases e2 with
        | some e2 => exact DB.Rollback_roots db2 R h2
        | none =>
          simp only
          have h3 := DB.Commit_roots db2 R h2
          cases hc : db2.Commit with
          | mk e3 db3 =>
            rw [hc] at h3
            cases e3 <;> exact h3

theorem indexBatches_roots (w : World) (wrap : String → String → String) (R : List String) :
    ∀ (cs : List (List (String × DirEntry))) (db : DB), db.roots R →
      (indexBatches w wrap cs db).2.roots R := by
  intro cs
  induction cs with
  | nil => intro db h; exact h
  | cons c cs ih =>
    intro db h
    have h1 := indexBatch_roots w wrap R c db h
    rw [indexBatches]
    cases hb : indexBatch w wrap c db with
    | mk e db1 =>
      rw [hb] at h1
      cases e with
      | some e => exact h1
      | none => exact ih db1 h1

theorem indexBatches_wf (w : World) (wrap : String → String → String)
    (cs : List (List (String × DirEntry))) (db : DB) (h : db.d.wf) :
    (indexBatches w wrap cs db).2.d.wf := by
  cases hr : indexBatches w wrap cs db with
  | mk e db1 =>
    cases e with
    | none => exact (indexBatches_ok w wrap cs db db1 hr).1 h
    | some e =>
      obtain ⟨k, dbk, _, hpre, _, hd⟩ := indexBatches_stop w wrap cs db db1 e hr
      have := (indexBatches_ok w wrap _ db dbk hpre).1 h
      simp only
      rw [hd]
      exact this

theorem trackConflict_mem (path : String) (l : List String) (h : path ∈ l) :
    ∃ e, trackConflict path l = some e := by
  cases hc : trackConflict path l with
  | some e => exact ⟨e, rfl⟩
  | none => exact absurd rfl (trackConflict_none path l hc path h).1

theorem trackConflict_tracked (path : String) :
    ∀ l : List String, path ∈ l →
      l.Pairwise (fun a b => hasPrefix a b = false ∧ hasPrefix b a = false) →
      trackConflict path l = some "path is already tracked" := by
  intro l
  induction l with
  | nil => intro h; cases h
  | cons a l ih =>
    intro h hp
    rw [trackConflict]
    by_cases ha : a = path
    · rw [if_pos ha]
    · rw [if_neg ha]
      have hmem : path ∈ l := by
        rcases List.mem_cons.1 h with h1 | h1
        · exact absurd h1.symm ha
        · exact h1
      obtain ⟨h1, h2⟩ := List.pairwise_cons.1 hp
      obtain ⟨h3, h4⟩ := h1 path hmem
      simp only [h3, h4, Bool.false_eq_true, if_false]
      exact ih hmem h2

/-- `TrackPath` of a path that is tracked returns an error and changes
nothing; when the path exists, storage does not fail and the tracked paths
do not overlap, the error is `path is already tracked`. -/
theorem DB.TrackPath_again (db : DB) (stat : String → Option String) (path : String)
    (h : trimSeparator path ∈ db.d.tracked_path) :
    (∃ e fs, db.TrackPath stat path = (some e, { db with faults := fs })) ∧
    (stat (trimSeparator path) = none → db.faults = [] →
      db.d.tracked_path.Pairwise (fun a b => hasPrefix a b = false ∧ hasPrefix b a = false) →
      db.TrackPath stat path = (some "path is already tracked", db)) := by
  constructor
  · unfold DB.TrackPath
    simp only
    cases stat (trimSeparator path) with
    | some e => exact ⟨_, db.faults, rfl⟩
    | none =>
      simp only
      obtain ⟨b, fs, hfs⟩ := DB.fails_spec db
      rw [hfs]
      cases b with
      | true => exact ⟨_, fs, rfl⟩
      | false =>
        simp only
        obtain ⟨b2, fs2, hfs2⟩ := DB.fails_spec ({ db with faults := fs } : DB)
        rw [hfs2]
        cases b2 with
        | true => exact ⟨_, fs2, rfl⟩
        | false =>
          simp only
          obtain ⟨e, he⟩ := trackConflict_mem _ _ h
          rw [he]
          exact ⟨e, fs2, rfl⟩
  · intro hs hf hp
    unfold DB.TrackPath
    simp only [hs, DB.fails, hf, trackConflict_tracked _ _ h hp]
theorem DB.TrackPath_ok (db db1 : DB) (stat : String → Option String) (path : String)
    (h : db.TrackPath stat path = (none, db1)) :
    db1.d.tracked_path = db.d.tracked_path ++ [trimSeparator path] := by
  unfold DB.TrackPath at h
  simp only at h
  cases hs : stat (trimSeparator path) with
  | some e => simp [hs] at h
  | none =>
    simp only [hs] at h
    obtain ⟨b1, f1, h1⟩ := DB.fails_spec db
    simp only [h1] at h
    cases b1 with
    | true => simp at h
    | false =>
      obtain ⟨b2, f2, h2⟩ := DB.fails_spec ({ db with faults := f1 } : DB)
      simp only [h2] at h
      cases b2 with
      | true => simp at h
      | false =>
        simp only at h
        cases hc : trackConflict (trimSeparator path) db.d.tracked_path with
        | some e => simp [hc] at h
        | none =>
          simp only [hc] at h
          obtain ⟨b3, f3, h3⟩ := DB.fails_spec ({ db with faults := f2 } : DB)
          simp only [h3] at h
          cases b3 with
          | true => simp at h
          | false =>
            obtain ⟨b4, f4, h4⟩ := DB.fails_spec ({ db with faults := f3 } : DB)
            simp only [h4] at h
            cases b4 with
            | true => simp at h
            | false =>
              simp only [Prod.mk.injEq, true_and] at h
              rw [← h]

theorem Add_of_tracked (w : World) (path0 path : String) (db : DB) (progress : Chan)
    (habs : w.Abs path0 = .ok path) (h : trimSeparator path ∈ db.d.tracked_path) :
    (∃ e fs, Add w path0 db progress =
      (some ("could not track path \x27" ++ path ++ "\x27: " ++ e), { db with faults := fs },
        { progress with closed := true })) ∧
    (w.Stat (trimSeparator path) = none → db.faults = [] →
      db.d.tracked_path.Pairwise (fun a b => hasPrefix a b = false ∧ hasPrefix b a = false) →
      Add w path0 db progress =
        (some ("could not track path \x27" ++ path ++ "\x27: " ++ "path is already tracked"), db,
          { progress with closed := true })) := by
  obtain ⟨⟨e, fs, h1⟩, h2⟩ := DB.TrackPath_again db w.Stat path h
  constructor
  · refine ⟨e, fs, ?_⟩
    simp only [Add, Add.body, habs, h1]
  · intro hs hf hp
    simp only [Add, Add.body, habs, h2 hs hf hp]

/-- C13 (counterexample).  In `exWorld` the first `Add` of `/d/A` commits
its batch, the entry `/d/A/f`; a run cut off from there on (it still has its
last snapshot to send) leaves this database file, and `Add` of `/d/A` on it
returns an error and changes nothing.  In `exGoneWorld` the first `Add` of
`/d/A` is interrupted by the error of `indexFile` on `/d/A/h`; the root
stays tracked and no entry is catalogued.  `Add` of `/d/A` again, when the
directory holds the file `f` only, returns an error and catalogues nothing,
although the walk would find `/d/A/f`. -/
theorem Add_again_returns_error :
    (Add.body exWorld "/d/A" {} {}).2.1.d.tracked_path = ["/d/A"] ∧
    (Add.body exWorld "/d/A" {} {}).2.1.d.file.map (fun r => r.path) = ["/d/A/f"] ∧
    Add exWorld "/d/A" { d := (Add.body exWorld "/d/A" {} {}).2.1.d } {} =
      (some "could not track path \x27/d/A\x27: path is already tracked",
        { d := (Add.body exWorld "/d/A" {} {}).2.1.d }, { closed := true }) ∧
    (Add exGoneWorld "/d/A" {} {}).1 = some "could not get file info on \x27/d/A/h\x27: gone" ∧
    (Add exGoneWorld "/d/A" {} {}).2.1.d.tracked_path = ["/d/A"] ∧
    (Add exGoneWorld "/d/A" {} {}).2.1.d.file = [] ∧
    Add exWorld "/d/A" (Add exGoneWorld "/d/A" {} {}).2.1 {} =
      (some "could not track path \x27/d/A\x27: path is already tracked",
        (Add exGoneWorld "/d/A" {} {}).2.1, { closed := true }) ∧
    collectedFiles "/d/A" (exDir "A") = [("/d/A/f", exFile "f" 1 100 0)] := by
  decide

/-- Claim C13, amended.  Let a first `Add` have tracked the root (its
`TrackPath` returned nil) and let its index loop have run some of its
batches over the walked entries `l`, the last of them possibly failing, so
that the database file is the one `k` batches left.  Then the root is
tracked in that file and the invariants of the catalogue hold in it; `Add`
of the same root on it, in any state `w2` of the filesystem, returns an
error of `TrackPath`, closes the channel without sending and leaves the
database file and the transaction as they were; when the root exists,
storage does not fail and the tracked paths did not overlap, the error is
`path is already tracked`. -/
theorem Add_again_after_interrupted_Add (w w2 : World) (path0 path : String)
    (db0 db1 db2 : DB) (l : List (String × DirEntry)) (k : Nat) (progress : Chan)
    (htrack : db0.TrackPath w.Stat path = (none, db1)) (htx : db1.tx = none)
    (hd : db2.d = (indexBatches w Add.wrap ((chunks l).take k) db1).2.d)
    (habs2 : w2.Abs path0 = .ok path) :
    trimSeparator path ∈ db2.d.tracked_path ∧
    (db1.d.wf → db2.d.wf) ∧
    (∃ e fs, Add w2 path0 db2 progress =
      (some ("could not track path \x27" ++ path ++ "\x27: " ++ e), { db2 with faults := fs },
        { progress with closed := true })) ∧
    (w2.Stat (trimSeparator path) = none → db2.faults = [] →
      db0.d.tracked_path.Pairwise
        (fun a b => a ≠ b ∧ hasPrefix a b = false ∧ hasPrefix b a = false) →
      Add w2 path0 db2 progress =
        (some ("could not track path \x27" ++ path ++ "\x27: " ++ "path is already tracked"),
          db2, { progress with closed := true })) := by
  have h1 := DB.TrackPath_ok db0 db1 w.Stat path htrack
  have hroots : db1.roots db1.d.tracked_path :=
    ⟨rfl, fun t ht => by rw [htx] at ht; cases ht⟩
  have h2 := (indexBatches_roots w Add.wrap _ ((chunks l).take k) db1 hroots).1
  rw [← hd] at h2
  have hmem : trimSeparator path ∈ db2.d.tracked_path := by
    rw [h2, h1]
    exact List.mem_append_right _ (List.mem_singleton_self _)
  obtain ⟨h3, h4⟩ := Add_of_tracked w2 path0 path db2 progress habs2 hmem
  refine ⟨hmem, ?_, h3, ?_⟩
  · intro hw
    rw [hd]
    exact indexBatches_wf w Add.wrap _ db1 hw
  · intro hs hf hp
    refine h4 hs hf ?_
    have hstep := tracked_invariant_step db0 (ConfigCall.TrackPath w.Stat path) hp
    simp only [ConfigCall.run, htrack] at hstep
    rw [h2]
    exact hstep.imp (fun h => h.2)

/-- The run of `exGoneWorld` that stops at `/d/A/h`, then `Add` of `/d/A`
again in `exWorld`. -/
theorem Add_again_after_interrupted_Add_witness :
    (({} : DB).TrackPath exGoneWorld.Stat "/d/A").1 = none ∧
    (({} : DB).TrackPath exGoneWorld.Stat "/d/A").2.tx = none ∧
    "/d/A" ∈ (Add exGoneWorld "/d/A" {} {}).2.1.d.tracked_path ∧
    ∃ e fs, Add exWorld "/d/A" (Add exGoneWorld "/d/A" {} {}).2.1 {} =
      (some ("could not track path \x27" ++ "/d/A" ++ "\x27: " ++ e),
        { (Add exGoneWorld "/d/A" {} {}).2.1 with faults := fs },
        { ({} : Chan) with closed := true }) :=
  ⟨by decide, by decide, by decide,
    (Add_again_after_interrupted_Add exGoneWorld exWorld "/d/A" "/d/A" {}
      (({} : DB).TrackPath exGoneWorld.Stat "/d/A").2 (Add exGoneWorld "/d/A" {} {}).2.1
      (collectedFiles "/d/A" exGoneDir) 1 {} (by decide) (by decide) (by decide) rfl).2.2.1⟩

/-! ## Errors of TrackPath and UntrackPath -/

theorem DB.TrackPath_error (db : DB) (stat : String → Option String) (path : String) :
    (db.TrackPath stat path).1 = none ∨
      ∃ fs, (db.TrackPath stat path).2 = { db with faults := fs } := by
  unfold DB.TrackPath
  simp only
  cases stat (trimSeparator path) with
  | some e => exact Or.inr ⟨db.faults, rfl⟩
  | none =>
    simp only
    obtain ⟨b1, f1, h1⟩ := DB.fails_spec db
    simp only [h1]
    cases b1 with
    | true => exact Or.inr ⟨f1, rfl⟩
    | false =>
      obtain ⟨b2, f2, h2⟩ := DB.fails_spec ({ db with faults := f1 } : DB)
      simp only [h2]
      cases b2 with
      | true => exact Or.inr ⟨f2, rfl⟩
      | false =>
        simp only
        cases trackConflict (trimSeparator path) db.d.tracked_path with
        | some e => exact Or.inr ⟨f2, rfl⟩
        | none =>
          simp only
          obtain ⟨b3, f3, h3⟩ := DB.fails_spec ({ db with faults := f2 } : DB)
          simp only [h3]
          cases b3 with
          | true => exact Or.inr ⟨f3, rfl⟩
          | false =>
            obtain ⟨b4, f4, h4⟩ := DB.fails_spec ({ db with faults := f3 } : DB)
            simp only [h4]
            cases b4 with
            | true => exact Or.inr ⟨f4, rfl⟩
            | false => exact Or.inl rfl

theorem DB.UntrackPath_error (db : DB) (path : String) :
    (db.UntrackPath path).1 = none ∨
      ∃ fs, (db.UntrackPath path).2 = { db with faults := fs } := by
  unfold DB.UntrackPath
  obtain ⟨b1, f1, h1⟩ := DB.fails_spec db
  simp only [h1]
  cases b1 with
  | true => exact Or.inr ⟨f1, rfl⟩
  | false =>
    obtain ⟨b2, f2, h2⟩ := DB.fails_spec ({ db with faults := f1 } : DB)
    simp only [h2]
    cases b2 with
    | true => exact Or.inr ⟨f2, rfl⟩
    | false =>
      simp only
      split
      · exact Or.inr ⟨f2, rfl⟩
      · obtain ⟨b3, f3, h3⟩ := DB.fails_spec ({ db with faults := f2 } : DB)
        simp only [h3]
        cases b3 with
        | true => exact Or.inr ⟨f3, rfl⟩
        | false =>
          obtain ⟨b4, f4, h4⟩ := DB.fails_spec ({ db with faults := f3 } : DB)
          simp only [h4]
          cases b4 with
          | true => exact Or.inr ⟨f4, rfl⟩
          | false =>
            obtain ⟨b5, f5, h5⟩ := DB.fails_spec ({ db with faults := f4 } : DB)
            simp only [h5]
            cases b5 with
            | true => exact Or.inr ⟨f5, rfl⟩
            | false => exact Or.inl rfl

/-- Claim C24.  Whenever `TrackPath` or `UntrackPath` returns an error, be it
for a path that does not exist, a path that equals or overlaps a tracked one,
a path that is not tracked (or tracked more than once), or a failure of the
storage engine at any step, the database file is what it was before the
call: the tracked paths, the file entries and all extension rows; an open
transaction and the lock are untouched as well. -/
theorem config_error_changes_nothing (db : DB) (stat : String → Option String) (path : String) :
    ((db.TrackPath stat path).1 ≠ none →
      (db.TrackPath stat path).2.d = db.d ∧ (db.TrackPath stat path).2.tx = db.tx ∧
      (db.TrackPath stat path).2.txLock = db.txLock) ∧
    ((db.UntrackPath path).1 ≠ none →
      (db.UntrackPath path).2.d = db.d ∧ (db.UntrackPath path).2.tx = db.tx ∧
      (db.UntrackPath path).2.txLock = db.txLock) ∧
    (stat (trimSeparator path) ≠ none → (db.TrackPath stat path).1 ≠ none) ∧
    (trimSeparator path ∈ db.d.tracked_path → (db.TrackPath stat path).1 ≠ none) ∧
    (path ∉ db.d.tracked_path → (db.UntrackPath path).1 ≠ none) := by
  refine ⟨?_, ?_, ?_, ?_, ?_⟩
  · intro h
    rcases DB.TrackPath_error db stat path with h1 | ⟨fs, h1⟩
    · exact absurd h1 h
    · rw [h1]
      exact ⟨rfl, rfl, rfl⟩
  · intro h
    rcases DB.UntrackPath_error db path with h1 | ⟨fs, h1⟩
    · exact absurd h1 h
    · rw [h1]
      exact ⟨rfl, rfl, rfl⟩
  · intro h
    unfold DB.TrackPath
    simp only
    cases hs : stat (trimSeparator path) with
    | none => exact absurd hs h
    | some e => simp
  · intro h
    obtain ⟨⟨e, fs, h1⟩, _⟩ := DB.TrackPath_again db stat path h
    rw [h1]
    simp
  · intro h
    unfold DB.UntrackPath
    obtain ⟨b1, f1, h1⟩ := DB.fails_spec db
    simp only [h1]
    cases b1 with
    | true => simp
    | false =>
      obtain ⟨b2, f2, h2⟩ := DB.fails_spec ({ db with faults := f1 } : DB)
      simp only [h2]
      cases b2 with
      | true => simp
      | false =>
        simp only
        rw [if_pos (by rw [List.count_eq_zero_of_not_mem h]; decide)]
        simp

/-- On `exTracked`: tracking a path that does not exist, tracking `/d/A/x`
below the tracked `/d/A` and untracking `/d/b`, which is not tracked, each
return an error and leave the database as it was. -/
theorem config_error_changes_nothing_witness :
    exTracked.TrackPath (fun _ => some "no such file or directory") "/d/new" =
      (some "could not find info: no such file or directory", exTracked) ∧
    exTracked.TrackPath (fun _ => none) "/d/A/x" =
      (some "path is already contained in tracked path \x27/d/A\x27", exTracked) ∧
    exTracked.UntrackPath "/d/b" = (some "untracked 0 instead of 1 paths", exTracked) ∧
    (exTracked.UntrackPath "/d/b").2.d = exTracked.d :=
  ⟨by decide, by decide, by decide,
    ((config_error_changes_nothing exTracked (fun _ => none) "/d/b").2.1 (by decide)).1⟩

/-! ## The OpenDocument presentation type and the registry branch -/

/-- C25 (the code at the failing input): for a file `/r/talk.odp` sniffed
as `application/zip`, `determineMIME` returns the presentation type followed
by a space; and `MIMEToCategory` maps the presentation type itself, which is
what `determineMIME` returns for an empty `/r/talk.odp` when the extension
registry knows `.odp`, to `Other`: only the string with the trailing space is
in its document list. -/
theorem determineMIME_odp_trailing_space :
    determineMIME exZipWorld "/r/talk.odp" =
      .ok "application/vnd.oasis.opendocument.presentation " ∧
    determineMIME exZipWorld "/r/talk.odp" ≠
      .ok "application/vnd.oasis.opendocument.presentation" ∧
    MIMEToCategory "application/vnd.oasis.opendocument.presentation" = Category.Other ∧
    MIMEToCategory "application/vnd.oasis.opendocument.presentation " = Category.Document ∧
    determineMIME
        { exWorld with
          Open := fun _ => .ok [],
          TypeByExtension := fun ext =>
            if ext = ".odp" then "application/vnd.oasis.opendocument.presentation" else "" }
        "/r/talk.odp" =
      .ok "application/vnd.oasis.opendocument.presentation" := by
  decide

/-- Claim C26.  For a file that opens with the bytes `data`, let the sniffed
type be the parameter-stripped result of `DetectContentType`.  When no byte
was read or the sniffed type is `application/octet-stream`, the result is
the parameter-stripped type of the extension registry if the registry knows
the extension and the sniffed type if it does not, whatever the SVG override
or the zip table would give.  For every other sniffed type the result is
`image/svg+xml` when the sniffed type is `text/plain` or `text/xml` and the
registry says `image/svg+xml`, and otherwise the entry of the zip table for
a sniffed `application/zip` and the sniffed type for the rest: the registry
enters through the SVG override only. -/
theorem determineMIME_registry_branch (w : World) (path : String) (data : List Nat)
    (hopen : w.Open path = .ok data) :
    ((data.length = 0 ∨ stripParams (w.DetectContentType data) = "application/octet-stream") →
      (w.TypeByExtension (filepath.Ext path) ≠ "" →
        determineMIME w path = .ok (stripParams (w.TypeByExtension (filepath.Ext path)))) ∧
      (w.TypeByExtension (filepath.Ext path) = "" →
        determineMIME w path = .ok (stripParams (w.DetectContentType data)))) ∧
    (¬(data.length = 0 ∨
        stripParams (w.DetectContentType data) = "application/octet-stream") →
      (((stripParams (w.DetectContentType data) = "text/plain" ∨
          stripParams (w.DetectContentType data) = "text/xml") ∧
          w.TypeByExtension (filepath.Ext path) = "image/svg+xml") →
        determineMIME w path = .ok "image/svg+xml") ∧
      (¬((stripParams (w.DetectContentType data) = "text/plain" ∨
          stripParams (w.DetectContentType data) = "text/xml") ∧
          w.TypeByExtension (filepath.Ext path) = "image/svg+xml") →
        determineMIME w path =
          .ok (if stripParams (w.DetectContentType data) = "application/zip"
               then zipMIME (filepath.Ext path)
               else stripParams (w.DetectContentType data)))) := by
  unfold determineMIME
  simp only [hopen]
  refine ⟨fun h => ?_, fun h => ?_⟩
  · rw [if_pos h]
    exact ⟨fun h2 => by rw [if_pos h2], fun h2 => by rw [if_neg (not_not.2 h2)]⟩
  · rw [if_neg h]
    refine ⟨fun h2 => by rw [if_pos h2], fun h2 => ?_⟩
    rw [if_neg h2]
    split <;> rfl

/-- An empty file `/r/a.svg` with a registry that knows `.svg` gets the
registry type without its parameter; an empty file `/r/a.odt` with a
registry that does not know `.odt` keeps the sniffed `text/plain`. -/
theorem determineMIME_registry_branch_witness :
    determineMIME
        { exWorld with
          Open := fun _ => .ok [],
          TypeByExtension := fun ext =>
            if ext = ".svg" then "image/svg+xml; charset=utf-8" else "" }
        "/r/a.svg" = .ok "image/svg+xml" ∧
    determineMIME { exWorld with Open := fun _ => .ok [] } "/r/a.odt" = .ok "text/plain" ∧
    (("" : String) = "" →
      determineMIME { exWorld with Open := fun _ => .ok [] } "/r/a.odt" =
        .ok (stripParams (World.DetectContentType { exWorld with Open := fun _ => .ok [] } []))) :=
  ⟨by decide, by decide,
    ((determineMIME_registry_branch { exWorld with Open := fun _ => .ok [] } "/r/a.odt" [] rfl).1
      (Or.inl rfl)).2⟩

/-! ## The creation-time filter -/

/-- C23 (the code at the failing input): for `-c 2020` with local time UTC,
`createFilter` sets `CreatedSince` to 31 December 2019, 00:00:00 (Unix
1577750400) and `CreatedUntil` to the last nanosecond of 30 December 2020
(Unix second 1609372799), while 1 January 2020, 00:00:00 is 1577836800 and
the last second of 31 December 2020 is 1609459199.  So a file created at
noon of 31 December 2019 passes the filter and a file created at noon of
31 December 2020 does not. -/
theorem createFilter_year_off_by_one_day :
    (createFilter exUTC (some 2020) (some 2020)).CreatedSince.map Time.Unix = some 1577750400 ∧
    (createFilter exUTC (some 2020) (some 2020)).CreatedUntil.map Time.Unix = some 1609372799 ∧
    (createFilter exUTC (some 2020) (some 2020)).CreatedUntil.map Time.nsec = some 999999999 ∧
    (time.Date exUTC 2020 1 1 0 0 0 0 Location.Local).Unix = 1577836800 ∧
    (time.Date exUTC 2020 12 31 23 59 59 999999999 Location.Local).Unix = 1609459199 ∧
    (time.Date exUTC 2019 12 31 12 0 0 0 Location.Local).Unix = 1577793600 ∧
    (time.Date exUTC 2020 12 31 12 0 0 0 Location.Local).Unix = 1609416000 ∧
    addFileFilters (createFilter exUTC (some 2020) (some 2020)) (exRow 1577793600) = true ∧
    addFileFilters (createFilter exUTC (some 2020) (some 2020)) (exRow 1609416000) = false := by
  decide

/-! ## The snapshots of a run -/

theorem Run.report_eq (w : World) (r : Run) (p : Progress) :
    r.report w p =
      if r.due w then
        { progress := { r.progress with sent := r.progress.sent ++ [p] },
          tick := r.tick + 2,
          lastProgressUpdate := some (w.Now (r.tick + 1)) }
      else { r with tick := r.tick + 1 } := by
  unfold Run.report Run.due
  cases h : r.lastProgressUpdate with
  | none =>
    simp only
    rw [if_pos (by decide)]
    rfl
  | some t =>
    simp only
    by_cases hc : w.Now r.tick - t ≥ time.Second
    · rw [if_pos hc]
      simp [hc]
    · rw [if_neg hc]
      simp [hc]

theorem Run.reports_append (w : World) (r : Run) (a b : List Progress) :
    Run.reports w r (a ++ b) = Run.reports w (Run.reports w r a) b := by
  unfold Run.reports
  rw [List.foldl_append]

/-- What the throttle has put on the channel after the snapshots `offers`:
the snapshots of `Run.sends`, in order; it never closes the channel. -/
theorem Run.reports_sent (w : World) :
    ∀ (offers : List Progress) (r : Run),
      (Run.reports w r offers).progress =
        { r.progress with
          sent := r.progress.sent ++ (Run.sends w offers r).map (fun x => x.2) } := by
  intro offers
  induction offers with
  | nil => intro r; simp [Run.reports, Run.sends]
  | cons p ps ih =>
    intro r
    have hstep : Run.reports w r (p :: ps) = Run.reports w (r.report w p) ps := rfl
    rw [hstep, ih, Run.sends]
    rw [Run.report_eq]
    by_cases hd : r.due w = true
    · simp [hd]
    · simp [hd]

theorem Run.sends_sublist (w : World) :
    ∀ (offers : List Progress) (r : Run),
      ((Run.sends w offers r).map (fun x => x.2)).Sublist offers := by
  intro offers
  induction offers with
  | nil => intro r; simp [Run.sends]
  | cons p ps ih =>
    intro r
    rw [Run.sends]
    split
    · exact (ih _).cons₂ p
    · exact (ih _).cons p

/-- The spacing of the throttle: a snapshot is sent only when the reading
taken for it is at least a second after `lastProgressUpdate`, which is the
reading taken right after the snapshot sent before it. -/
theorem Run.sends_spaced (w : World) :
    ∀ (offers : List Progress) (r : Run),
      (Run.sends w offers r).Chain'
        (fun a b => a.1 + 2 ≤ b.1 ∧ w.Now (a.1 + 1) + time.Second ≤ w.Now b.1) ∧
      ∀ a ∈ (Run.sends w offers r).head?,
        r.tick ≤ a.1 ∧ ∀ t, r.lastProgressUpdate = some t → t + time.Second ≤ w.Now a.1 := by
  intro offers
  induction offers with
  | nil => intro r; simp [Run.sends]
  | cons p ps ih =>
    intro r
    obtain ⟨h1, h2⟩ := ih (r.report w p)
    rw [Run.sends]
    by_cases hd : r.due w = true
    · rw [if_pos hd]
      have hrep : r.report w p =
          { progress := { r.progress with sent := r.progress.sent ++ [p] },
            tick := r.tick + 2,
            lastProgressUpdate := some (w.Now (r.tick + 1)) } := by
        rw [Run.report_eq, if_pos hd]
      refine ⟨?_, ?_⟩
      · rw [List.chain'_cons']
        refine ⟨?_, h1⟩
        intro b hb
        obtain ⟨h3, h4⟩ := h2 b hb
        rw [hrep] at h3 h4
        exact ⟨h3, h4 _ rfl⟩
      · intro a ha
        simp only [List.head?_cons, Option.mem_def, Option.some.injEq] at ha
        subst ha
        refine ⟨Nat.le_refl _, ?_⟩
        intro t ht
        unfold Run.due at hd
        rw [ht] at hd
        simp only [decide_eq_true_eq] at hd
        show t + time.Second ≤ w.Now r.tick
        omega
    · rw [if_neg hd]
      have hrep : r.report w p = { r with tick := r.tick + 1 } := by
        rw [Run.report_eq, if_neg hd]
      refine ⟨h1, ?_⟩
      intro a ha
      obtain ⟨h3, h4⟩ := h2 a ha
      rw [hrep] at h3 h4
      exact ⟨by simp only at h3; omega, fun t ht => h4 t ht⟩
theorem GoMap.length_set {V : Type} (m : GoMap V) (k : String) (v : V) :
    (m.set k v).length ≤ m.length + 1 := by
  induction m with
  | nil => simp [GoMap.set]
  | cons a m ih =>
    obtain ⟨k1, v1⟩ := a
    rw [GoMap.set]
    split
    · simp
    · simp only [List.length_cons]
      omega

theorem Add.walked_refl (w : World) (a : Run × GoMap DirEntry × Progress) :
    Add.walked w a a :=
  ⟨rfl, le_refl _, le_of_eq (add_comm _ _), [], rfl, List.Pairwise.nil, fun _ h => by cases h⟩

theorem Add.walked_trans (w : World) (a b c : Run × GoMap DirEntry × Progress)
    (h1 : Add.walked w a b) (h2 : Add.walked w b c) : Add.walked w a c := by
  obtain ⟨hd1, ht1, hl1, o1, hr1, hp1, ho1⟩ := h1
  obtain ⟨hd2, ht2, hl2, o2, hr2, hp2, ho2⟩ := h2
  refine ⟨hd2.trans hd1, le_trans ht1 ht2, by omega, o1 ++ o2, ?_, ?_, ?_⟩
  · rw [Run.reports_append, ← hr1, hr2]
  · rw [List.pairwise_append]
    refine ⟨hp1, hp2, ?_⟩
    intro p hp q hq
    obtain ⟨h3, _, h5⟩ := ho1 p hp
    obtain ⟨h6, h7, _⟩ := ho2 q hq
    exact ⟨by rw [h3, h6, hd1], le_trans h5 h7⟩
  · intro p hp
    rcases List.mem_append.1 hp with h | h
    · obtain ⟨h3, h4, h5⟩ := ho1 p h
      exact ⟨h3, h4, le_trans h5 ht2⟩
    · obtain ⟨h3, h4, h5⟩ := ho2 p h
      exact ⟨h3.trans hd1, le_trans ht1 h4, h5⟩

theorem Add.walkFn_walked (w : World) (path : String) (d : Option DirEntry)
    (err : Option String) (s : Run × GoMap DirEntry × Progress) :
    Add.walked w s (Add.walkFn w path d err s).2 := by
  have hsame : Add.walked w s (s.1.report w s.2.2, s.2) :=
    ⟨rfl, le_refl _, le_of_eq (add_comm _ _), [s.2.2], rfl, List.pairwise_singleton _ _,
      fun p hp => by rw [List.mem_singleton.1 hp]; exact ⟨rfl, le_refl _, le_refl _⟩⟩
  unfold Add.walkFn
  simp only
  split
  · exact hsame
  · exact hsame
  · split
    · exact hsame
    · split <;> exact hsame
    · split
      · exact hsame
      · refine ⟨rfl, by simp, ?_, [s.2.2], rfl, List.pairwise_singleton _ _, ?_⟩
        · have := GoMap.length_set s.2.1 path (by assumption)
          simp only
          omega
        · intro p hp
          rw [List.mem_singleton.1 hp]
          exact ⟨rfl, le_refl _, by simp⟩

theorem Add.WalkDir_walked (w : World) (lstat : Except String FSNode) (root : String)
    (s : Run × GoMap DirEntry × Progress) :
    Add.walked w s (filepath.WalkDir lstat root (Add.walkFn w) s).2 :=
  WalkDir_invariant (Add.walkFn w) (Add.walked w) (Add.walked_refl w) (Add.walked_trans w)
    (Add.walkFn_walked w) lstat root s
/-- The index loop of `Add` offers the throttle one snapshot for each entry
it starts on: `Total` stays, `Done` counts the entries finished. -/
theorem add_indexLoop_offers (w : World) :
    ∀ (l : List (String × DirEntry)) (s : IndexState),
      ∃ offers, (Add.indexLoop w l s).2.run = Run.reports w s.run offers ∧
        offers.Pairwise Progress.le ∧
        (∀ p ∈ offers, p.Total = s.prog.Total ∧ s.prog.Done ≤ p.Done ∧
          p.Done + 1 ≤ s.prog.Done + l.length) ∧
        (Add.indexLoop w l s).2.prog.Total = s.prog.Total := by
  intro l
  induction l with
  | nil =>
    intro s
    exact ⟨[], rfl, List.Pairwise.nil, fun q hq => absurd hq (List.not_mem_nil q), rfl⟩
  | cons a l ih =>
    obtain ⟨p, d⟩ := a
    intro s
    have hstop : ∀ st : IndexState, st.run = s.run.report w s.prog → st.prog = s.prog →
        ∃ offers, st.run = Run.reports w s.run offers ∧ offers.Pairwise Progress.le ∧
          (∀ q ∈ offers, q.Total = s.prog.Total ∧ s.prog.Done ≤ q.Done ∧
            q.Done + 1 ≤ s.prog.Done + ((p, d) :: l).length) ∧
          st.prog.Total = s.prog.Total := by
      intro st h1 h2
      refine ⟨[s.prog], h1, List.pairwise_singleton _ _, ?_, by rw [h2]⟩
      intro q hq
      rw [List.mem_singleton.1 hq]
      refine ⟨rfl, le_refl _, ?_⟩
      simp only [List.length_cons, Nat.cast_add, Nat.cast_one]
      omega
    have hgo : ∀ db : DB, ∀ n : Nat,
        ∃ offers,
          (Add.indexLoop w l
            { db := db, run := s.run.report w s.prog, entriesInTx := n,
              prog := { s.prog with Done := s.prog.Done + 1 } }).2.run =
            Run.reports w s.run offers ∧ offers.Pairwise Progress.le ∧
          (∀ q ∈ offers, q.Total = s.prog.Total ∧ s.prog.Done ≤ q.Done ∧
            q.Done + 1 ≤ s.prog.Done + ((p, d) :: l).length) ∧
          (Add.indexLoop w l
            { db := db, run := s.run.report w s.prog, entriesInTx := n,
              prog := { s.prog with Done := s.prog.Done + 1 } }).2.prog.Total =
            s.prog.Total := by
      intro db n
      obtain ⟨offers, h1, h2, h3, h4⟩ := ih
        { db := db, run := s.run.report w s.prog, entriesInTx := n,
          prog := { s.prog with Done := s.prog.Done + 1 } }
      refine ⟨s.prog :: offers, h1, ?_, ?_, h4⟩
      · rw [List.pairwise_cons]
        refine ⟨?_, h2⟩
        intro q hq
        obtain ⟨h5, h6, _⟩ := h3 q hq
        simp only at h5 h6
        exact ⟨by omega, by rw [h5]⟩
      · intro q hq
        simp only [List.length_cons, Nat.cast_add, Nat.cast_one]
        rcases List.mem_cons.1 hq with h | h
        · rw [h]
          exact ⟨rfl, le_refl _, by omega⟩
        · obtain ⟨h5, h6, h7⟩ := h3 q h
          simp only at h5 h6 h7
          exact ⟨h5, by omega, by omega⟩
    rw [Add.indexLoop]
    simp only
    cases (if s.entriesInTx = 0 then s.db.BeginTx else (none, s.db)) with
    | mk e db1 =>
      cases e with
      | some e => exact hstop _ rfl rfl
      | none =>
        simp only
        cases indexFile w db1 p d with
        | mk e2 db2 =>
          cases e2 with
          | some e2 => exact hstop _ rfl rfl
          | none =>
            simp only
            split
            · cases db2.Commit with
              | mk e3 db3 =>
                cases e3 with
                | some e3 => exact hstop _ rfl rfl
                | none => exact hgo db3 0
            · exact hgo db2 (s.entriesInTx + 1)

/-- The reindex loop of `Rescan` offers the throttle one snapshot for each entry
it starts on: `Total` stays, `Done` counts the entries finished. -/
theorem rescan_indexLoop_offers (w : World) :
    ∀ (l : List (String × DirEntry)) (s : IndexState),
      ∃ offers, (Rescan.indexLoop w l s).2.run = Run.reports w s.run offers ∧
        offers.Pairwise Progress.le ∧
        (∀ p ∈ offers, p.Total = s.prog.Total ∧ s.prog.Done ≤ p.Done ∧
          p.Done + 1 ≤ s.prog.Done + l.length) ∧
        (Rescan.indexLoop w l s).2.prog.Total = s.prog.Total := by
  intro l
  induction l with
  | nil =>
    intro s
    exact ⟨[], rfl, List.Pairwise.nil, fun q hq => absurd hq (List.not_mem_nil q), rfl⟩
  | cons a l ih =>
    obtain ⟨p, d⟩ := a
    intro s
    have hstop : ∀ st : IndexState, st.run = s.run.report w s.prog → st.prog = s.prog →
        ∃ offers, st.run = Run.reports w s.run offers ∧ offers.Pairwise Progress.le ∧
          (∀ q ∈ offers, q.Total = s.prog.Total ∧ s.prog.Done ≤ q.Done ∧
            q.Done + 1 ≤ s.prog.Done + ((p, d) :: l).length) ∧
          st.prog.Total = s.prog.Total := by
      intro st h1 h2
      refine ⟨[s.prog], h1, List.pairwise_singleton _ _, ?_, by rw [h2]⟩
      intro q hq
      rw [List.mem_singleton.1 hq]
      refine ⟨rfl, le_refl _, ?_⟩
      simp only [List.length_cons, Nat.cast_add, Nat.cast_one]
      omega
    have hgo : ∀ db : DB, ∀ n : Nat,
        ∃ offers,
          (Rescan.indexLoop w l
            { db := db, run := s.run.report w s.prog, entriesInTx := n,
              prog := { s.prog with Done := s.prog.Done + 1 } }).2.run =
            Run.reports w s.run offers ∧ offers.Pairwise Progress.le ∧
          (∀ q ∈ offers, q.Total = s.prog.Total ∧ s.prog.Done ≤ q.Done ∧
            q.Done + 1 ≤ s.prog.Done + ((p, d) :: l).length) ∧
          (Rescan.indexLoop w l
            { db := db, run := s.run.report w s.prog, entriesInTx := n,
              prog := { s.prog with Done := s.prog.Done + 1 } }).2.prog.Total =
            s.prog.Total := by
      intro db n
      obtain ⟨offers, h1, h2, h3, h4⟩ := ih
        { db := db, run := s.run.report w s.prog, entriesInTx := n,
          prog := { s.prog with Done := s.prog.Done + 1 } }
      refine ⟨s.prog :: offers, h1, ?_, ?_, h4⟩
      · rw [List.pairwise_cons]
        refine ⟨?_, h2⟩
        intro q hq
        obtain ⟨h5, h6, _⟩ := h3 q hq
        simp only at h5 h6
        exact ⟨by omega, by rw [h5]⟩
      · intro q hq
        simp only [List.length_cons, Nat.cast_add, Nat.cast_one]
        rcases List.mem_cons.1 hq with h | h
        · rw [h]
          exact ⟨rfl, le_refl _, by omega⟩
        · obtain ⟨h5, h6, h7⟩ := h3 q h
          simp only at h5 h6 h7
          exact ⟨h5, by omega, by omega⟩
    rw [Rescan.indexLoop]
    simp only
    cases (if s.entriesInTx = 0 then s.db.BeginTx else (none, s.db)) with
    | mk e db1 =>
      cases e with
      | some e => exact hstop _ rfl rfl
      | none =>
        simp only
        cases indexFile w db1 p d with
        | mk e2 db2 =>
          cases e2 with
          | some e2 => exact hstop _ rfl rfl
          | none =>
            simp only
            split
            · cases db2.Commit with
              | mk e3 db3 =>
                cases e3 with
                | some e3 => exact hstop _ rfl rfl
                | none => exact hgo db3 0
            · exact hgo db2 (s.entriesInTx + 1)
theorem finishIndex_stream (s : IndexState) :
    ((finishIndex s).1 ≠ none ∧ (finishIndex s).2.2 = s.run.progress) ∨
    ((finishIndex s).1 = none ∧
      (finishIndex s).2.2 =
        { s.run.progress with
          sent := s.run.progress.sent ++ [{ Done := s.prog.Total, Total := s.prog.Total }] }) := by
  unfold finishIndex
  cases (if s.entriesInTx > 0 then s.db.Commit else (none, s.db)) with
  | mk e db1 =>
    cases e with
    | some e => exact Or.inl ⟨by simp, rfl⟩
    | none => exact Or.inr ⟨rfl, rfl⟩

/-- The stream of `Add`: the channel ends with what the throttle sent of
the snapshots `offers` it was offered, followed by `fin`, which is the final
snapshot when `Add` returns nil and nothing when it returns an error. -/
theorem add_body_stream (w : World) (path0 : String) (db : DB) (progress : Chan) :
    ∃ offers fin,
      (Add.body w path0 db progress).2.2 =
        { (Run.reports w { progress := progress } offers).progress with
          sent := (Run.reports w { progress := progress } offers).progress.sent ++ fin } ∧
      offers.Pairwise Progress.le ∧ (∀ p ∈ offers, p.valid) ∧
      (∀ q ∈ fin, q.valid ∧ q.Done = q.Total ∧ ∀ p ∈ offers, Progress.le p q) ∧
      ((Add.body w path0 db progress).1 ≠ none → fin = []) ∧
      ((Add.body w path0 db progress).1 = none →
        ∃ q, fin = [q] ∧ ∀ path s, w.Abs path0 = .ok path →
          filepath.WalkDir (w.Lstat path) path (Add.walkFn w)
            (({ progress := progress } : Run), ([] : GoMap DirEntry), ({} : Progress)) =
              (none, s) →
          q.Total = s.2.2.Total) := by
  have hnil : ∀ (e : String) (db1 : DB) (P : Progress → Prop),
      ∃ offers fin,
        ((some e, db1, progress) : Option String × DB × Chan).2.2 =
          { (Run.reports w { progress := progress } offers).progress with
            sent := (Run.reports w { progress := progress } offers).progress.sent ++ fin } ∧
        offers.Pairwise Progress.le ∧ (∀ p ∈ offers, p.valid) ∧
        (∀ q ∈ fin, q.valid ∧ q.Done = q.Total ∧ ∀ p ∈ offers, Progress.le p q) ∧
        (((some e, db1, progress) : Option String × DB × Chan).1 ≠ none → fin = []) ∧
        (((some e, db1, progress) : Option String × DB × Chan).1 = none →
          ∃ q, fin = [q] ∧ P q) := by
    intro e db1 P
    refine ⟨[], [], ?_, List.Pairwise.nil, fun q hq => absurd hq (List.not_mem_nil q),
      fun q hq => absurd hq (List.not_mem_nil q), fun _ => rfl, fun h => by cases h⟩
    simp [Run.reports]
  unfold Add.body
  cases habs : w.Abs path0 with
  | error e => exact hnil _ _ _
  | ok path =>
    simp only
    cases db.TrackPath w.Stat path with
    | mk e db1 =>
      cases e with
      | some e => exact hnil _ _ _
      | none =>
        simp only
        have hw := Add.WalkDir_walked w (w.Lstat path) path
          (({ progress := progress } : Run), ([] : GoMap DirEntry), ({} : Progress))
        cases hwalk : filepath.WalkDir (w.Lstat path) path (Add.walkFn w)
            (({ progress := progress } : Run), ([] : GoMap DirEntry), ({} : Progress)) with
        | mk e s =>
          rw [hwalk] at hw
          obtain ⟨hd, ht, hl, o1, hr1, hp1, ho1⟩ := hw
          simp only [List.length_nil, Nat.cast_zero, add_zero] at hd ht hl ho1
          have hv1 : ∀ p ∈ o1, p.valid := by
            intro p hp
            obtain ⟨h1, h2, _⟩ := ho1 p hp
            exact ⟨le_of_eq h1.symm, le_trans (le_of_eq h1) h2⟩
          cases e with
          | some e =>
            refine ⟨o1, [], ?_, hp1, hv1, fun q hq => absurd hq (List.not_mem_nil q),
              fun _ => rfl, fun h => by cases h⟩
            simp only [List.append_nil]
            rw [← hr1]
          | none =>
            simp only
            obtain ⟨o2, hr2, hp2, ho2, htot⟩ :=
              add_indexLoop_offers w s.2.1 { db := db1, run := s.1, prog := s.2.2 }
            simp only at hr2 ho2 htot
            have hrun : (Add.indexLoop w s.2.1 { db := db1, run := s.1, prog := s.2.2 }).2.run =
                Run.reports w { progress := progress } (o1 ++ o2) := by
              rw [Run.reports_append, ← hr1, hr2]
            have hv2 : ∀ p ∈ o2, p.valid := by
              intro p hp
              obtain ⟨h1, h2, h3⟩ := ho2 p hp
              exact ⟨by omega, by omega⟩
            have hpw : (o1 ++ o2).Pairwise Progress.le := by
              rw [List.pairwise_append]
              refine ⟨hp1, hp2, ?_⟩
              intro p hp q hq
              obtain ⟨h1, _, h3⟩ := ho1 p hp
              obtain ⟨h4, h5, _⟩ := ho2 q hq
              exact ⟨by omega, by omega⟩
            have hv : ∀ p ∈ o1 ++ o2, p.valid := by
              intro p hp
              rcases List.mem_append.1 hp with h | h
              · exact hv1 p h
              · exact hv2 p h
            cases hloop : Add.indexLoop w s.2.1 { db := db1, run := s.1, prog := s.2.2 } with
            | mk e2 st =>
              rw [hloop] at hrun htot
              simp only at hrun htot
              cases e2 with
              | some e2 =>
                refine ⟨o1 ++ o2, [], ?_, hpw, hv, fun q hq => absurd hq (List.not_mem_nil q),
                  fun _ => rfl, fun h => by cases h⟩
                simp only [List.append_nil]
                rw [← hrun]
              | none =>
                simp only
                rcases finishIndex_stream st with ⟨h1, h2⟩ | ⟨h1, h2⟩
                · refine ⟨o1 ++ o2, [], ?_, hpw, hv,
                    fun q hq => absurd hq (List.not_mem_nil q), fun _ => rfl,
                    fun h => absurd h h1⟩
                  simp only [List.append_nil]
                  rw [h2, ← hrun]
                · refine ⟨o1 ++ o2, [{ Done := st.prog.Total, Total := st.prog.Total }], ?_,
                    hpw, hv, ?_, fun h => absurd h1 h, fun _ => ⟨_, rfl, ?_⟩⟩
                  · rw [h2, ← hrun]
                  · intro q hq
                    rw [List.mem_singleton.1 hq]
                    refine ⟨⟨by simp only; omega, le_refl _⟩, rfl, ?_⟩
                    intro p hp
                    have hpv := hv p hp
                    have hpt : p.Total ≤ s.2.2.Total := by
                      rcases List.mem_append.1 hp with h | h
                      · exact (ho1 p h).2.2
                      · exact le_of_eq (ho2 p h).1
                    exact ⟨by simp only; have := hpv.2; omega, by simp only; omega⟩
                  · intro path2 s2 h3 h4
                    cases h3
                    rw [hwalk] at h4
                    cases h4
                    exact htot
/-- The stream of `Rescan`, as `add_body_stream` for `Add`. -/
theorem rescan_body_stream (w : World) (db : DB) (progress : Chan) :
    ∃ offers fin,
      (Rescan.body w db progress).2.2 =
        { (Run.reports w { progress := progress } offers).progress with
          sent := (Run.reports w { progress := progress } offers).progress.sent ++ fin } ∧
      offers.Pairwise Progress.le ∧ (∀ p ∈ offers, p.valid) ∧
      (∀ q ∈ fin, q.valid ∧ q.Done = q.Total ∧ ∀ p ∈ offers, Progress.le p q) ∧
      ((Rescan.body w db progress).1 ≠ none → fin = []) ∧
      ((Rescan.body w db progress).1 = none →
        ∃ q, fin = [q] ∧ ∀ paths db1 db2 db3 toReindex,
          db.TrackedPaths = (.ok paths, db1) → db1.BeginTx = (none, db2) →
          Rescan.scanLoop w paths db2 [] = (none, db3, toReindex) →
          q.Total = toReindex.length) := by
  have hnil : ∀ (e : String) (db1 : DB) (P : Progress → Prop),
      ∃ offers fin,
        ((some e, db1, progress) : Option String × DB × Chan).2.2 =
          { (Run.reports w { progress := progress } offers).progress with
            sent := (Run.reports w { progress := progress } offers).progress.sent ++ fin } ∧
        offers.Pairwise Progress.le ∧ (∀ p ∈ offers, p.valid) ∧
        (∀ q ∈ fin, q.valid ∧ q.Done = q.Total ∧ ∀ p ∈ offers, Progress.le p q) ∧
        (((some e, db1, progress) : Option String × DB × Chan).1 ≠ none → fin = []) ∧
        (((some e, db1, progress) : Option String × DB × Chan).1 = none →
          ∃ q, fin = [q] ∧ P q) := by
    intro e db1 P
    refine ⟨[], [], ?_, List.Pairwise.nil, fun q hq => absurd hq (List.not_mem_nil q),
      fun q hq => absurd hq (List.not_mem_nil q), fun _ => rfl, fun h => by cases h⟩
    simp [Run.reports]
  unfold Rescan.body
  cases htp : db.TrackedPaths with
  | mk r db1 =>
    cases r with
    | error e => exact hnil _ _ _
    | ok paths =>
      simp only
      cases hb : db1.BeginTx with
      | mk e db2 =>
        cases e with
        | some e => exact hnil _ _ _
        | none =>
          simp only
          cases hscan : Rescan.scanLoop w paths db2 [] with
          | mk e r3 =>
            obtain ⟨db3, toReindex⟩ := r3
            cases e with
            | some e => exact hnil _ _ _
            | none =>
              simp only
              cases db3.Commit with
              | mk e db4 =>
                cases e with
                | some e => exact hnil _ _ _
                | none =>
                  simp only
                  obtain ⟨o2, hr2, hp2, ho2, htot⟩ :=
                    rescan_indexLoop_offers w toReindex
                      { db := db4, run := { progress := progress },
                        prog := { Total := toReindex.length } }
                  simp only at hr2 ho2 htot
                  have hv : ∀ p ∈ o2, p.valid := by
                    intro p hp
                    obtain ⟨h1, h2, h3⟩ := ho2 p hp
                    exact ⟨by omega, by omega⟩
                  cases hloop : Rescan.indexLoop w toReindex
                      { db := db4, run := { progress := progress },
                        prog := { Total := toReindex.length } } with
                  | mk e2 st =>
                    rw [hloop] at hr2 htot
                    simp only at hr2 htot
                    cases e2 with
                    | some e2 =>
                      refine ⟨o2, [], ?_, hp2, hv, fun q hq => absurd hq (List.not_mem_nil q),
                        fun _ => rfl, fun h => by cases h⟩
                      simp only [List.append_nil]
                      rw [← hr2]
                    | none =>
                      simp only
                      rcases finishIndex_stream st with ⟨h1, h2⟩ | ⟨h1, h2⟩
                      · refine ⟨o2, [], ?_, hp2, hv,
                          fun q hq => absurd hq (List.not_mem_nil q), fun _ => rfl,
                          fun h => absurd h h1⟩
                        simp only [List.append_nil]
                        rw [h2, ← hr2]
                      · refine ⟨o2, [{ Done := st.prog.Total, Total := st.prog.Total }], ?_,
                          hp2, hv, ?_, fun h => absurd h1 h, fun _ => ⟨_, rfl, ?_⟩⟩
                        · rw [h2, ← hr2]
                        · intro q hq
                          rw [List.mem_singleton.1 hq]
                          refine ⟨⟨by simp only; omega, le_refl _⟩, rfl, ?_⟩
                          intro p hp
                          have hpv := hv p hp
                          have hpt := (ho2 p hp).1
                          exact ⟨by simp only; have := hpv.2; omega, by simp only; omega⟩
                        · intro paths2 db1b db2b db3b toReindex2 h3 h4 h5
                          cases h3
                          rw [hb] at h4
                          cases h4
                          rw [hscan] at h5
                          cases h5
                          exact htot

/-! ## Final snapshot, spacing and shape of the snapshots -/

/-- C21 (counterexample).  `Add` of a path that does not exist returns the
error of `TrackPath` and closes the channel without having sent anything.
`Add` of `/d/A` in `exTickingWorld` stops at `/d/A/h`; the last snapshot
before the close has `Done = 1` and `Total = 2`.  `Rescan` after the file
`h` has appeared and vanished again stops likewise with the last snapshot
`Done = 0`, `Total = 1`, and `Rescan` with a failing read of the tracked
paths sends nothing. -/
theorem error_run_sends_no_final_snapshot :
    Add exEmptyWorld "/d/none" {} {} =
      (some ("could not track path \x27/d/none\x27: " ++
        "could not find info: no such file or directory"), {}, { sent := [], closed := true }) ∧
    (Add exTickingWorld "/d/A" {} {}).1 =
      some "could not get file info on \x27/d/A/h\x27: gone" ∧
    (Add exTickingWorld "/d/A" {} {}).2.2 =
      { sent := [{ Done := 0, Total := 0 }, { Done := 0, Total := 0 }, { Done := 0, Total := 1 },
                 { Done := 0, Total := 2 }, { Done := 1, Total := 2 }],
        closed := true } ∧
    (Rescan exTickingWorld (Add exWorld "/d/A" {} {}).2.1 {}).1 =
      some ("could not index file \x27/d/A/h\x27: " ++
        "could not get file info on \x27/d/A/h\x27: gone") ∧
    (Rescan exTickingWorld (Add exWorld "/d/A" {} {}).2.1 {}).2.2 =
      { sent := [{ Done := 0, Total := 1 }], closed := true } ∧
    (Rescan exWorld { exTracked with faults := [true] } {}).2.2 =
      { sent := [], closed := true } := by
  decide

/-- Claim C21, amended.  When `Add` or `Rescan` returns nil, the last
snapshot on the channel before the close is the final one, with
`Done = Total`.  When it returns an error, the channel is closed with
nothing on it but what the throttle sent: no final snapshot is added. -/
theorem final_snapshot_on_success (w : World) (path : String) (db : DB) (progress : Chan) :
    ((Add w path db progress).1 = none →
      ∃ pre q, (Add w path db progress).2.2 = { sent := pre ++ [q], closed := true } ∧
        q.Done = q.Total ∧ progress.sent <+: pre) ∧
    ((Add w path db progress).1 ≠ none →
      ∃ offers, (Add w path db progress).2.2 =
        { (Run.reports w { progress := progress } offers).progress with closed := true }) ∧
    ((Rescan w db progress).1 = none →
      ∃ pre q, (Rescan w db progress).2.2 = { sent := pre ++ [q], closed := true } ∧
        q.Done = q.Total ∧ progress.sent <+: pre) ∧
    ((Rescan w db progress).1 ≠ none →
      ∃ offers, (Rescan w db progress).2.2 =
        { (Run.reports w { progress := progress } offers).progress with closed := true }) := by
  have key : ∀ r : Option String × DB × Chan,
      (∃ offers fin,
        r.2.2 =
          { (Run.reports w { progress := progress } offers).progress with
            sent := (Run.reports w { progress := progress } offers).progress.sent ++ fin } ∧
        (∀ q ∈ fin, q.valid ∧ q.Done = q.Total ∧ ∀ p ∈ offers, Progress.le p q) ∧
        (r.1 ≠ none → fin = []) ∧ (r.1 = none → ∃ q, fin = [q])) →
      (r.1 = none →
        ∃ pre q, ({ r.2.2 with closed := true } : Chan) = { sent := pre ++ [q], closed := true } ∧
          q.Done = q.Total ∧ progress.sent <+: pre) ∧
      (r.1 ≠ none →
        ∃ offers, ({ r.2.2 with closed := true } : Chan) =
          { (Run.reports w { progress := progress } offers).progress with closed := true }) := by
    rintro r ⟨offers, fin, h1, h2, h3, h4⟩
    constructor
    · intro hn
      obtain ⟨q, hq⟩ := h4 hn
      subst hq
      refine ⟨_, q, by rw [h1], (h2 q (List.mem_singleton_self q)).2.1, ?_⟩
      rw [Run.reports_sent]
      exact List.prefix_append _ _
    · intro hn
      refine ⟨offers, ?_⟩
      rw [h1, h3 hn]
      simp
  obtain ⟨o1, f1, a1, _, _, a4, a5, a6⟩ := add_body_stream w path db progress
  obtain ⟨o2, f2, b1, _, _, b4, b5, b6⟩ := rescan_body_stream w db progress
  have ha := key (Add.body w path db progress)
    ⟨o1, f1, a1, a4, a5, fun h => (a6 h).imp (fun _ h2 => h2.1)⟩
  have hb := key (Rescan.body w db progress)
    ⟨o2, f2, b1, b4, b5, fun h => (b6 h).imp (fun _ h2 => h2.1)⟩
  exact ⟨ha.1, ha.2, hb.1, hb.2⟩

/-- `Add` of `/d/A` in `exWorld` returns nil and its last snapshot is the
final one. -/
theorem final_snapshot_on_success_witness :
    (Add exWorld "/d/A" {} {}).1 = none ∧
    (Add exWorld "/d/A" {} {}).2.2 =
      { sent := [{ Done := 0, Total := 0 }] ++ [{ Done := 1, Total := 1 }], closed := true } ∧
    ∃ pre q, (Add exWorld "/d/A" {} {}).2.2 = { sent := pre ++ [q], closed := true } ∧
      q.Done = q.Total ∧ ({} : Chan).sent <+: pre :=
  ⟨by decide, by decide, (final_snapshot_on_success exWorld "/d/A" {} {}).1 (by decide)⟩

/-- C22 (counterexample).  In `exWorld` every reading of the clock is 0, a
clock that does not decrease, so the whole run of `Add` on `/d/A` takes
place at one instant; yet two snapshots are sent, the first by the throttle
and the final one after it. -/
theorem final_snapshot_not_spaced :
    (∀ n, exWorld.Now n = 0) ∧
    (Add exWorld "/d/A" {} {}).1 = none ∧
    (Add exWorld "/d/A" {} {}).2.2.sent = [{ Done := 0, Total := 0 }, { Done := 1, Total := 1 }] ∧
    (Rescan exWorld { d := { tracked_path := ["/d/A"] } } {}).2.2.sent =
      [{ Done := 0, Total := 1 }, { Done := 1, Total := 1 }] :=
  ⟨fun _ => rfl, by decide, by decide, by decide⟩

/-- Claim C22, amended.  The snapshots on the channel after `Add` or
`Rescan` are those the throttle sent, followed by at most one final
snapshot, which is sent whatever the clock says.  Each snapshot of the
throttle is sent between a reading of the clock and the next reading; for
two consecutive ones the reading before the second is at least one second
after the reading that follows the first, so with a clock that does not
decrease they are sent at least one second apart. -/
theorem throttled_snapshots_spaced (w : World) (path : String) (db : DB) (progress : Chan) :
    (∃ offers fin,
      (Add w path db progress).2.2.sent =
        progress.sent ++ (Run.sends w offers { progress := progress }).map (fun x => x.2) ++
          fin ∧
      fin.length ≤ 1 ∧ ((Add w path db progress).1 ≠ none → fin = []) ∧
      (Run.sends w offers { progress := progress }).Chain'
        (fun a b => a.1 + 2 ≤ b.1 ∧ w.Now (a.1 + 1) + time.Second ≤ w.Now b.1)) ∧
    (∃ offers fin,
      (Rescan w db progress).2.2.sent =
        progress.sent ++ (Run.sends w offers { progress := progress }).map (fun x => x.2) ++
          fin ∧
      fin.length ≤ 1 ∧ ((Rescan w db progress).1 ≠ none → fin = []) ∧
      (Run.sends w offers { progress := progress }).Chain'
        (fun a b => a.1 + 2 ≤ b.1 ∧ w.Now (a.1 + 1) + time.Second ≤ w.Now b.1)) := by
  have key : ∀ r : Option String × DB × Chan,
      (∃ offers fin,
        r.2.2 =
          { (Run.reports w { progress := progress } offers).progress with
            sent := (Run.reports w { progress := progress } offers).progress.sent ++ fin } ∧
        (r.1 ≠ none → fin = []) ∧ (r.1 = none → ∃ q, fin = [q])) →
      ∃ offers fin,
        r.2.2.sent =
          progress.sent ++ (Run.sends w offers { progress := progress }).map (fun x => x.2) ++
            fin ∧
        fin.length ≤ 1 ∧ (r.1 ≠ none → fin = []) ∧
        (Run.sends w offers { progress := progress }).Chain'
          (fun a b => a.1 + 2 ≤ b.1 ∧ w.Now (a.1 + 1) + time.Second ≤ w.Now b.1) := by
    rintro r ⟨offers, fin, h1, h2, h3⟩
    refine ⟨offers, fin, ?_, ?_, h2, (Run.sends_spaced w offers _).1⟩
    · rw [h1, Run.reports_sent]
    · cases hr : r.1 with
      | none =>
        obtain ⟨q, hq⟩ := h3 hr
        rw [hq]
        exact Nat.le_refl _
      | some e =>
        rw [h2 (by rw [hr]; simp)]
        exact Nat.zero_le _
  obtain ⟨o1, f1, a1, _, _, _, a5, a6⟩ := add_body_stream w path db progress
  obtain ⟨o2, f2, b1, _, _, _, b5, b6⟩ := rescan_body_stream w db progress
  exact ⟨key (Add.body w path db progress)
      ⟨o1, f1, a1, a5, fun h => (a6 h).imp (fun _ h2 => h2.1)⟩,
    key (Rescan.body w db progress)
      ⟨o2, f2, b1, b5, fun h => (b6 h).imp (fun _ h2 => h2.1)⟩⟩

/-- In `exTickingWorld` the throttle of `Add` sends at every reading it
takes: the readings 0, 2, 4, 6 and 8, each two seconds after the one
before. -/
theorem throttled_snapshots_spaced_witness :
    Run.sends exTickingWorld
        [{ Done := 0, Total := 0 }, { Done := 0, Total := 0 }, { Done := 0, Total := 1 },
         { Done := 0, Total := 2 }, { Done := 1, Total := 2 }] { progress := {} } =
      [(0, { Done := 0, Total := 0 }), (2, { Done := 0, Total := 0 }),
       (4, { Done := 0, Total := 1 }), (6, { Done := 0, Total := 2 }),
       (8, { Done := 1, Total := 2 })] ∧
    ∃ offers fin,
      (Add exTickingWorld "/d/A" {} {}).2.2.sent =
        ({} : Chan).sent ++
          (Run.sends exTickingWorld offers { progress := {} }).map (fun x => x.2) ++ fin ∧
      fin.length ≤ 1 :=
  ⟨by decide,
    (throttled_snapshots_spaced exTickingWorld "/d/A" {} {}).1.imp
      (fun _ h => h.imp (fun _ h2 => ⟨h2.1, h2.2.1⟩))⟩

theorem WalkDir_total (w : World) (path : String) (n : FSNode) (run : Run)
    (acc : GoMap DirEntry) (prog : Progress) (h : n.readable = true) :
    (filepath.WalkDir (.ok n) path (Add.walkFn w) (run, acc, prog)).1 = none ∧
    (filepath.WalkDir (.ok n) path (Add.walkFn w) (run, acc, prog)).2.2.2.Total =
      prog.Total + (collectedFiles path n).length := by
  obtain ⟨run1, h1⟩ := add_walkDir_eq w n path run acc prog h
  unfold filepath.WalkDir
  simp only [h1]
  exact ⟨trivial, trivial⟩

/-- Claim C28.  The snapshots `new` that `Add` or `Rescan` puts on the
channel all satisfy `0 <= Done <= Total`, and of any two of them the later
has neither a smaller `Done` nor a smaller `Total`.  When `Add` returns nil
the last snapshot has the `Total` that the walk counted, which for a tree
the walk can read is the number of files it collected; when `Rescan`
returns nil the last snapshot has the size of the map `toReindex` as its
`Total`. -/
theorem snapshots_wellformed_and_monotone (w : World) (path0 : String) (db : DB)
    (progress : Chan) :
    (∃ new, (Add w path0 db progress).2.2.sent = progress.sent ++ new ∧
      (∀ p ∈ new, 0 ≤ p.Done ∧ p.Done ≤ p.Total) ∧
      new.Pairwise (fun p q => p.Done ≤ q.Done ∧ p.Total ≤ q.Total) ∧
      ((Add w path0 db progress).1 = none →
        ∃ q, new.getLast? = some q ∧ q.Done = q.Total ∧
          (∀ path s, w.Abs path0 = .ok path →
            filepath.WalkDir (w.Lstat path) path (Add.walkFn w)
              (({ progress := progress } : Run), ([] : GoMap DirEntry), ({} : Progress)) =
                (none, s) →
            q.Total = s.2.2.Total) ∧
          (∀ path n, w.Abs path0 = .ok path → w.Lstat path = .ok n → n.readable = true →
            q.Total = (collectedFiles path n).length))) ∧
    (∃ new, (Rescan w db progress).2.2.sent = progress.sent ++ new ∧
      (∀ p ∈ new, 0 ≤ p.Done ∧ p.Done ≤ p.Total) ∧
      new.Pairwise (fun p q => p.Done ≤ q.Done ∧ p.Total ≤ q.Total) ∧
      ((Rescan w db progress).1 = none →
        ∃ q, new.getLast? = some q ∧ q.Done = q.Total ∧
          ∀ paths db1 db2 db3 toReindex,
            db.TrackedPaths = (.ok paths, db1) → db1.BeginTx = (none, db2) →
            Rescan.scanLoop w paths db2 [] = (none, db3, toReindex) →
            q.Total = toReindex.length)) := by
  have key : ∀ (r : Option String × DB × Chan) (P : Progress → Prop),
      (∃ offers fin,
        r.2.2 =
          { (Run.reports w { progress := progress } offers).progress with
            sent := (Run.reports w { progress := progress } offers).progress.sent ++ fin } ∧
        offers.Pairwise Progress.le ∧ (∀ p ∈ offers, p.valid) ∧
        (∀ q ∈ fin, q.valid ∧ q.Done = q.Total ∧ ∀ p ∈ offers, Progress.le p q) ∧
        (r.1 ≠ none → fin = []) ∧ (r.1 = none → ∃ q, fin = [q] ∧ P q)) →
      ∃ new, r.2.2.sent = progress.sent ++ new ∧
        (∀ p ∈ new, 0 ≤ p.Done ∧ p.Done ≤ p.Total) ∧
        new.Pairwise (fun p q => p.Done ≤ q.Done ∧ p.Total ≤ q.Total) ∧
        (r.1 = none → ∃ q, new.getLast? = some q ∧ q.Done = q.Total ∧ P q) := by
    rintro r P ⟨offers, fin, h1, h2, h3, h4, _, h6⟩
    have hsub := Run.sends_sublist w offers { progress := progress }
    refine ⟨(Run.sends w offers { progress := progress }).map (fun x => x.2) ++ fin, ?_, ?_,
      ?_, ?_⟩
    · rw [h1, Run.reports_sent, List.append_assoc]
    · intro p hp
      rcases List.mem_append.1 hp with h | h
      · exact h3 p (hsub.subset h)
      · exact (h4 p h).1
    · rw [List.pairwise_append]
      refine ⟨h2.sublist hsub, ?_, ?_⟩
      · cases fin with
        | nil => exact List.Pairwise.nil
        | cons q fin =>
          cases fin with
          | nil => exact List.pairwise_singleton _ _
          | cons q2 fin =>
            cases hr : r.1 with
            | none =>
              obtain ⟨q3, hq3, _⟩ := h6 hr
              cases hq3
            | some e =>
              have := (by assumption : r.1 ≠ none → q :: q2 :: fin = []) (by rw [hr]; simp)
              cases this
      · intro p hp q hq
        exact (h4 q hq).2.2 p (hsub.subset hp)
    · intro hn
      obtain ⟨q, hq, hP⟩ := h6 hn
      subst hq
      refine ⟨q, ?_, (h4 q (List.mem_singleton_self q)).2.1, hP⟩
      rw [List.getLast?_append]
      rfl
  obtain ⟨new1, a1, a2, a3, a4⟩ :=
    key (Add.body w path0 db progress) _ (add_body_stream w path0 db progress)
  obtain ⟨new2, b1, b2, b3, b4⟩ :=
    key (Rescan.body w db progress) _ (rescan_body_stream w db progress)
  refine ⟨⟨new1, a1, a2, a3, ?_⟩, ⟨new2, b1, b2, b3, b4⟩⟩
  intro hn
  obtain ⟨q, hq1, hq2, hq3⟩ := a4 hn
  refine ⟨q, hq1, hq2, hq3, ?_⟩
  intro path n habs hl hr
  have hw := WalkDir_total w path n { progress := progress } [] {} hr
  have := hq3 path _ habs (by rw [hl]; exact Prod.ext hw.1 rfl)
  rw [this, hw.2]
  simp

/-- `Add` of `/d/A` in `exTickingWorld` stops with an error after five
snapshots; `Add` of `/d/A` in `exWorld` returns nil with the final snapshot
1 of 1, one file being collected. -/
theorem snapshots_wellformed_and_monotone_witness :
    (Add exWorld "/d/A" {} {}).1 = none ∧
    collectedFiles "/d/A" (exDir "A") = [("/d/A/f", exFile "f" 1 100 0)] ∧
    (Add exWorld "/d/A" {} {}).2.2.sent = [{ Done := 0, Total := 0 }, { Done := 1, Total := 1 }] ∧
    ∃ new, (Add exTickingWorld "/d/A" {} {}).2.2.sent = ({} : Chan).sent ++ new ∧
      (∀ p ∈ new, 0 ≤ p.Done ∧ p.Done ≤ p.Total) ∧
      new.Pairwise (fun p q => p.Done ≤ q.Done ∧ p.Total ≤ q.Total) :=
  ⟨by decide, by decide, by decide,
    (snapshots_wellformed_and_monotone exTickingWorld "/d/A" {} {}).1.imp
      (fun _ h => ⟨h.1, h.2.1, h.2.2.1⟩)⟩

/-! ## Transactions are closed when Add and Rescan return -/

theorem DB.Commit_open (db : DB) (t : Tables) (h : db.tx = some t) :
    db.Commit.2.tx = none ∧ db.Commit.2.txLock = false := by
  unfold DB.Commit
  obtain ⟨b, fs, hfs⟩ := DB.fails_spec db
  simp only [h, hfs]
  cases b <;> exact ⟨rfl, rfl⟩

theorem DB.Rollback_open (db : DB) (t : Tables) (h : db.tx = some t) :
    db.Rollback.2.tx = none ∧ db.Rollback.2.txLock = false := by
  unfold DB.Rollback
  obtain ⟨b, fs, hfs⟩ := DB.fails_spec db
  simp only [h, hfs]
  cases b <;> exact ⟨rfl, rfl⟩

theorem DB.BeginTx_idle (db : DB) (h0 : db.tx = none) (hl : db.txLock = false) :
    (db.BeginTx.1 ≠ none ∧ db.BeginTx.2.tx = none ∧ db.BeginTx.2.txLock = false) ∨
    (db.BeginTx.1 = none ∧ db.BeginTx.2.tx = some db.d ∧ db.BeginTx.2.txLock = true) := by
  unfold DB.BeginTx
  rw [if_neg (by rw [hl]; simp)]
  obtain ⟨b, fs, hfs⟩ := DB.fails_spec db
  rw [hfs]
  cases b with
  | true => exact Or.inl ⟨by simp, h0, hl⟩
  | false => exact Or.inr ⟨rfl, rfl, rfl⟩

/-- One batch started with no transaction open and the lock free ends
that way, whatever happens in it; and the database on which it calls
`Rollback` or `Commit` has the transaction open that its `BeginTx` began. -/
theorem indexBatch_idle (w : World) (wrap : String → String → String)
    (c : List (String × DirEntry)) (db : DB) (h0 : db.tx = none) (hl : db.txLock = false) :
    (indexBatch w wrap c db).2.tx = none ∧ (indexBatch w wrap c db).2.txLock = false := by
  unfold indexBatch
  rcases DB.BeginTx_idle db h0 hl with ⟨h1, h2, h3⟩ | ⟨h1, h2, h3⟩
  · cases hb : db.BeginTx with
    | mk e db1 =>
      rw [hb] at h1 h2 h3
      cases e with
      | none => exact absurd rfl h1
      | some e => exact ⟨h2, h3⟩
  · cases hb : db.BeginTx with
    | mk e db1 =>
      rw [hb] at h1 h2 h3
      simp only at h1 h2 h3
      subst h1
      simp only
      obtain ⟨e2, t1, fs, hrun, _, _⟩ := indexAll_tx w wrap c db1 _ h2
      unfold finishBatch
      rw [hrun]
      cases e2 with
      | some e2 => exact DB.Rollback_open _ t1 rfl
      | none =>
        simp only
        have := DB.Commit_open ({ db1 with tx := some t1, faults := fs } : DB) t1 rfl
        cases hc : ({ db1 with tx := some t1, faults := fs } : DB).Commit with
        | mk e3 db3 =>
          rw [hc] at this
          cases e3 <;> exact this

theorem indexBatches_idle (w : World) (wrap : String → String → String) :
    ∀ (cs : List (List (String × DirEntry))) (db : DB), db.tx = none → db.txLock = false →
      (indexBatches w wrap cs db).2.tx = none ∧ (indexBatches w wrap cs db).2.txLock = false := by
  intro cs
  induction cs with
  | nil => intro db h0 hl; exact ⟨h0, hl⟩
  | cons c cs ih =>
    intro db h0 hl
    have h1 := indexBatch_idle w wrap c db h0 hl
    rw [indexBatches]
    cases hb : indexBatch w wrap c db with
    | mk e db1 =>
      rw [hb] at h1
      cases e with
      | some e => exact h1
      | none => exact ih db1 h1.1 h1.2

theorem DB.TrackPath_tx (db : DB) (stat : String → Option String) (path : String) :
    (db.TrackPath stat path).2.tx = db.tx ∧ (db.TrackPath stat path).2.txLock = db.txLock := by
  rcases DB.TrackPath_error db stat path with h | ⟨fs, h⟩
  · revert h
    unfold DB.TrackPath
    simp only
    cases stat (trimSeparator path) with
    | some e => intro h; cases h
    | none =>
      simp only
      obtain ⟨b1, f1, h1⟩ := DB.fails_spec db
      simp only [h1]
      cases b1 with
      | true => intro h; cases h
      | false =>
        obtain ⟨b2, f2, h2⟩ := DB.fails_spec ({ db with faults := f1 } : DB)
        simp only [h2]
        cases b2 with
        | true => intro h; cases h
        | false =>
          simp only
          cases trackConflict (trimSeparator path) db.d.tracked_path with
          | some e => intro h; cases h
          | none =>
            simp only
            obtain ⟨b3, f3, h3⟩ := DB.fails_spec ({ db with faults := f2 } : DB)
            simp only [h3]
            cases b3 with
            | true => intro h; cases h
            | false =>
              obtain ⟨b4, f4, h4⟩ := DB.fails_spec ({ db with faults := f3 } : DB)
              simp only [h4]
              cases b4 with
              | true => intro h; cases h
              | false => intro _; exact ⟨rfl, rfl⟩
  · rw [h]
    exact ⟨rfl, rfl⟩

theorem DB.DeletePaths_tx (db : DB) (paths : List String) (t : Tables) (h : db.tx = some t) :
    ∃ t1 fs, (db.DeletePaths paths).2 = { db with tx := some t1, faults := fs } := by
  have key : ∀ (cs : List (List String)) (db : DB) (t : Tables), db.tx = some t →
      ∃ t1 fs, (deleteEach cs db).2 = { db with tx := some t1, faults := fs } := by
    intro cs
    induction cs with
    | nil =>
      intro db t h
      exact ⟨t, db.faults, DB.with_tx_faults db t db.faults h⟩
    | cons c cs ih =>
      intro db t h
      obtain ⟨b, fs, hfs⟩ := DB.fails_spec db
      have h2 : db.fails.2 = { db with tx := some t, faults := fs } := by
        rw [hfs]
        exact DB.with_tx_faults db t fs h
      rw [deleteEach]
      rcases DB.Exec_cases db t (deleteFiles c) "could not delete: storage failure" h with
        he | ⟨t1, _, he⟩
      · rw [he, h2]
        exact ⟨t, fs, rfl⟩
      · rw [he, h2]
        simp only
        obtain ⟨t2, fs2, h3⟩ := ih ({ db with tx := some t1, faults := fs } : DB) t1 rfl
        exact ⟨t2, fs2, h3⟩
  have heq : db.DeletePaths paths = deleteEach (chunks paths) db :=
    deleteChunks_eq paths.length paths db
  rw [heq]
  exact key _ db t h
/-- `rescanPath` inside an open transaction leaves it open and the lock
held, whatever it returns. -/
theorem rescanPath_tx (w : World) (db : DB) (path : String) (t : Tables)
    (h : db.tx = some t) :
    ∃ t1 fs, (rescanPath w db path).2 = { db with tx := some t1, faults := fs } := by
  have hall : ∃ r fs, db.AllFileInfosAt path = (r, { db with tx := some t, faults := fs }) := by
    obtain ⟨b, fs, hfs⟩ := DB.fails_spec db
    have h2 : ({ db with faults := fs } : DB) = { db with tx := some t, faults := fs } :=
      DB.with_tx_faults db t fs h
    unfold DB.AllFileInfosAt
    simp only [h, hfs]
    cases b with
    | true => exact ⟨_, fs, rfl⟩
    | false => exact ⟨_, fs, rfl⟩
  obtain ⟨r, fs, hr⟩ := hall
  unfold rescanPath
  rw [hr]
  cases r with
  | error e => exact ⟨t, fs, rfl⟩
  | ok oldInfos =>
    simp only
    cases filepath.WalkDir (w.Lstat path) path rescanPath.walkFn ([] : GoMap DirEntry) with
    | mk e newInfos =>
      cases e with
      | some e => exact ⟨t, fs, rfl⟩
      | none =>
        simp only
        cases rescanPath.diff oldInfos newInfos with
        | error e => exact ⟨t, fs, rfl⟩
        | ok r2 =>
          obtain ⟨deletePaths, toIndex⟩ := r2
          simp only
          obtain ⟨t1, fs1, h3⟩ :=
            DB.DeletePaths_tx ({ db with tx := some t, faults := fs } : DB) deletePaths t rfl
          cases hdel : ({ db with tx := some t, faults := fs } : DB).DeletePaths deletePaths with
          | mk e2 db2 =>
            rw [hdel] at h3
            simp only at h3
            cases e2 <;> exact ⟨t1, fs1, h3⟩

/-- The first loop of `Rescan`, started inside an open transaction: when it
stops with an error the transaction has been rolled back and the lock is
free, otherwise the transaction is still open for the `Commit` that
follows. -/
theorem scanLoop_tx (w : World) :
    ∀ (paths : List String) (db : DB) (toReindex : GoMap DirEntry) (t : Tables),
      db.tx = some t → db.txLock = true →
      ((Rescan.scanLoop w paths db toReindex).1 ≠ none ∧
        (Rescan.scanLoop w paths db toReindex).2.1.tx = none ∧
        (Rescan.scanLoop w paths db toReindex).2.1.txLock = false) ∨
      ((Rescan.scanLoop w paths db toReindex).1 = none ∧
        (Rescan.scanLoop w paths db toReindex).2.1.tx.isSome = true ∧
        (Rescan.scanLoop w paths db toReindex).2.1.txLock = true) := by
  intro paths
  induction paths with
  | nil =>
    intro db toReindex t h hl
    exact Or.inr ⟨rfl, by rw [Rescan.scanLoop, h]; rfl, hl⟩
  | cons path rest ih =>
    intro db toReindex t h hl
    obtain ⟨t1, fs, h1⟩ := rescanPath_tx w db path t h
    rw [Rescan.scanLoop]
    cases hr : rescanPath w db path with
    | mk r db1 =>
      rw [hr] at h1
      simp only at h1
      subst h1
      cases r with
      | error e =>
        obtain ⟨h2, h3⟩ := DB.Rollback_open ({ db with tx := some t1, faults := fs } : DB) t1 rfl
        exact Or.inl ⟨by simp, h2, h3⟩
      | ok todo => exact ih _ _ t1 rfl hl

theorem add_body_idle (w : World) (path0 : String) (db : DB) (progress : Chan)
    (h0 : db.tx = none) (hl : db.txLock = false) :
    (Add.body w path0 db progress).2.1.tx = none ∧
      (Add.body w path0 db progress).2.1.txLock = false := by
  unfold Add.body
  cases w.Abs path0 with
  | error e => exact ⟨h0, hl⟩
  | ok path =>
    simp only
    obtain ⟨h1, h2⟩ := DB.TrackPath_tx db w.Stat path
    cases htp : db.TrackPath w.Stat path with
    | mk e db1 =>
      rw [htp] at h1 h2
      simp only at h1 h2
      rw [h0] at h1
      rw [hl] at h2
      cases e with
      | some e => exact ⟨h1, h2⟩
      | none =>
        simp only
        cases filepath.WalkDir (w.Lstat path) path (Add.walkFn w)
            (({ progress := progress } : Run), ([] : GoMap DirEntry), ({} : Progress)) with
        | mk e s =>
          cases e with
          | some e => exact ⟨h1, h2⟩
          | none =>
            simp only
            have hres := add_indexLoop_resume w s.2.1 { db := db1, run := s.1, prog := s.2.2 }
              (by simp)
            rw [if_pos rfl] at hres
            have hidle := indexBatches_idle w Add.wrap (chunks s.2.1) db1 h1 h2
            rw [← hres] at hidle
            cases hloop : Add.indexLoop w s.2.1 { db := db1, run := s.1, prog := s.2.2 } with
            | mk e2 st =>
              rw [hloop] at hidle
              cases e2 with
              | some e2 => exact hidle
              | none => exact hidle

theorem rescan_body_idle (w : World) (db : DB) (progress : Chan)
    (h0 : db.tx = none) (hl : db.txLock = false) :
    (Rescan.body w db progress).2.1.tx = none ∧
      (Rescan.body w db progress).2.1.txLock = false := by
  unfold Rescan.body DB.TrackedPaths
  obtain ⟨b, fs, hfs⟩ := DB.fails_spec db
  rw [hfs]
  cases b with
  | true => exact ⟨h0, hl⟩
  | false =>
    simp only
    rcases DB.BeginTx_idle ({ db with faults := fs } : DB) h0 hl with
      ⟨h1, h2, h3⟩ | ⟨h1, h2, h3⟩
    · cases hb : ({ db with faults := fs } : DB).BeginTx with
      | mk e db2 =>
        rw [hb] at h1 h2 h3
        cases e with
        | none => exact absurd rfl h1
        | some e => exact ⟨h2, h3⟩
    · cases hb : ({ db with faults := fs } : DB).BeginTx with
      | mk e db2 =>
        rw [hb] at h1 h2 h3
        simp only at h1 h2 h3
        subst h1
        simp only
        have hscan := scanLoop_tx w db.d.tracked_path db2 [] _ h2 h3
        cases hs : Rescan.scanLoop w db.d.tracked_path db2 [] with
        | mk e r3 =>
          obtain ⟨db3, toReindex⟩ := r3
          rw [hs] at hscan
          simp only at hscan
          cases e with
          | some e =>
            rcases hscan with ⟨_, h4, h5⟩ | ⟨h4, _, _⟩
            · exact ⟨h4, h5⟩
            · cases h4
          | none =>
            rcases hscan with ⟨h4, _, _⟩ | ⟨_, h4, _⟩
            · exact absurd rfl h4
            · simp only
              obtain ⟨t3, ht3⟩ := Option.isSome_iff_exists.1 h4
              obtain ⟨h5, h6⟩ := DB.Commit_open db3 t3 ht3
              cases hc : db3.Commit with
              | mk e db4 =>
                rw [hc] at h5 h6
                simp only at h5 h6
                cases e with
                | some e => exact ⟨h5, h6⟩
                | none =>
                  simp only
                  have hres := rescan_indexLoop_resume w toReindex
                    { db := db4, run := { progress := progress },
                      prog := { Total := toReindex.length } } (by simp)
                  rw [if_pos rfl] at hres
                  have hidle := indexBatches_idle w Rescan.wrap (chunks toReindex) db4 h5 h6
                  rw [← hres] at hidle
                  cases hloop : Rescan.indexLoop w toReindex
                      { db := db4, run := { progress := progress },
                        prog := { Total := toReindex.length } } with
                  | mk e2 st =>
                    rw [hloop] at hidle
                    cases e2 with
                    | some e2 => exact hidle
                    | none => exact hidle

theorem DB.BeginTx_open (db db1 : DB) (h : db.BeginTx = (none, db1)) :
    db1.tx = some db.d ∧ db1.txLock = true := by
  unfold DB.BeginTx at h
  split at h
  · cases h
  · obtain ⟨b, fs, hfs⟩ := DB.fails_spec db
    rw [hfs] at h
    cases b with
    | true => cases h
    | false =>
      simp only [Prod.mk.injEq, true_and] at h
      subst h
      exact ⟨rfl, rfl⟩

/-- Claim C27.  Called with no transaction open and the lock free, `Add`
and `Rescan` return, with or without an error, with no transaction open and
the lock free.  On the way every transaction is closed once by the call that
the code makes for it.  The index loops run as the batches of `indexBatches`:
one `BeginTx`, the `indexFile` calls, then one `Rollback` (at the first
error) or one `Commit`, and the database that `Rollback` or `Commit` is
called on has the transaction of the batch open and the lock held.  In the
first transaction of `Rescan` every `rescanPath` leaves the transaction open
and the lock held, for the `Rollback` that follows its error or for the
`Commit` that follows the loop. -/
theorem transactions_closed_on_return (w : World) (path : String) (db : DB) (progress : Chan)
    (h0 : db.tx = none) (hl : db.txLock = false) :
    ((Add w path db progress).2.1.tx = none ∧ (Add w path db progress).2.1.txLock = false) ∧
    ((Rescan w db progress).2.1.tx = none ∧ (Rescan w db progress).2.1.txLock = false) ∧
    (∀ (l : List (String × DirEntry)) (s : IndexState), s.entriesInTx = 0 →
      indexResult (Add.indexLoop w l s) = indexBatches w Add.wrap (chunks l) s.db ∧
      indexResult (Rescan.indexLoop w l s) = indexBatches w Rescan.wrap (chunks l) s.db) ∧
    (∀ (wrap : String → String → String) (c : List (String × DirEntry)) (db0 db1 : DB),
      db0.BeginTx = (none, db1) →
      (indexAll w wrap c db1).2.tx.isSome = true ∧ (indexAll w wrap c db1).2.txLock = true) ∧
    (∀ (paths : List String) (db0 : DB) (toReindex : GoMap DirEntry) (t : Tables),
      db0.tx = some t → db0.txLock = true →
      (∀ p, (rescanPath w db0 p).2.tx.isSome = true ∧ (rescanPath w db0 p).2.txLock = true) ∧
      ((Rescan.scanLoop w paths db0 toReindex).1 = none →
        (Rescan.scanLoop w paths db0 toReindex).2.1.tx.isSome = true ∧
        (Rescan.scanLoop w paths db0 toReindex).2.1.txLock = true)) := by
  refine ⟨add_body_idle w path db progress h0 hl, rescan_body_idle w db progress h0 hl, ?_, ?_,
    ?_⟩
  · intro l s hs
    have h1 := add_indexLoop_resume w l s (by omega)
    have h2 := rescan_indexLoop_resume w l s (by omega)
    rw [if_pos hs] at h1 h2
    exact ⟨h1, h2⟩
  · intro wrap c db0 db1 hb
    obtain ⟨h1, h2⟩ := DB.BeginTx_open db0 db1 hb
    obtain ⟨e, t1, fs, hrun, _, _⟩ := indexAll_tx w wrap c db1 _ h1
    rw [hrun]
    exact ⟨rfl, h2⟩
  · intro paths db0 toReindex t ht hlock
    constructor
    · intro p
      obtain ⟨t1, fs, h1⟩ := rescanPath_tx w db0 p t ht
      rw [h1]
      exact ⟨rfl, hlock⟩
    · intro hn
      rcases scanLoop_tx w paths db0 toReindex t ht hlock with ⟨h1, _, _⟩ | ⟨_, h2, h3⟩
      · exact absurd hn h1
      · exact ⟨h2, h3⟩

/-- `Add` that stops at `/d/A/h` and `Rescan` with a failing storage call
in its first transaction both return an error with no transaction open and
the lock free. -/
theorem transactions_closed_on_return_witness :
    ({} : DB).tx = none ∧ ({} : DB).txLock = false ∧
    (Add exGoneWorld "/d/A" {} {}).1 = some "could not get file info on \x27/d/A/h\x27: gone" ∧
    (Rescan exWorld { exTracked with faults := [false, false, true] } {}).1 =
      some ("could not rescan path \x27/d/A\x27: " ++
        "could not query database: storage failure") ∧
    (Add exGoneWorld "/d/A" {} {}).2.1.tx = none ∧
    (Add exGoneWorld "/d/A" {} {}).2.1.txLock = false :=
  ⟨rfl, rfl, by decide, by decide,
    (transactions_closed_on_return exGoneWorld "/d/A" {} {} rfl rfl).1⟩

/-! ## Rescan of unchanged files -/

/-- C3 (the code at two failing inputs).  First input: the tracked path is
the regular file `/d/file.txt`, which `TrackPath` accepts and `Add` indexes
with size 1 and second 100.  With the file unchanged, `AllFileInfosAt` of the
root returns no entry, its pattern `/d/file.txt/%` not matching the stored
path, so `rescanPath` returns the unchanged file in its reindex map; and
after the file was rewritten `Rescan` returns nil with the old size and
second still stored.  Second input: the roots `/d/A` and `/d/a` of
`exTracked`, one catalogued file under each, nothing changed on disk.
`rescanPath` of `/d/A` is handed both entries and its delete list is
`/d/a/f`; `rescanPath` of `/d/a` then returns the unchanged `/d/a/f` in its
reindex map. -/
theorem rescanPath_unchanged_file_not_kept :
    (Add exFileWorld "/d/file.txt" {} {}).1 = none ∧
    exFileDB.d.tracked_path = ["/d/file.txt"] ∧
    exFileDB.d.file.map (fun r => (r.path, r.size, r.modified)) = [("/d/file.txt", 1, 100)] ∧
    (exFileDB.BeginTx.2.AllFileInfosAt "/d/file.txt").1 = .ok [] ∧
    (rescanPath exFileWorld exFileDB.BeginTx.2 "/d/file.txt").1 =
      .ok [("/d/file.txt", exFile "file.txt" 1 100 0)] ∧
    (Rescan exFileWorldChanged exFileDB {}).1 = none ∧
    (Rescan exFileWorldChanged exFileDB {}).2.1.d.file.map
      (fun r => (r.path, r.size, r.modified)) = [("/d/file.txt", 1, 100)] ∧
    exTracked.d.file.map (fun r => (r.path, r.size, r.modified)) =
      [("/d/A/f", 1, 100), ("/d/a/f", 1, 100)] ∧
    (exTracked.BeginTx.2.AllFileInfosAt "/d/A").1.toOption.map GoMap.keys =
      some ["/d/A/f", "/d/a/f"] ∧
    (filepath.WalkDir (exWorld.Lstat "/d/A") "/d/A" rescanPath.walkFn
      ([] : GoMap DirEntry)) = (none, [("/d/A/f", exFile "f" 1 100 0)]) ∧
    ((exTracked.BeginTx.2.AllFileInfosAt "/d/A").1.toOption.bind
      (fun oldInfos =>
        (rescanPath.diff oldInfos [("/d/A/f", exFile "f" 1 100 0)]).toOption)) =
      some (["/d/a/f"], []) ∧
    (rescanPath exWorld exTracked.BeginTx.2 "/d/A").1 = .ok [] ∧
    (rescanPath exWorld exTracked.BeginTx.2 "/d/A").2.tx.map
      (fun t => t.file.map (fun r => r.path)) = some ["/d/A/f"] ∧
    (rescanPath exWorld (rescanPath exWorld exTracked.BeginTx.2 "/d/A").2 "/d/a").1 =
      .ok [("/d/a/f", exFile "f" 1 100 0)] := by
  decide

end Den
